import Mathlib

/-!
Nemo: the file-operation job queue and the bookmark list pipeline.

A verification development over a shallow embedding of

* `libnemo-private/nemo-job-queue.c` (namespace `JobQueue`), and
* `src/nautilus-bookmark-list.c` (namespace `BookmarkList`).

Pointers are natural numbers.  A GLib `GList` is a Lean `List`; the GLib list
functions used by the sources are embedded with the behaviour documented by
GLib.  Calls into collaborators (the I/O scheduler, the signal system, the
logger) are recorded, in call order, in a `trace` field of the state.
-/

namespace JobQueue

/-! ## Data model -/

/-- Modelled from the spec: the `OpKind` enumeration is declared in
`nemo-job-queue.h`, which is not part of the sources at hand.  The spec describes
it as a small closed enumeration with `Create` and a bucket of other kinds
(copy, move, delete, trash, ...); the bucket is indexed by a number. -/
inductive OpKind where
  | OP_KIND_CREATE : OpKind
  | OP_KIND_OTHER (tag : Nat) : OpKind
deriving DecidableEq, Repr

/-- The `Job` record of nemo-job-queue.c.  `ptr` is the address of the block
returned by `g_slice_new0`; the four other fields are the fields of the C
struct (all of them pointers). -/
structure Job where
  ptr : Nat
  job_func : Nat
  user_data : Nat
  info : Nat
  cancellable : Nat
deriving DecidableEq, Repr

/-- Calls made by the queue into its collaborators, in the order of the source. -/
inductive Call where
  | g_warning : Call
  | g_slice_new0 (new_job : Nat) : Call
  | nemo_progress_info_queue (info : Nat) : Call
  | g_signal_connect_finished (info : Nat) : Call
  | g_io_scheduler_push_job (job : Job) : Call
  | g_slice_free (job : Job) : Call
  | g_signal_emit_new_job : Call
deriving DecidableEq, Repr

/-- The private part of `NemoJobQueue` (struct `_NemoJobQueuePriv`) together with
the trace of collaborator calls. -/
structure NemoJobQueue where
  queued_jobs : List Job
  running_jobs : List Job
  trace : List Call
deriving DecidableEq, Repr

/-! ## GLib list functions -/

/-- `g_list_append`: add an element at the end. -/
def g_list_append (list : List Job) (data : Job) : List Job :=
  list ++ [data]

/-- `g_list_length`. -/
def g_list_length (list : List Job) : Nat :=
  list.length

/-- `g_list_remove`: remove the first element whose data pointer equals `data`;
the list is unchanged when there is none. -/
def g_list_remove : List Job → Job → List Job
  | [], _ => []
  | x :: rest, data =>
    if x.ptr = data.ptr then rest else x :: g_list_remove rest data

/-- `g_list_find_custom`: the first element on which the comparison function
returns 0, or `none` (NULL). -/
def g_list_find_custom (list : List Job) (data : Nat) (func : Job → Nat → Int) :
    Option Job :=
  list.find? (fun a => func a data == 0)

/-! ## The functions of nemo-job-queue.c -/

/-- `nemo_job_queue_init`: both lists NULL. -/
def nemo_job_queue_init : NemoJobQueue :=
  { queued_jobs := [], running_jobs := [], trace := [] }

/-- `compare_info_func` (lines 114-120). -/
def compare_info_func (a : Job) (b : Nat) : Int :=
  if a.info = b then 0 else 1

/-- `compare_job_data_func` (lines 122-128): compares the `job_func` field. -/
def compare_job_data_func (a : Job) (b : Nat) : Int :=
  if a.job_func = b then 0 else 1

/-- `should_start_immediately` (lines 158-173). -/
def should_start_immediately (kind : OpKind) : Bool :=
  match kind with
  | OpKind.OP_KIND_CREATE => true
  | _ => false

/-- `start_job` (lines 210-222). -/
def start_job (self : NemoJobQueue) (job : Job) : NemoJobQueue :=
  { queued_jobs := g_list_remove self.queued_jobs job
    running_jobs := g_list_append self.running_jobs job
    trace := self.trace ++ [Call.g_io_scheduler_push_job job] }

/-- `nemo_job_queue_start_next_job` (lines 224-229). -/
def nemo_job_queue_start_next_job (self : NemoJobQueue) : NemoJobQueue :=
  if g_list_length self.running_jobs = 0 ∧ g_list_length self.queued_jobs > 0 then
    match self.queued_jobs with
    | job :: _ => start_job self job
    | [] => self
  else self

/-- `nemo_job_queue_start_job_by_info` (lines 231-239). -/
def nemo_job_queue_start_job_by_info (self : NemoJobQueue) (info : Nat) : NemoJobQueue :=
  match g_list_find_custom self.queued_jobs info compare_info_func with
  | some target => start_job self target
  | none => self

/-- `job_finished_cb` (lines 130-148).  The result is `none` when both lookups
return NULL: the source then dereferences the NULL pointer. -/
def job_finished_cb (self : NemoJobQueue) (info : Nat) : Option NemoJobQueue :=
  let ptr :=
    match g_list_find_custom self.running_jobs info compare_info_func with
    | some p => some p
    | none => g_list_find_custom self.queued_jobs info compare_info_func
  match ptr with
  | none => none
  | some job =>
    some (nemo_job_queue_start_next_job
      { queued_jobs := g_list_remove self.queued_jobs job
        running_jobs := g_list_remove self.running_jobs job
        trace := self.trace ++ [Call.g_slice_free job] })

/-- `nemo_job_queue_add_new_job` (lines 175-208).  `new_job` is the address
returned by `g_slice_new0 (Job)`. -/
def nemo_job_queue_add_new_job (self : NemoJobQueue) (new_job : Nat)
    (job_func user_data cancellable info : Nat) (kind : OpKind) : NemoJobQueue :=
  if (g_list_find_custom self.queued_jobs user_data compare_job_data_func).isSome then
    { self with trace := self.trace ++ [Call.g_warning] }
  else
    let job : Job :=
      { ptr := new_job, job_func := job_func, user_data := user_data,
        info := info, cancellable := cancellable }
    let s1 : NemoJobQueue :=
      { queued_jobs := g_list_append self.queued_jobs job
        running_jobs := self.running_jobs
        trace := self.trace ++
          [Call.g_slice_new0 new_job, Call.nemo_progress_info_queue info,
            Call.g_signal_connect_finished info] }
    let s2 : NemoJobQueue :=
      if should_start_immediately kind then start_job s1 job
      else nemo_job_queue_start_next_job s1
    { s2 with trace := s2.trace ++ [Call.g_signal_emit_new_job] }

/-- `nemo_job_queue_get_all_jobs` (lines 241-245). -/
def nemo_job_queue_get_all_jobs (self : NemoJobQueue) : List Job :=
  self.queued_jobs

/-! ## Runs of the queue -/

/-- What can happen to a queue: a call of one of the three public operations, or
the `finished` signal of a progress handle reaching `job_finished_cb`. -/
inductive Event where
  | add_new_job (new_job job_func user_data cancellable info : Nat) (kind : OpKind) : Event
  | finished (info : Nat) : Event
  | start_next_job : Event
  | start_job_by_info (info : Nat) : Event
deriving DecidableEq, Repr

/-- One event applied to a queue; `none` only for the NULL dereference of
`job_finished_cb`. -/
def fire (self : NemoJobQueue) : Event → Option NemoJobQueue
  | Event.add_new_job p f u c i k => some (nemo_job_queue_add_new_job self p f u c i k)
  | Event.finished i => job_finished_cb self i
  | Event.start_next_job => some (nemo_job_queue_start_next_job self)
  | Event.start_job_by_info i => some (nemo_job_queue_start_job_by_info self i)

/-- A sequence of events applied from left to right. -/
def run (self : NemoJobQueue) : List Event → Option NemoJobQueue
  | [] => some self
  | e :: rest =>
    match fire self e with
    | some s => run s rest
    | none => none

/-- The event is a submission with a kind other than `OP_KIND_CREATE`. -/
def Event.isOtherSubmit : Event → Bool
  | Event.add_new_job _ _ _ _ _ k => !should_start_immediately k
  | _ => false

/-- The event is a `finished` signal. -/
def Event.isFinished : Event → Bool
  | Event.finished _ => true
  | _ => false

/-- The events of a run made of submissions with a kind other than
`OP_KIND_CREATE` and of `finished` signals. -/
def Event.isOtherSubmitOrFinished (e : Event) : Bool :=
  e.isOtherSubmit || e.isFinished

/-- Every job tracked by the queue, queued ones first. -/
def tracked (self : NemoJobQueue) : List Job :=
  self.queued_jobs ++ self.running_jobs

/-- The jobs handed to the I/O scheduler in a trace, in start order. -/
def startedOf (trace : List Call) : List Job :=
  trace.filterMap fun c =>
    match c with
    | Call.g_io_scheduler_push_job j => some j
    | _ => none

/-- The jobs released by `job_finished_cb` in a trace, in order. -/
def freedOf (trace : List Call) : List Job :=
  trace.filterMap fun c =>
    match c with
    | Call.g_slice_free j => some j
    | _ => none

/-- The addresses obtained from `g_slice_new0` in a trace, in order: one per
accepted submission. -/
def allocatedOf (trace : List Call) : List Nat :=
  trace.filterMap fun c =>
    match c with
    | Call.g_slice_new0 p => some p
    | _ => none

/-- The progress handles passed to `nemo_progress_info_queue` in a trace, in
order: one per accepted submission. -/
def announcedOf (trace : List Call) : List Nat :=
  trace.filterMap fun c =>
    match c with
    | Call.nemo_progress_info_queue i => some i
    | _ => none

/-- The jobs started so far (entered `running_jobs`), in start order. -/
def started (self : NemoJobQueue) : List Job :=
  startedOf self.trace

/-- The jobs whose handle signalled `finished` so far, in order. -/
def freed (self : NemoJobQueue) : List Job :=
  freedOf self.trace

/-- The addresses of the jobs accepted so far, in submission order. -/
def allocated (self : NemoJobQueue) : List Nat :=
  allocatedOf self.trace

/-- The progress handles of the jobs accepted so far, in submission order. -/
def announced (self : NemoJobQueue) : List Nat :=
  announcedOf self.trace

/-- The events of a first-in-first-out run, as enabled in a state: a submission
with a kind other than `OP_KIND_CREATE` whose block is fresh (`g_slice_new0`
never returns the address of a job still tracked), or the `finished` signal of
the handle of a running job. -/
def fifoEnabled (self : NemoJobQueue) : Event → Bool
  | Event.add_new_job p _ _ _ _ k =>
    !should_start_immediately k && (tracked self).all (fun j => j.ptr != p)
  | Event.finished i => self.running_jobs.any (fun j => j.info == i)
  | _ => false

/-- The allocator's guarantee, as a condition on an event in a state: a
submission gets a block that is not the block of a job still tracked; every
other event is allowed. -/
def freshEnabled (self : NemoJobQueue) : Event → Bool
  | Event.add_new_job p _ _ _ _ _ => (tracked self).all (fun j => j.ptr != p)
  | _ => true

/-- A sequence of events applied from left to right, each one required to be
enabled by `guard` in the state it meets. -/
def runGuarded (guard : NemoJobQueue → Event → Bool) (self : NemoJobQueue) :
    List Event → Option NemoJobQueue
  | [] => some self
  | e :: rest =>
    if guard self e then
      match fire self e with
      | some s => runGuarded guard s rest
      | none => none
    else none

/-- The first-in-first-out bookkeeping of a queue: the accepted jobs (by block
and by progress handle) are the started ones followed by the queued ones, the started jobs are the finished ones
followed by the running ones, at most one job runs, and the tracked jobs are
distinct blocks. -/
def FifoInv (self : NemoJobQueue) : Prop :=
  allocated self = (started self ++ self.queued_jobs).map Job.ptr ∧
    announced self = (started self ++ self.queued_jobs).map Job.info ∧
    started self = freed self ++ self.running_jobs ∧
    self.running_jobs.length ≤ 1 ∧
    ((tracked self).map Job.ptr).Nodup

/-- The caller protocol for progress handles, as a condition on an event in a
state: a submission gets a fresh block and, unless the duplicate check rejects
it, a progress handle that no tracked job uses; a handle signals `finished` only
after a submission with it was accepted and only if it has not signalled
before; the two start operations are always allowed. -/
def protocolEnabled (self : NemoJobQueue) : Event → Bool
  | Event.add_new_job p _ u _ i _ =>
    (tracked self).all (fun j => j.ptr != p) &&
      ((g_list_find_custom self.queued_jobs u compare_job_data_func).isSome ||
        (tracked self).all (fun j => j.info != i))
  | Event.finished i =>
    (announced self).contains i && !((freed self).map Job.info).contains i
  | _ => true

/-- The bookkeeping of accepted jobs: the tracked jobs are distinct blocks, and
the blocks handed out so far are, up to order, those of the tracked jobs and
those of the jobs released on `finished`. -/
def TrackInv (self : NemoJobQueue) : Prop :=
  ((tracked self).map Job.ptr).Nodup ∧
    (allocated self).Perm ((tracked self ++ freed self).map Job.ptr)

/-- The bookkeeping of progress handles: the tracked jobs are distinct blocks,
and every handle accepted so far that has not signalled `finished` is the handle
of a tracked job. -/
def HandleInv (self : NemoJobQueue) : Prop :=
  ((tracked self).map Job.ptr).Nodup ∧
    ∀ i ∈ announced self, i ∉ (freed self).map Job.info → ∃ j ∈ tracked self, j.info = i

/-- The queue is work-conserving: a job waits only while another one runs. -/
def WorkConserving (self : NemoJobQueue) : Prop :=
  self.queued_jobs ≠ [] → self.running_jobs ≠ []

/-! ## Sample runs -/

/-- The events of the run used to illustrate single concurrency: two
submissions and the completion of the first. -/
def demoSerialEvents : List Event :=
  [Event.add_new_job 100 1 2 0 10 (OpKind.OP_KIND_OTHER 0),
   Event.add_new_job 101 1 3 0 11 (OpKind.OP_KIND_OTHER 0),
   Event.finished 10]

/-- The state the sample run ends in. -/
def demoSerialState : NemoJobQueue :=
  (run nemo_job_queue_init demoSerialEvents).getD nemo_job_queue_init

/-- A busy queue: job 100 (handle 10) running, job 101 (handle 11) queued behind it. -/
def demoBusyState : NemoJobQueue :=
  nemo_job_queue_add_new_job
    (nemo_job_queue_add_new_job nemo_job_queue_init 100 1 2 0 10 (OpKind.OP_KIND_OTHER 0))
    101 1 3 0 11 (OpKind.OP_KIND_OTHER 0)

/-- The queue after one submission with kind `OP_KIND_CREATE` to the empty queue. -/
def demoCreateState : NemoJobQueue :=
  nemo_job_queue_add_new_job nemo_job_queue_init 100 1 2 0 10 OpKind.OP_KIND_CREATE

/-- The queue after three submissions that all carry the user-data handle 2. -/
def demoDuplicateState : NemoJobQueue :=
  nemo_job_queue_add_new_job
    (nemo_job_queue_add_new_job
      (nemo_job_queue_add_new_job nemo_job_queue_init 100 1 2 0 10 (OpKind.OP_KIND_OTHER 0))
      101 1 2 0 11 (OpKind.OP_KIND_OTHER 0))
    102 1 2 0 12 (OpKind.OP_KIND_OTHER 0)

/-- A run with every kind of event: three submissions (the second of kind
create), a forced start of the queued job, two completions and a call of
`nemo_job_queue_start_next_job`. -/
def demoMixedEvents : List Event :=
  [Event.add_new_job 100 1 2 0 10 (OpKind.OP_KIND_OTHER 0),
   Event.add_new_job 101 3 4 0 11 OpKind.OP_KIND_CREATE,
   Event.add_new_job 102 5 6 0 12 (OpKind.OP_KIND_OTHER 0),
   Event.start_job_by_info 12,
   Event.finished 11,
   Event.add_new_job 103 7 8 0 13 (OpKind.OP_KIND_OTHER 0),
   Event.finished 10,
   Event.start_next_job]

/-- The state the mixed run ends in. -/
def demoMixedState : NemoJobQueue :=
  (run nemo_job_queue_init demoMixedEvents).getD nemo_job_queue_init

end JobQueue

namespace BookmarkList

/-! ## Data model -/

/-- Modelled from the spec: `NautilusBookmark` lives in nautilus-bookmark.c, which
is not part of the sources at hand.  The spec describes a bookmark as a value
object pairing a location URI with an optional custom display label; the "has
custom name" flag is set exactly when a label was given.  Strings are C strings,
modelled as lists of characters. -/
structure NautilusBookmark where
  uri : List Char
  label : Option (List Char)
deriving DecidableEq, Repr

/-- Modelled from the spec: `nautilus_bookmark_get_uri` of the absent
nautilus-bookmark.c, the location URI of the bookmark. -/
def nautilus_bookmark_get_uri (bookmark : NautilusBookmark) : List Char :=
  bookmark.uri

/-- Modelled from the spec: `nautilus_bookmark_get_has_custom_name` of the absent
nautilus-bookmark.c, true when a custom label is set. -/
def nautilus_bookmark_get_has_custom_name (bookmark : NautilusBookmark) : Bool :=
  bookmark.label.isSome

/-- Modelled from the spec: `nautilus_bookmark_get_name` of the absent
nautilus-bookmark.c; the source reads it only for a bookmark with a custom
label, and it is then that label. -/
def nautilus_bookmark_get_name (bookmark : NautilusBookmark) : List Char :=
  bookmark.label.getD []

/-- Modelled from the spec: `nautilus_bookmark_copy` of the absent
nautilus-bookmark.c, a deep copy (the same value). -/
def nautilus_bookmark_copy (bookmark : NautilusBookmark) : NautilusBookmark :=
  bookmark

/-- Modelled from the spec: `nautilus_bookmark_new (location, label, NULL)` of the
absent nautilus-bookmark.c, with the location given by its URI. -/
def nautilus_bookmark_new (location : List Char) (label : Option (List Char)) :
    NautilusBookmark :=
  { uri := location, label := label }

def LOAD_JOB : Nat := 1

def SAVE_JOB : Nat := 2

/-- `G_FILE_MONITOR_EVENT_CHANGED` of GIO. -/
def G_FILE_MONITOR_EVENT_CHANGED : Nat := 0

/-- `G_FILE_MONITOR_EVENT_CREATED` of GIO. -/
def G_FILE_MONITOR_EVENT_CREATED : Nat := 3

/-- An asynchronous operation handed to a worker thread
(`g_simple_async_result_run_in_thread`): a load, or a save carrying the text
to write. -/
inductive AsyncOp where
  | load : AsyncOp
  | save (contents : List Char) : AsyncOp
deriving DecidableEq, Repr

/-- Calls made by the bookmark list into its collaborators. -/
inductive Call where
  | g_signal_emit_changed : Call
  | g_queue_push_head (op : Nat) : Call
  | g_queue_pop_tail (op : Nat) : Call
  | g_simple_async_result_run_in_thread (op : AsyncOp) : Call
  | g_file_replace_contents (contents : List Char) : Call
  | g_warning : Call
  | g_return_if_fail_warning : Call
deriving DecidableEq, Repr

/-- One of the two backing files as a worker thread finds it. -/
inductive FileState where
  | missing : FileState
  | denied : FileState
  | present (contents : List Char) : FileState
deriving DecidableEq, Repr

/-- The two backing files: the primary `gtk-3.0/bookmarks` in the user's
configuration directory and the legacy `.gtk-bookmarks` in the home directory. -/
structure FileSystem where
  primary : FileState
  legacy : FileState
deriving DecidableEq, Repr

/-- The fields of `NautilusBookmarkList`: the list, whether `monitor` is
non-NULL, the queue `pending_ops` (head first), the operations running in a
worker thread whose callback has not yet run, and the trace of calls. -/
structure NautilusBookmarkList where
  list : List NautilusBookmark
  monitor : Bool
  pending_ops : List Nat
  in_flight : List AsyncOp
  trace : List Call
deriving DecidableEq, Repr

/-! ## GLib functions -/

/-- Conversion of a `guint` to `gint` (32-bit two's complement). -/
def toGint (n : Nat) : Int :=
  if n % 2 ^ 32 < 2 ^ 31 then ((n % 2 ^ 32 : Nat) : Int)
  else ((n % 2 ^ 32 : Nat) : Int) - 2 ^ 32

/-- `g_list_length`. -/
def g_list_length (list : List NautilusBookmark) : Nat :=
  list.length

/-- `g_list_nth`: the node at position `n` (its position and data), or `none`
(NULL) off the end. -/
def g_list_nth (list : List NautilusBookmark) (n : Nat) : Option (Nat × NautilusBookmark) :=
  match list.get? n with
  | some data => some (n, data)
  | none => none

/-- `g_list_nth_data`. -/
def g_list_nth_data (list : List NautilusBookmark) (n : Nat) : Option NautilusBookmark :=
  list.get? n

/-- `g_list_remove_link`: unlink the given node; a NULL node leaves the list
as it is. -/
def g_list_remove_link (list : List NautilusBookmark) (link : Option (Nat × NautilusBookmark)) :
    List NautilusBookmark :=
  match link with
  | some (n, _) => list.eraseIdx n
  | none => list

/-- `g_list_insert`: a negative position or one off the end appends. -/
def g_list_insert (list : List NautilusBookmark) (data : NautilusBookmark) (position : Int) :
    List NautilusBookmark :=
  if position < 0 then list ++ [data]
  else if position = 0 then data :: list
  else if position.toNat < list.length then
    list.take position.toNat ++ data :: list.drop position.toNat
  else list ++ [data]

/-- `g_queue_push_head`. -/
def g_queue_push_head (queue : List Nat) (data : Nat) : List Nat :=
  data :: queue

/-- `g_queue_peek_tail`: the last element, NULL (0) for an empty queue. -/
def g_queue_peek_tail (queue : List Nat) : Nat :=
  queue.getLast?.getD 0

/-- `g_queue_pop_tail`: the queue without its last element. -/
def g_queue_pop_tail (queue : List Nat) : List Nat :=
  queue.dropLast

/-- `g_queue_get_length`. -/
def g_queue_get_length (queue : List Nat) : Nat :=
  queue.length

/-- `g_queue_is_empty`. -/
def g_queue_is_empty (queue : List Nat) : Bool :=
  queue.isEmpty

/-- The C string at a `gchar *`: the characters before the first NUL. -/
def c_string (bytes : List Char) : List Char :=
  bytes.takeWhile (fun c => c != '\x00')

/-- The tokens of a non-empty string cut at every newline. -/
def g_strsplit_tokens : List Char → List (List Char)
  | [] => [[]]
  | c :: rest =>
    if c = '\n' then [] :: g_strsplit_tokens rest
    else
      match g_strsplit_tokens rest with
      | tok :: toks => (c :: tok) :: toks
      | [] => [[c]]

/-- `g_strsplit (string, "\n", -1)`: `string` is read as a C string, up to its
first NUL; the empty string gives the empty vector. -/
def g_strsplit (string : List Char) : List (List Char) :=
  let s := c_string string
  if s = [] then [] else g_strsplit_tokens s

/-- `g_strcmp0` on two non-NULL strings. -/
def g_strcmp0 (str1 str2 : List Char) : Int :=
  if str1 = str2 then 0 else if str1 < str2 then -1 else 1

/-! ## The functions of nautilus-bookmark-list.c -/

/-- `new_bookmark_from_uri` (lines 56-75), for the non-NULL `uri` its only
caller passes: `g_file_new_for_uri` always gives a location. -/
def new_bookmark_from_uri (uri : List Char) (label : Option (List Char)) : NautilusBookmark :=
  nautilus_bookmark_new uri label

/-- `clear` (lines 151-157). -/
def clear (bookmarks : NautilusBookmarkList) : NautilusBookmarkList :=
  { bookmarks with list := [] }

/-- `insert_bookmark_internal` (lines 225-238). -/
def insert_bookmark_internal (bookmarks : NautilusBookmarkList) (bookmark : NautilusBookmark)
    (index : Int) : NautilusBookmarkList :=
  { bookmarks with list := g_list_insert bookmarks.list bookmark index }

/-- `load_io_thread` (lines 496-520): the contents handed to the callback (`none`
is NULL) and the warnings logged. -/
def load_io_thread (fs : FileSystem) : Option (List Char) × List Call :=
  let file := if fs.primary = FileState.missing then fs.legacy else fs.primary
  match file with
  | FileState.present contents => (some contents, [])
  | FileState.missing => (none, [])
  | FileState.denied => (none, [Call.g_warning])

/-- `load_file_async` (lines 522-535). -/
def load_file_async (self : NautilusBookmarkList) : NautilusBookmarkList :=
  let s := clear self
  { s with
    in_flight := s.in_flight ++ [AsyncOp.load]
    trace := s.trace ++ [Call.g_simple_async_result_run_in_thread AsyncOp.load] }

/-- The loop of `save_file_async` (lines 604-624): the text of a list. -/
def bookmark_string : List NautilusBookmark → List Char
  | [] => []
  | bookmark :: l =>
    (if nautilus_bookmark_get_has_custom_name bookmark then
      nautilus_bookmark_get_uri bookmark ++ ' ' :: nautilus_bookmark_get_name bookmark ++ ['\n']
    else
      nautilus_bookmark_get_uri bookmark ++ ['\n']) ++ bookmark_string l

/-- `save_file_async` (lines 588-634). -/
def save_file_async (self : NautilusBookmarkList) : NautilusBookmarkList :=
  let contents := bookmark_string self.list
  { self with
    monitor := false
    in_flight := self.in_flight ++ [AsyncOp.save contents]
    trace := self.trace ++ [Call.g_simple_async_result_run_in_thread (AsyncOp.save contents)] }

/-- `save_io_thread` (lines 557-586): the calls it makes. -/
def save_io_thread (fs : FileSystem) (contents : List Char) : List Call :=
  Call.g_file_replace_contents contents ::
    (if fs.primary = FileState.denied then [Call.g_warning] else [])

/-- `process_next_op` (lines 636-648). -/
def process_next_op (bookmarks : NautilusBookmarkList) : NautilusBookmarkList :=
  let op := g_queue_peek_tail bookmarks.pending_ops
  if op = LOAD_JOB then load_file_async bookmarks else save_file_async bookmarks

/-- `op_processed_cb` (lines 444-452). -/
def op_processed_cb (self : NautilusBookmarkList) : NautilusBookmarkList :=
  let s : NautilusBookmarkList :=
    { self with
      pending_ops := g_queue_pop_tail self.pending_ops
      trace := self.trace ++ [Call.g_queue_pop_tail (g_queue_peek_tail self.pending_ops)] }
  if !g_queue_is_empty s.pending_ops then process_next_op s else s

/-- The body of the loop of `load_callback` (lines 472-487) for one line of the
vector of `g_strsplit`, a string without NUL. -/
def load_line (self : NautilusBookmarkList) (line : List Char) : NautilusBookmarkList :=
  match line with
  | [] => self
  | c :: _ =>
    if c ≠ ' ' then
      match line.span (fun x => x != ' ') with
      | (uri, _ :: label) =>
        insert_bookmark_internal self (new_bookmark_from_uri uri (some label)) (-1)
      | (uri, []) =>
        insert_bookmark_internal self (new_bookmark_from_uri uri none) (-1)
    else self

/-- `load_callback` (lines 454-494); `contents` is the result stored by
`load_io_thread`, `none` for NULL, otherwise the bytes of the file, of which
`g_strsplit` reads those before the first NUL. -/
def load_callback (self : NautilusBookmarkList) (contents : Option (List Char)) :
    NautilusBookmarkList :=
  match contents with
  | none => self
  | some contents =>
    let lines := g_strsplit contents
    let s := lines.foldl load_line self
    op_processed_cb { s with trace := s.trace ++ [Call.g_signal_emit_changed] }

/-- `save_callback` (lines 537-555). -/
def save_callback (self : NautilusBookmarkList) : NautilusBookmarkList :=
  op_processed_cb { self with monitor := true }

/-- `nautilus_bookmark_list_load_file` (lines 656-664). -/
def nautilus_bookmark_list_load_file (bookmarks : NautilusBookmarkList) : NautilusBookmarkList :=
  let s : NautilusBookmarkList :=
    { bookmarks with
      pending_ops := g_queue_push_head bookmarks.pending_ops LOAD_JOB
      trace := bookmarks.trace ++ [Call.g_queue_push_head LOAD_JOB] }
  if g_queue_get_length s.pending_ops = 1 then process_next_op s else s

/-- `nautilus_bookmark_list_save_file` (lines 672-682). -/
def nautilus_bookmark_list_save_file (bookmarks : NautilusBookmarkList) : NautilusBookmarkList :=
  let s : NautilusBookmarkList :=
    { bookmarks with
      pending_ops := g_queue_push_head bookmarks.pending_ops SAVE_JOB
      trace := bookmarks.trace ++ [Call.g_signal_emit_changed, Call.g_queue_push_head SAVE_JOB] }
  if g_queue_get_length s.pending_ops = 1 then process_next_op s else s

/-- `bookmark_in_list_changed_callback` (lines 112-121). -/
def bookmark_in_list_changed_callback (bookmarks : NautilusBookmarkList) : NautilusBookmarkList :=
  nautilus_bookmark_list_save_file bookmarks

/-- `bookmark_in_list_notify` (lines 123-130). -/
def bookmark_in_list_notify (bookmarks : NautilusBookmarkList) : NautilusBookmarkList :=
  { bookmarks with trace := bookmarks.trace ++ [Call.g_signal_emit_changed] }

/-- `bookmark_monitor_changed_cb` (lines 192-204). -/
def bookmark_monitor_changed_cb (bookmarks : NautilusBookmarkList) (eflags : Nat) :
    NautilusBookmarkList :=
  if eflags = G_FILE_MONITOR_EVENT_CHANGED ∨ eflags = G_FILE_MONITOR_EVENT_CREATED then
    nautilus_bookmark_list_load_file bookmarks
  else bookmarks

/-- `nautilus_bookmark_list_init` (lines 206-223), on the zero-filled instance. -/
def nautilus_bookmark_list_init : NautilusBookmarkList :=
  let s := nautilus_bookmark_list_load_file
    { list := [], monitor := false, pending_ops := [], in_flight := [], trace := [] }
  { s with monitor := true }

/-- `nautilus_bookmark_list_append` (lines 247-259). -/
def nautilus_bookmark_list_append (bookmarks : NautilusBookmarkList)
    (bookmark : NautilusBookmark) : NautilusBookmarkList :=
  nautilus_bookmark_list_save_file
    (insert_bookmark_internal bookmarks (nautilus_bookmark_copy bookmark) (-1))

/-- `nautilus_bookmark_list_delete_item_at` (lines 290-309). -/
def nautilus_bookmark_list_delete_item_at (bookmarks : NautilusBookmarkList) (index : Nat) :
    NautilusBookmarkList :=
  if index < g_list_length bookmarks.list then
    let doomed := g_list_nth bookmarks.list index
    nautilus_bookmark_list_save_file
      { bookmarks with list := g_list_remove_link bookmarks.list doomed }
  else { bookmarks with trace := bookmarks.trace ++ [Call.g_return_if_fail_warning] }

/-- `nautilus_bookmark_list_move_item` (lines 318-344); `none` when
`bookmark_item` is NULL and the source reads `bookmark_item->data`. -/
def nautilus_bookmark_list_move_item (bookmarks : NautilusBookmarkList)
    (index destination : Nat) : Option NautilusBookmarkList :=
  if index = destination then some bookmarks
  else
    let bookmark_item := g_list_nth bookmarks.list index
    let list := g_list_remove_link bookmarks.list bookmark_item
    match bookmark_item with
    | none => none
    | some (_, data) =>
      if index < destination then
        some (nautilus_bookmark_list_save_file
          { bookmarks with list := g_list_insert list data (toGint (destination - 1)) })
      else
        some (nautilus_bookmark_list_save_file
          { bookmarks with list := g_list_insert list data (toGint destination) })

/-- The loop of `nautilus_bookmark_list_delete_items_with_uri` (lines 365-377):
`kept` are the nodes already passed and still linked, the second list starts at
`node`; the result is the final list and `list_changed`. -/
def delete_items_loop (uri : List Char) :
    List NautilusBookmark → List NautilusBookmark → Bool → List NautilusBookmark × Bool
  | kept, [], list_changed => (kept, list_changed)
  | kept, node :: next, list_changed =>
    if g_strcmp0 (nautilus_bookmark_get_uri node) uri = 0 then
      delete_items_loop uri kept next true
    else
      delete_items_loop uri (kept ++ [node]) next list_changed

/-- `nautilus_bookmark_list_delete_items_with_uri` (lines 353-382), for a
non-NULL `uri`. -/
def nautilus_bookmark_list_delete_items_with_uri (bookmarks : NautilusBookmarkList)
    (uri : List Char) : NautilusBookmarkList :=
  match delete_items_loop uri [] bookmarks.list false with
  | (list, list_changed) =>
    if list_changed then nautilus_bookmark_list_save_file { bookmarks with list := list }
    else { bookmarks with list := list }

/-- `nautilus_bookmark_list_insert_item` (lines 392-405). -/
def nautilus_bookmark_list_insert_item (bookmarks : NautilusBookmarkList)
    (new_bookmark : NautilusBookmark) (index : Nat) : NautilusBookmarkList :=
  if index ≤ g_list_length bookmarks.list then
    nautilus_bookmark_list_save_file
      (insert_bookmark_internal bookmarks (nautilus_bookmark_copy new_bookmark) (toGint index))
  else { bookmarks with trace := bookmarks.trace ++ [Call.g_return_if_fail_warning] }

/-- `nautilus_bookmark_list_item_at` (lines 416-423). -/
def nautilus_bookmark_list_item_at (bookmarks : NautilusBookmarkList) (index : Nat) :
    Option NautilusBookmark :=
  if index < g_list_length bookmarks.list then g_list_nth_data bookmarks.list index
  else none

/-- `nautilus_bookmark_list_length` (lines 433-439). -/
def nautilus_bookmark_list_length (bookmarks : NautilusBookmarkList) : Nat :=
  g_list_length bookmarks.list

/-! ## Runs of the bookmark list -/

/-- What can happen to a bookmark list: a call of a public mutator, a signal of
a listed bookmark (after the bookmark at `index` took the value `bookmark`), an
event of the file monitor, or the worker thread of the oldest operation in
flight finishing against the file system `fs` and its callback running. -/
inductive Event where
  | append (bookmark : NautilusBookmark) : Event
  | insert_item (bookmark : NautilusBookmark) (index : Nat) : Event
  | delete_item_at (index : Nat) : Event
  | move_item (index destination : Nat) : Event
  | delete_items_with_uri (uri : List Char) : Event
  | contents_changed (index : Nat) (bookmark : NautilusBookmark) : Event
  | notify (index : Nat) (bookmark : NautilusBookmark) : Event
  | monitor_changed (eflags : Nat) : Event
  | complete (fs : FileSystem) : Event
deriving DecidableEq, Repr

/-- The worker thread of the oldest operation in flight runs against `fs`, then
its callback runs in the main loop; `none` when nothing is in flight. -/
def complete (self : NautilusBookmarkList) (fs : FileSystem) : Option NautilusBookmarkList :=
  match self.in_flight with
  | [] => none
  | AsyncOp.load :: rest =>
    let r := load_io_thread fs
    some (load_callback { self with in_flight := rest, trace := self.trace ++ r.2 } r.1)
  | AsyncOp.save contents :: rest =>
    some (save_callback
      { self with in_flight := rest, trace := self.trace ++ save_io_thread fs contents })

/-- One event applied to a bookmark list; `none` when the event cannot happen
(no operation in flight, no bookmark at `index`) or the source dereferences
NULL. -/
def fire (self : NautilusBookmarkList) : Event → Option NautilusBookmarkList
  | Event.append b => some (nautilus_bookmark_list_append self b)
  | Event.insert_item b i => some (nautilus_bookmark_list_insert_item self b i)
  | Event.delete_item_at i => some (nautilus_bookmark_list_delete_item_at self i)
  | Event.move_item i d => nautilus_bookmark_list_move_item self i d
  | Event.delete_items_with_uri u => some (nautilus_bookmark_list_delete_items_with_uri self u)
  | Event.contents_changed i b =>
    if i < self.list.length then
      some (bookmark_in_list_changed_callback { self with list := self.list.set i b })
    else none
  | Event.notify i b =>
    if i < self.list.length then
      some (bookmark_in_list_notify { self with list := self.list.set i b })
    else none
  | Event.monitor_changed eflags => some (bookmark_monitor_changed_cb self eflags)
  | Event.complete fs => complete self fs

/-- A sequence of events applied from left to right. -/
def run (self : NautilusBookmarkList) : List Event → Option NautilusBookmarkList
  | [] => some self
  | e :: rest =>
    match fire self e with
    | some s => run s rest
    | none => none

/-- The event is the completion of the operation in flight. -/
def Event.isComplete : Event → Bool
  | Event.complete _ => true
  | _ => false

/-- The operations handed to a worker thread so far, in dispatch order. -/
def dispatched (self : NautilusBookmarkList) : List AsyncOp :=
  self.trace.filterMap fun c =>
    match c with
    | Call.g_simple_async_result_run_in_thread op => some op
    | _ => none

/-- The tags pushed onto `pending_ops` so far, in request order. -/
def requested (self : NautilusBookmarkList) : List Nat :=
  self.trace.filterMap fun c =>
    match c with
    | Call.g_queue_push_head op => some op
    | _ => none

/-- The tags popped from `pending_ops` so far, in order. -/
def popped (self : NautilusBookmarkList) : List Nat :=
  self.trace.filterMap fun c =>
    match c with
    | Call.g_queue_pop_tail op => some op
    | _ => none

/-- The number of `changed` notifications emitted so far. -/
def changed_count (self : NautilusBookmarkList) : Nat :=
  self.trace.count Call.g_signal_emit_changed

/-- The texts passed to `g_file_replace_contents` so far, in order. -/
def written (self : NautilusBookmarkList) : List (List Char) :=
  self.trace.filterMap fun c =>
    match c with
    | Call.g_file_replace_contents contents => some contents
    | _ => none

/-- The tag under which `process_next_op` dispatches an operation of this shape. -/
def AsyncOp.tag : AsyncOp → Nat
  | AsyncOp.load => LOAD_JOB
  | AsyncOp.save _ => SAVE_JOB

/-! ## The pipeline seen without the bookmarks -/

/-- What the load/save pipeline of a bookmark list shows when the bookmarks
themselves are left out: `pending_ops` oldest tag first, the tags of the
operations in flight, and the tags requested, popped and dispatched so far. -/
structure PipeView where
  queue : List Nat
  flying : List Nat
  requested : List Nat
  popped : List Nat
  dispatched : List Nat
deriving DecidableEq, Repr

/-- The pipeline view of a bookmark list. -/
def view (self : NautilusBookmarkList) : PipeView :=
  { queue := self.pending_ops.reverse
    flying := self.in_flight.map AsyncOp.tag
    requested := requested self
    popped := popped self
    dispatched := (dispatched self).map AsyncOp.tag }

/-- The view after `process_next_op`. -/
def PipeView.dispatch (v : PipeView) : PipeView :=
  { v with
    flying := v.flying ++ [if v.queue.head?.getD 0 = LOAD_JOB then LOAD_JOB else SAVE_JOB]
    dispatched :=
      v.dispatched ++ [if v.queue.head?.getD 0 = LOAD_JOB then LOAD_JOB else SAVE_JOB] }

/-- The view after `nautilus_bookmark_list_load_file` (tag `LOAD_JOB`) or
`nautilus_bookmark_list_save_file` (tag `SAVE_JOB`). -/
def PipeView.request (v : PipeView) (t : Nat) : PipeView :=
  if v.queue = [] then
    PipeView.dispatch { v with queue := v.queue ++ [t], requested := v.requested ++ [t] }
  else { v with queue := v.queue ++ [t], requested := v.requested ++ [t] }

/-- The view after `op_processed_cb`. -/
def PipeView.processed (v : PipeView) : PipeView :=
  if v.queue.tail = [] then
    { v with queue := v.queue.tail, popped := v.popped ++ [v.queue.head?.getD 0] }
  else
    PipeView.dispatch
      { v with queue := v.queue.tail, popped := v.popped ++ [v.queue.head?.getD 0] }

/-- The view once the oldest operation in flight has left its worker thread. -/
def PipeView.landed (v : PipeView) : PipeView :=
  { v with flying := v.flying.tail }

/-- The bookkeeping of the pipeline: the requested tags are the popped ones
followed by the pending ones; the dispatched tags are the popped ones followed by
the oldest pending one; an operation in flight carries the oldest pending tag; at
most one operation is in flight; every pending tag is `LOAD_JOB` or `SAVE_JOB`. -/
def PipeInv (v : PipeView) : Prop :=
  v.requested = v.popped ++ v.queue ∧
    v.dispatched = v.popped ++ v.queue.head?.toList ∧
    (∀ t ∈ v.flying, some t = v.queue.head?) ∧
    v.flying.length ≤ 1 ∧
    (∀ t ∈ v.queue, t = LOAD_JOB ∨ t = SAVE_JOB)

/-! ## The file format in the words of the spec -/

/-- The record of one bookmark as the spec writes it: the URI and a newline, or
the URI, one space, the label and a newline when a custom label is set. -/
def serialise_line_spec (bookmark : NautilusBookmark) : List Char :=
  match bookmark.label with
  | none => bookmark.uri ++ ['\n']
  | some label => bookmark.uri ++ [' '] ++ label ++ ['\n']

/-- The text of a list as the spec writes it: the records of its bookmarks one
after the other, in list order. -/
def serialise_spec (list : List NautilusBookmark) : List Char :=
  (list.map serialise_line_spec).flatten

/-- The bookmark a line stands for, as the spec reads it: none for an empty line
or a line starting with a space; otherwise the URI is the part before the first
space and the label is everything after that space, or absent when the line has
no space. -/
def parse_line_spec (line : List Char) : Option NautilusBookmark :=
  if line = [] ∨ line.head? = some ' ' then none
  else
    some
      { uri := line.takeWhile (fun c => c != ' ')
        label :=
          if ' ' ∈ line then some (line.dropWhile (fun c => c != ' ')).tail else none }

/-- The bookmarks of a file content as the spec reads it: the content cut at
every newline, one bookmark per line that stands for one, in line order. -/
def parse_spec (contents : List Char) : List NautilusBookmark :=
  (contents.splitOn '\n').filterMap parse_line_spec

/-- The bookmark survives a save followed by a load: its URI is not empty and
holds neither a space nor a newline, and its label, if any, holds no newline. -/
def roundTrips (bookmark : NautilusBookmark) : Bool :=
  !bookmark.uri.isEmpty && !bookmark.uri.contains ' ' && !bookmark.uri.contains '\n' &&
    match bookmark.label with
    | none => true
    | some label => !label.contains '\n'

/-- The strings of the bookmark are C strings: neither its URI nor its label
holds a NUL. -/
def holds_c_strings (bookmark : NautilusBookmark) : Bool :=
  !bookmark.uri.contains '\x00' &&
    match bookmark.label with
    | none => true
    | some label => !label.contains '\x00'

/-- Where `nautilus_bookmark_list_move_item` puts the moved entry in the list
it was taken out of (a list of `length` entries before the removal): moving
forward to a destination within the list targets `destination - 1`, moving
forward past the end puts the entry last, moving backward targets
`destination`. -/
def move_position (length index destination : Nat) : Nat :=
  if index < destination then
    if destination ≤ length then destination - 1 else length - 1
  else destination

/-! ## Sample runs -/

/-- The bookmark `file:///a`, without a label. -/
def demoBookmarkA : NautilusBookmark :=
  { uri := "file:///a".toList, label := none }

/-- The bookmark `file:///b` with the label `My B`. -/
def demoBookmarkB : NautilusBookmark :=
  { uri := "file:///b".toList, label := some "My B".toList }

/-- A file system whose primary file holds one bookmark line. -/
def demoFs : FileSystem :=
  { primary := FileState.present "file:///a\n".toList, legacy := FileState.missing }

/-- A file system with neither backing file. -/
def demoFsMissing : FileSystem :=
  { primary := FileState.missing, legacy := FileState.missing }

/-- A file system whose primary file exists but cannot be read. -/
def demoFsDenied : FileSystem :=
  { primary := FileState.denied, legacy := FileState.missing }

/-- A burst: the initial load completes, an append puts a save in flight, then
two more saves and a load are requested, and everything completes in turn. -/
def demoBurstEvents : List Event :=
  [Event.complete demoFs, Event.append demoBookmarkB,
   Event.append demoBookmarkA, Event.delete_item_at 0,
   Event.monitor_changed G_FILE_MONITOR_EVENT_CHANGED,
   Event.complete demoFs, Event.complete demoFs, Event.complete demoFs]

/-- The state at the end of the burst, its last load still in flight. -/
def demoBurstState : NautilusBookmarkList :=
  (run nautilus_bookmark_list_init demoBurstEvents).getD nautilus_bookmark_list_init

/-- The same burst up to the point where the three requests wait behind the
save in flight. -/
def demoQueuedEvents : List Event :=
  [Event.complete demoFs, Event.append demoBookmarkB,
   Event.append demoBookmarkA, Event.delete_item_at 0,
   Event.monitor_changed G_FILE_MONITOR_EVENT_CHANGED]

/-- The state in which the three requests wait behind the save in flight. -/
def demoQueuedState : NautilusBookmarkList :=
  (run nautilus_bookmark_list_init demoQueuedEvents).getD nautilus_bookmark_list_init

/-- The list after its initial load found neither backing file. -/
def demoMissingLoadState : NautilusBookmarkList :=
  (complete nautilus_bookmark_list_init demoFsMissing).getD nautilus_bookmark_list_init

/-- The list after its initial load failed on an unreadable file. -/
def demoDeniedLoadState : NautilusBookmarkList :=
  (complete nautilus_bookmark_list_init demoFsDenied).getD nautilus_bookmark_list_init

/-- The list of the round-trip example: `file:///a` without a label, then
`file:///b` labelled `My B`. -/
def demoBookmarks : List NautilusBookmark :=
  [demoBookmarkA, demoBookmarkB]

/-- The text of the round-trip example. -/
def demoText : List Char :=
  "file:///a\nfile:///b My B\n".toList

/-- A file system whose primary file holds the three lines X, Y, Z. -/
def demoFsXYZ : FileSystem :=
  { primary := FileState.present "X\nY\nZ\n".toList, legacy := FileState.missing }

/-- The idle list holding the bookmarks X, Y, Z: a new list whose initial load
read the three lines. -/
def demoXYZ : NautilusBookmarkList :=
  (complete nautilus_bookmark_list_init demoFsXYZ).getD nautilus_bookmark_list_init

/-- The bookmark X of the move example. -/
def demoX : NautilusBookmark :=
  { uri := ['X'], label := none }

/-- The bookmark Y of the move example. -/
def demoY : NautilusBookmark :=
  { uri := ['Y'], label := none }

/-- The bookmark Z of the move example. -/
def demoZ : NautilusBookmark :=
  { uri := ['Z'], label := none }

/-- The list X, Y, Z after `move_item (0, 5)`, a destination past the end. -/
def demoMovedPastEnd : NautilusBookmarkList :=
  (nautilus_bookmark_list_move_item demoXYZ 0 5).getD demoXYZ

/-- A bookmark is appended while the initial load is still in flight, then the
load completes with the one line `file:///a`. -/
def demoRaceEvents : List Event :=
  [Event.append demoBookmarkB, Event.complete demoFs]

/-- The state after the append that raced with the initial load. -/
def demoRaceState : NautilusBookmarkList :=
  (run nautilus_bookmark_list_init demoRaceEvents).getD nautilus_bookmark_list_init

/-- A file system whose primary file exists and is empty. -/
def demoFsEmpty : FileSystem :=
  { primary := FileState.present [], legacy := FileState.missing }

/-- A file system with only the legacy file, holding the line `file:///a`. -/
def demoFsLegacy : FileSystem :=
  { primary := FileState.missing, legacy := FileState.present "file:///a\n".toList }

/-- The idle, empty list: a new list whose initial load read an empty file. -/
def demoIdleEmpty : NautilusBookmarkList :=
  (complete nautilus_bookmark_list_init demoFsEmpty).getD nautilus_bookmark_list_init

/-- Two appends in a row on the idle list, then the two saves complete. -/
def demoTwoAppendsEvents : List Event :=
  [Event.append demoBookmarkA, Event.append demoBookmarkB,
   Event.complete demoFsEmpty, Event.complete demoFsEmpty]

/-- The state after the two appends and the completion of both saves. -/
def demoTwoAppendsState : NautilusBookmarkList :=
  (run demoIdleEmpty demoTwoAppendsEvents).getD demoIdleEmpty

/-- The state after the first append on the idle list: its save is in flight. -/
def demoFirstAppendState : NautilusBookmarkList :=
  nautilus_bookmark_list_append demoIdleEmpty demoBookmarkA

/-- A file content with a NUL byte in its first line. -/
def demoNulText : List Char :=
  "file:///a\x00x\nfile:///b\n".toList

/-- A file system whose primary file holds the content with the NUL byte. -/
def demoFsNul : FileSystem :=
  { primary := FileState.present demoNulText, legacy := FileState.missing }

end BookmarkList

namespace JobQueue

/-! ## Lemmas on the GLib list functions -/

theorem g_list_remove_length_le (l : List Job) (j : Job) :
    (g_list_remove l j).length ≤ l.length := by
  induction l with
  | nil => simp [g_list_remove]
  | cons x rest ih =>
    simp only [g_list_remove]
    split
    · simp
    · simp only [List.length_cons]; omega

theorem g_list_remove_head (j : Job) (l : List Job) : g_list_remove (j :: l) j = l := by
  simp [g_list_remove]

theorem g_list_remove_of_not_mem (l : List Job) (j : Job) (h : j.ptr ∉ l.map Job.ptr) :
    g_list_remove l j = l := by
  induction l with
  | nil => rfl
  | cons x rest ih =>
    simp only [List.map_cons, List.mem_cons, not_or] at h
    simp only [g_list_remove]
    rw [if_neg (fun e => h.1 e.symm), ih h.2]

theorem g_list_remove_append_of_not_mem (l : List Job) (j : Job) (h : j.ptr ∉ l.map Job.ptr) :
    g_list_remove (l ++ [j]) j = l := by
  induction l with
  | nil => simp [g_list_remove]
  | cons x rest ih =>
    simp only [List.map_cons, List.mem_cons, not_or] at h
    simp only [List.cons_append, g_list_remove]
    rw [if_neg (fun e => h.1 e.symm)]
    exact congrArg _ (ih h.2)

theorem g_list_remove_split (l1 l2 : List Job) (j : Job) (h : j.ptr ∉ l1.map Job.ptr) :
    g_list_remove (l1 ++ j :: l2) j = l1 ++ l2 := by
  induction l1 with
  | nil => simp [g_list_remove]
  | cons x rest ih =>
    simp only [List.map_cons, List.mem_cons, not_or] at h
    simp only [List.cons_append, g_list_remove]
    rw [if_neg (fun e => h.1 e.symm)]
    exact congrArg _ (ih h.2)

theorem g_list_remove_sublist (l : List Job) (j : Job) : (g_list_remove l j).Sublist l := by
  induction l with
  | nil => simp [g_list_remove]
  | cons x rest ih =>
    simp only [g_list_remove]
    split
    · exact List.sublist_cons_self x rest
    · exact ih.cons₂ x

theorem g_list_find_custom_info_some {l : List Job} {info : Nat} {j : Job}
    (h : g_list_find_custom l info compare_info_func = some j) :
    ∃ l1 l2, l = l1 ++ j :: l2 ∧ j.info = info ∧ ∀ x ∈ l1, x.info ≠ info := by
  induction l with
  | nil => simp [g_list_find_custom] at h
  | cons x rest ih =>
    by_cases hx : x.info = info
    · have : j = x := by
        simpa [g_list_find_custom, compare_info_func, List.find?, hx] using h.symm
      subst this
      exact ⟨[], rest, rfl, hx, by simp⟩
    · have h2 : g_list_find_custom rest info compare_info_func = some j := by
        simpa [g_list_find_custom, compare_info_func, List.find?, hx] using h
      obtain ⟨l1, l2, e, hj, hl⟩ := ih h2
      refine ⟨x :: l1, l2, by simp [e], hj, ?_⟩
      intro y hy
      rcases List.mem_cons.mp hy with rfl | hy
      · exact hx
      · exact hl y hy

theorem g_list_find_custom_info_none {l : List Job} {info : Nat} :
    g_list_find_custom l info compare_info_func = none ↔ ∀ x ∈ l, x.info ≠ info := by
  simp [g_list_find_custom, compare_info_func]

/-! ## The lists after each function -/

theorem start_next_job_running_le_one (s : NemoJobQueue) (h : s.running_jobs.length ≤ 1) :
    (nemo_job_queue_start_next_job s).running_jobs.length ≤ 1 := by
  unfold nemo_job_queue_start_next_job
  split
  · rename_i hc
    split
    · simp only [g_list_length] at hc
      simp [start_job, g_list_append, hc.1]
    · exact h
  · exact h

theorem run_invariant (P : NemoJobQueue → Prop) (ok : Event → Bool)
    (hstep : ∀ s e s', P s → ok e = true → fire s e = some s' → P s')
    (evs : List Event) : ∀ s0 s, P s0 → (∀ e ∈ evs, ok e = true) →
      run s0 evs = some s → P s := by
  induction evs with
  | nil =>
    intro s0 s h0 _ hr
    simp only [run, Option.some.injEq] at hr
    exact hr ▸ h0
  | cons e rest ih =>
    intro s0 s h0 hok hr
    simp only [run] at hr
    cases hf : fire s0 e with
    | none => simp [hf] at hr
    | some s1 =>
      simp only [hf] at hr
      exact ih s1 s (hstep s0 e s1 h0 (hok e (List.mem_cons_self _ _)) hf)
        (fun e' he' => hok e' (List.mem_cons_of_mem _ he')) hr

theorem job_finished_cb_running_le_one (s s' : NemoJobQueue) (info : Nat)
    (h : s.running_jobs.length ≤ 1) (hf : job_finished_cb s info = some s') :
    s'.running_jobs.length ≤ 1 := by
  unfold job_finished_cb at hf
  simp only at hf
  split at hf
  · simp at hf
  · rename_i job _
    simp only [Option.some.injEq] at hf
    subst hf
    apply start_next_job_running_le_one
    exact le_trans (g_list_remove_length_le _ _) h

theorem add_other_running_le_one (s : NemoJobQueue) (p f u c i : Nat) (k : OpKind)
    (hk : should_start_immediately k = false) (h : s.running_jobs.length ≤ 1) :
    (nemo_job_queue_add_new_job s p f u c i k).running_jobs.length ≤ 1 := by
  unfold nemo_job_queue_add_new_job
  split
  · exact h
  · simp only [hk, Bool.false_eq_true, if_false]
    exact start_next_job_running_le_one _ h

theorem job_finished_cb_eq_none_iff (s : NemoJobQueue) (info : Nat) :
    job_finished_cb s info = none ↔ ∀ j ∈ tracked s, j.info ≠ info := by
  unfold job_finished_cb tracked
  simp only
  cases hr : g_list_find_custom s.running_jobs info compare_info_func with
  | some p =>
    simp only [false_iff, reduceCtorEq]
    obtain ⟨l1, l2, e, hj, _⟩ := g_list_find_custom_info_some hr
    intro h
    exact h p (by simp [e]) hj
  | none =>
    cases hq : g_list_find_custom s.queued_jobs info compare_info_func with
    | some p =>
      simp only [false_iff, reduceCtorEq]
      obtain ⟨l1, l2, e, hj, _⟩ := g_list_find_custom_info_some hq
      intro h
      exact h p (by simp [e]) hj
    | none =>
      simp only [true_iff]
      intro j hj
      rcases List.mem_append.mp hj with h | h
      · exact g_list_find_custom_info_none.mp hq j h
      · exact g_list_find_custom_info_none.mp hr j h

/-! ## C1: single concurrency -/

/-- C1. In every state reached from the empty queue by submissions with a kind
other than `OP_KIND_CREATE` interleaved with `finished` signals of tracked jobs
(the run is defined: `job_finished_cb` always finds its job), `running_jobs`
holds at most one job. -/
theorem running_jobs_at_most_one (evs : List Event) (s : NemoJobQueue)
    (hev : ∀ e ∈ evs, e.isOtherSubmitOrFinished = true)
    (hrun : run nemo_job_queue_init evs = some s) :
    g_list_length s.running_jobs ≤ 1 := by
  refine run_invariant (fun s => g_list_length s.running_jobs ≤ 1)
    Event.isOtherSubmitOrFinished ?_ evs nemo_job_queue_init s (by simp [g_list_length,
      nemo_job_queue_init]) hev hrun
  intro s e s' hs he hf
  cases e with
  | add_new_job p f u c i k =>
    simp only [Event.isOtherSubmitOrFinished, Event.isOtherSubmit, Event.isFinished,
      Bool.or_false, Bool.not_eq_true'] at he
    simp only [fire, Option.some.injEq] at hf
    subst hf
    exact add_other_running_le_one s p f u c i k he hs
  | finished i =>
    simp only [fire] at hf
    exact job_finished_cb_running_le_one s s' i hs hf
  | start_next_job => simp [Event.isOtherSubmitOrFinished, Event.isOtherSubmit,
      Event.isFinished] at he
  | start_job_by_info i => simp [Event.isOtherSubmitOrFinished, Event.isOtherSubmit,
      Event.isFinished] at he

/-- C1, on the sample run: two submissions and the completion of the first. -/
theorem running_jobs_at_most_one_witness :
    run nemo_job_queue_init demoSerialEvents = some demoSerialState ∧
      g_list_length demoSerialState.running_jobs ≤ 1 :=
  ⟨by decide, running_jobs_at_most_one demoSerialEvents demoSerialState (by decide) (by decide)⟩

/-! ## C2: the create fast path -/

/-- C2. In any queue state, a submission with kind `OP_KIND_CREATE` that is not
rejected by the duplicate check (and whose block, fresh from `g_slice_new0`, is
not the block of a queued job) starts the job at once: the new job becomes the
last element of `running_jobs`, it is handed to the I/O scheduler, it is not in
`queued_jobs`, and the jobs queued and running before are unchanged, in order. -/
theorem create_starts_immediately (s : NemoJobQueue) (p f u c i : Nat)
    (haccept : g_list_find_custom s.queued_jobs u compare_job_data_func = none)
    (hfresh : ∀ j ∈ s.queued_jobs, j.ptr ≠ p) :
    (nemo_job_queue_add_new_job s p f u c i OpKind.OP_KIND_CREATE).running_jobs
        = s.running_jobs ++ [Job.mk p f u i c] ∧
      (nemo_job_queue_add_new_job s p f u c i OpKind.OP_KIND_CREATE).queued_jobs
        = s.queued_jobs ∧
      Job.mk p f u i c ∉
        (nemo_job_queue_add_new_job s p f u c i OpKind.OP_KIND_CREATE).queued_jobs ∧
      started (nemo_job_queue_add_new_job s p f u c i OpKind.OP_KIND_CREATE)
        = started s ++ [Job.mk p f u i c] := by
  have hp : (Job.mk p f u i c).ptr ∉ s.queued_jobs.map Job.ptr := by
    simp only [List.mem_map, not_exists, not_and]
    intro j hj e
    exact hfresh j hj e
  have hq : (nemo_job_queue_add_new_job s p f u c i OpKind.OP_KIND_CREATE).queued_jobs
      = s.queued_jobs := by
    simp [nemo_job_queue_add_new_job, haccept, should_start_immediately, start_job,
      g_list_append, g_list_remove_append_of_not_mem _ _ hp]
  refine ⟨?_, hq, ?_, ?_⟩
  · simp [nemo_job_queue_add_new_job, haccept, should_start_immediately, start_job,
      g_list_append]
  · rw [hq]
    intro hmem
    exact hfresh _ hmem rfl
  · simp [nemo_job_queue_add_new_job, haccept, should_start_immediately, start_job,
      started, startedOf, List.filterMap_append]

/-- C2, on a busy queue (one job running, one queued): the create job 102 starts
at once behind the running job. -/
theorem create_starts_immediately_witness :
    g_list_find_custom demoBusyState.queued_jobs 4 compare_job_data_func = none ∧
      (∀ j ∈ demoBusyState.queued_jobs, j.ptr ≠ 102) ∧
      (nemo_job_queue_add_new_job demoBusyState 102 3 4 0 12 OpKind.OP_KIND_CREATE).running_jobs
        = [Job.mk 100 1 2 10 0, Job.mk 102 3 4 12 0] ∧
      (nemo_job_queue_add_new_job demoBusyState 102 3 4 0 12 OpKind.OP_KIND_CREATE).queued_jobs
        = [Job.mk 101 1 3 11 0] :=
  ⟨by decide, by decide,
    (create_starts_immediately demoBusyState 102 3 4 0 12 (by decide) (by decide)).1,
    (create_starts_immediately demoBusyState 102 3 4 0 12 (by decide) (by decide)).2.1⟩

/-! ## C3: what the duplicate check lets through -/

/-- C3 (the code at the failing input). Three submissions with the same
user-data handle 2 (work function 1, handles 10, 11, 12) are all accepted: the
first is running, the two others are queued, and no warning was logged. -/
theorem duplicate_user_data_accepted :
    demoDuplicateState.running_jobs.map Job.user_data = [2] ∧
      demoDuplicateState.queued_jobs.map Job.user_data = [2, 2] ∧
      (tracked demoDuplicateState).map Job.ptr = [101, 102, 100] ∧
      Call.g_warning ∉ demoDuplicateState.trace := by
  decide

/-! ## C5: a running create job holds the gate -/

/-- C5 (counterexample). After a create submission to the empty queue, a
submission with another kind is not started: it is not in `running_jobs` and it
is left in `queued_jobs`. -/
theorem create_job_blocks_next_submission :
    ¬ (Job.mk 101 3 4 11 0 ∈
          (nemo_job_queue_add_new_job demoCreateState 101 3 4 0 11
            (OpKind.OP_KIND_OTHER 0)).running_jobs ∧
        Job.mk 101 3 4 11 0 ∉
          (nemo_job_queue_add_new_job demoCreateState 101 3 4 0 11
            (OpKind.OP_KIND_OTHER 0)).queued_jobs) := by
  decide

theorem start_next_job_of_idle (m : NemoJobQueue) (q : Job) (qs : List Job)
    (hr : m.running_jobs = []) (hq : m.queued_jobs = q :: qs) :
    nemo_job_queue_start_next_job m =
      { queued_jobs := qs, running_jobs := [q],
        trace := m.trace ++ [Call.g_io_scheduler_push_job q] } := by
  simp [nemo_job_queue_start_next_job, g_list_length, hr, hq, start_job, g_list_append,
    g_list_remove_head]

theorem start_next_job_of_busy (m : NemoJobQueue)
    (h : m.running_jobs ≠ [] ∨ m.queued_jobs = []) :
    nemo_job_queue_start_next_job m = m := by
  unfold nemo_job_queue_start_next_job
  split
  · rename_i hc
    simp only [g_list_length, List.length_eq_zero, gt_iff_lt, List.length_pos] at hc
    rcases h with h | h
    · exact absurd hc.1 h
    · exact absurd h hc.2
  · rfl

/-- C5 (amended). A running job holds the gate whatever kind it was submitted
with: when `running_jobs` holds exactly one job and `queued_jobs` is empty, a
submission with a kind other than `OP_KIND_CREATE` leaves the new job as the only
element of `queued_jobs` and `running_jobs` unchanged; the new job moves to
`running_jobs` when the handle of the running job signals `finished`. -/
theorem submission_waits_behind_running_job (s : NemoJobQueue) (r : Job)
    (p f u c i : Nat) (k : OpKind)
    (hk : k ≠ OpKind.OP_KIND_CREATE) (hrun : s.running_jobs = [r])
    (hq : s.queued_jobs = []) (hp : p ≠ r.ptr) :
    (nemo_job_queue_add_new_job s p f u c i k).queued_jobs = [Job.mk p f u i c] ∧
      (nemo_job_queue_add_new_job s p f u c i k).running_jobs = [r] ∧
      ∃ s', job_finished_cb (nemo_job_queue_add_new_job s p f u c i k) r.info = some s' ∧
        s'.running_jobs = [Job.mk p f u i c] ∧ s'.queued_jobs = [] := by
  have hk' : should_start_immediately k = false := by
    cases k with
    | OP_KIND_CREATE => exact absurd rfl hk
    | OP_KIND_OTHER t => rfl
  have hadd : nemo_job_queue_add_new_job s p f u c i k =
      { queued_jobs := [Job.mk p f u i c], running_jobs := [r],
        trace := s.trace ++ [Call.g_slice_new0 p, Call.nemo_progress_info_queue i,
          Call.g_signal_connect_finished i] ++ [Call.g_signal_emit_new_job] } := by
    unfold nemo_job_queue_add_new_job
    simp only [hq, g_list_find_custom, List.find?_nil, Option.isSome_none, Bool.false_eq_true,
      if_false, hk', g_list_append, List.nil_append, hrun]
    rw [start_next_job_of_busy _ (Or.inl (by simp))]
  rw [hadd]
  refine ⟨rfl, rfl, ?_⟩
  have hne : ¬ (Job.mk p f u i c).ptr = r.ptr := hp
  simp only [job_finished_cb, g_list_find_custom, compare_info_func, List.find?, if_true,
    beq_self_eq_true, g_list_remove, if_true, hne, if_false]
  rw [start_next_job_of_idle _ (Job.mk p f u i c) [] rfl rfl]
  exact ⟨_, rfl, rfl, rfl⟩

/-- C5 (amended), after a create submission to the empty queue: job 101 waits
behind the create job 100 and starts when handle 10 signals `finished`. -/
theorem submission_waits_behind_running_job_witness :
    demoCreateState.running_jobs = [Job.mk 100 1 2 10 0] ∧
      demoCreateState.queued_jobs = [] ∧
      (nemo_job_queue_add_new_job demoCreateState 101 3 4 0 11
          (OpKind.OP_KIND_OTHER 0)).queued_jobs = [Job.mk 101 3 4 11 0] ∧
      (nemo_job_queue_add_new_job demoCreateState 101 3 4 0 11
          (OpKind.OP_KIND_OTHER 0)).running_jobs = [Job.mk 100 1 2 10 0] :=
  ⟨by decide, by decide,
    (submission_waits_behind_running_job demoCreateState (Job.mk 100 1 2 10 0) 101 3 4 0 11
      (OpKind.OP_KIND_OTHER 0) (by decide) (by decide) (by decide) (by decide)).1,
    (submission_waits_behind_running_job demoCreateState (Job.mk 100 1 2 10 0) 101 3 4 0 11
      (OpKind.OP_KIND_OTHER 0) (by decide) (by decide) (by decide) (by decide)).2.1⟩

/-! ## C6: completion handling -/

theorem nodup_tracked_iff (s : NemoJobQueue) :
    ((tracked s).map Job.ptr).Nodup ↔
      (s.queued_jobs.map Job.ptr).Nodup ∧ (s.running_jobs.map Job.ptr).Nodup ∧
        ∀ a ∈ s.queued_jobs, ∀ b ∈ s.running_jobs, a.ptr ≠ b.ptr := by
  simp only [tracked, List.map_append, List.nodup_append, List.Disjoint, List.mem_map,
    forall_exists_index, and_imp]
  constructor
  · rintro ⟨h1, h2, h3⟩
    refine ⟨h1, h2, ?_⟩
    intro a ha b hb e
    exact h3 a ha rfl b hb e.symm
  · rintro ⟨h1, h2, h3⟩
    refine ⟨h1, h2, ?_⟩
    intro x a ha e b hb e'
    exact h3 a ha b hb (e.trans e'.symm)

theorem not_mem_ptr_of_nodup_split {l1 l2 : List Job} {j : Job}
    (h : ((l1 ++ j :: l2).map Job.ptr).Nodup) : j.ptr ∉ l1.map Job.ptr := by
  simp only [List.map_append, List.map_cons, List.nodup_append, List.nodup_cons,
    List.Disjoint] at h
  intro hm
  exact h.2.2 hm (List.mem_cons_self _ _)

theorem start_next_job_cases (m : NemoJobQueue) :
    (m.running_jobs = [] ∧ ∃ q qs, m.queued_jobs = q :: qs ∧
        (nemo_job_queue_start_next_job m).running_jobs = [q] ∧
        (nemo_job_queue_start_next_job m).queued_jobs = qs) ∨
      ((m.running_jobs ≠ [] ∨ m.queued_jobs = []) ∧
        (nemo_job_queue_start_next_job m).running_jobs = m.running_jobs ∧
        (nemo_job_queue_start_next_job m).queued_jobs = m.queued_jobs) := by
  by_cases hr : m.running_jobs = []
  · cases hq : m.queued_jobs with
    | nil =>
      right
      rw [start_next_job_of_busy m (Or.inr hq)]
      exact ⟨Or.inr rfl, rfl, hq⟩
    | cons q qs =>
      left
      rw [start_next_job_of_idle m q qs hr hq]
      exact ⟨hr, q, qs, rfl, rfl, rfl⟩
  · right
    rw [start_next_job_of_busy m (Or.inl hr)]
    exact ⟨Or.inl hr, rfl, rfl⟩

/-- C6. In a queue state whose tracked jobs are distinct blocks and in which a
job with progress handle `h` is running or queued, `job_finished_cb` for `h`
returns; the job it releases is the first running job with handle `h`, or else
the first queued one; that job is removed from the list holding it and the other
jobs keep their order (`R` and `Q` are the two lists after the removal); then,
if `R` is empty and `Q` is not, the head of `Q` is the one running job and the
rest of `Q` stays queued, and otherwise the lists are `R` and `Q`. -/
theorem job_finished_cb_removes_then_advances (s : NemoJobQueue) (h : Nat)
    (hnodup : ((tracked s).map Job.ptr).Nodup)
    (htracked : ∃ j ∈ tracked s, j.info = h) :
    ∃ job l1 l2 R Q s',
      job.info = h ∧ (∀ x ∈ l1, x.info ≠ h) ∧
      ((s.running_jobs = l1 ++ job :: l2 ∧ R = l1 ++ l2 ∧ Q = s.queued_jobs) ∨
        ((∀ x ∈ s.running_jobs, x.info ≠ h) ∧ s.queued_jobs = l1 ++ job :: l2 ∧
          R = s.running_jobs ∧ Q = l1 ++ l2)) ∧
      job_finished_cb s h = some s' ∧
      freed s' = freed s ++ [job] ∧
      ((R = [] ∧ ∃ q qs, Q = q :: qs ∧ s'.running_jobs = [q] ∧ s'.queued_jobs = qs) ∨
        ((R ≠ [] ∨ Q = []) ∧ s'.running_jobs = R ∧ s'.queued_jobs = Q)) := by
  obtain ⟨hnq, hnr, hdis⟩ := (nodup_tracked_iff s).mp hnodup
  have hfreed : ∀ (m : NemoJobQueue) (job : Job), m.trace = s.trace ++ [Call.g_slice_free job] →
      freed (nemo_job_queue_start_next_job m) = freed s ++ [job] := by
    intro m job hm
    unfold nemo_job_queue_start_next_job
    split
    · split
      · simp [freed, freedOf, start_job, hm, List.filterMap_append]
      · simp [freed, freedOf, hm, List.filterMap_append]
    · simp [freed, freedOf, hm, List.filterMap_append]
  cases hr : g_list_find_custom s.running_jobs h compare_info_func with
  | some job =>
    obtain ⟨l1, l2, e, hj, hl⟩ := g_list_find_custom_info_some hr
    have h1 : g_list_remove s.running_jobs job = l1 ++ l2 := by
      rw [e]
      exact g_list_remove_split l1 l2 job (not_mem_ptr_of_nodup_split (e ▸ hnr))
    have h2 : g_list_remove s.queued_jobs job = s.queued_jobs := by
      apply g_list_remove_of_not_mem
      simp only [List.mem_map, not_exists, not_and]
      intro a ha e'
      exact hdis a ha job (by simp [e]) e'
    have hcb : job_finished_cb s h = some (nemo_job_queue_start_next_job
        { queued_jobs := s.queued_jobs, running_jobs := l1 ++ l2,
          trace := s.trace ++ [Call.g_slice_free job] }) := by
      simp only [job_finished_cb, hr, h1, h2]
    refine ⟨job, l1, l2, l1 ++ l2, s.queued_jobs, _, hj, hl, Or.inl ⟨e, rfl, rfl⟩, hcb,
      hfreed _ job rfl, ?_⟩
    exact start_next_job_cases
      { queued_jobs := s.queued_jobs, running_jobs := l1 ++ l2,
        trace := s.trace ++ [Call.g_slice_free job] }
  | none =>
    have hnone := g_list_find_custom_info_none.mp hr
    cases hq : g_list_find_custom s.queued_jobs h compare_info_func with
    | none =>
      exfalso
      obtain ⟨j, hj, hi⟩ := htracked
      rcases List.mem_append.mp hj with hj | hj
      · exact g_list_find_custom_info_none.mp hq j hj hi
      · exact hnone j hj hi
    | some job =>
      obtain ⟨l1, l2, e, hj, hl⟩ := g_list_find_custom_info_some hq
      have h1 : g_list_remove s.queued_jobs job = l1 ++ l2 := by
        rw [e]
        exact g_list_remove_split l1 l2 job (not_mem_ptr_of_nodup_split (e ▸ hnq))
      have h2 : g_list_remove s.running_jobs job = s.running_jobs := by
        apply g_list_remove_of_not_mem
        simp only [List.mem_map, not_exists, not_and]
        intro b hb e'
        exact hdis job (by simp [e]) b hb e'.symm
      have hcb : job_finished_cb s h = some (nemo_job_queue_start_next_job
          { queued_jobs := l1 ++ l2, running_jobs := s.running_jobs,
            trace := s.trace ++ [Call.g_slice_free job] }) := by
        simp only [job_finished_cb, hr, hq, h1, h2]
      refine ⟨job, l1, l2, s.running_jobs, l1 ++ l2, _, hj, hl,
        Or.inr ⟨hnone, e, rfl, rfl⟩, hcb, hfreed _ job rfl, ?_⟩
      exact start_next_job_cases
        { queued_jobs := l1 ++ l2, running_jobs := s.running_jobs,
          trace := s.trace ++ [Call.g_slice_free job] }

/-- C6, on the busy queue: handle 10 of the running job 100 signals `finished`;
the lookup succeeds and job 101 takes its place. -/
theorem job_finished_cb_removes_then_advances_witness :
    ((tracked demoBusyState).map Job.ptr).Nodup ∧
      (∃ j ∈ tracked demoBusyState, j.info = 10) ∧
      ∃ job l1 l2 R Q s',
        job.info = 10 ∧ (∀ x ∈ l1, x.info ≠ 10) ∧
        ((demoBusyState.running_jobs = l1 ++ job :: l2 ∧ R = l1 ++ l2 ∧
            Q = demoBusyState.queued_jobs) ∨
          ((∀ x ∈ demoBusyState.running_jobs, x.info ≠ 10) ∧
            demoBusyState.queued_jobs = l1 ++ job :: l2 ∧
            R = demoBusyState.running_jobs ∧ Q = l1 ++ l2)) ∧
        job_finished_cb demoBusyState 10 = some s' ∧
        freed s' = freed demoBusyState ++ [job] ∧
        ((R = [] ∧ ∃ q qs, Q = q :: qs ∧ s'.running_jobs = [q] ∧ s'.queued_jobs = qs) ∨
          ((R ≠ [] ∨ Q = []) ∧ s'.running_jobs = R ∧ s'.queued_jobs = Q)) :=
  ⟨by decide, by decide,
    job_finished_cb_removes_then_advances demoBusyState 10 (by decide) (by decide)⟩

/-! ## C4: first-in-first-out admission -/

theorem runGuarded_invariant (P : NemoJobQueue → Prop) (guard : NemoJobQueue → Event → Bool)
    (hstep : ∀ s e s', P s → guard s e = true → fire s e = some s' → P s')
    (evs : List Event) : ∀ s0 s, P s0 → runGuarded guard s0 evs = some s → P s := by
  induction evs with
  | nil =>
    intro s0 s h0 hr
    simp only [runGuarded, Option.some.injEq] at hr
    exact hr ▸ h0
  | cons e rest ih =>
    intro s0 s h0 hr
    simp only [runGuarded] at hr
    by_cases hg : guard s0 e = true
    · simp only [hg, if_true] at hr
      cases hf : fire s0 e with
      | none => simp [hf] at hr
      | some s1 =>
        simp only [hf] at hr
        exact ih s1 s (hstep s0 e s1 h0 hg hf) hr
    · simp [hg] at hr

theorem fifoInv_congr (s s' : NemoJobQueue) (hq : s'.queued_jobs = s.queued_jobs)
    (hr : s'.running_jobs = s.running_jobs) (hs : started s' = started s)
    (hf : freed s' = freed s) (ha : allocated s' = allocated s)
    (hn : announced s' = announced s) (h : FifoInv s) :
    FifoInv s' := by
  unfold FifoInv tracked at *
  rw [hq, hr, hs, hf, ha, hn]
  exact h

theorem fifoInv_start_next_job (m : NemoJobQueue) (h : FifoInv m) :
    FifoInv (nemo_job_queue_start_next_job m) := by
  by_cases hr : m.running_jobs = []
  · cases hq : m.queued_jobs with
    | nil =>
      rw [start_next_job_of_busy m (Or.inr hq)]
      exact h
    | cons q qs =>
      rw [start_next_job_of_idle m q qs hr hq]
      obtain ⟨h1, h1', h2, _, h4⟩ := h
      simp only [tracked, hr, hq, List.append_nil] at h1 h1' h2 h4
      refine ⟨?_, ?_, ?_, by simp, ?_⟩
      · simp only [allocated, started, allocatedOf, startedOf, List.filterMap_append] at h1 ⊢
        simpa using h1
      · simp only [announced, started, announcedOf, startedOf, List.filterMap_append] at h1' ⊢
        simpa using h1'
      · simp only [freed, started, freedOf, startedOf, List.filterMap_append] at h2 ⊢
        simpa using h2
      · simp only [tracked, List.map_append, List.map_cons, List.map_nil]
        simp only [List.map_cons, List.nodup_cons] at h4
        rw [List.nodup_append]
        refine ⟨h4.2, by simp, ?_⟩
        intro x hx hx'
        simp only [List.mem_singleton] at hx'
        exact h4.1 (hx' ▸ hx)
  · rw [start_next_job_of_busy m (Or.inl hr)]
    exact h

theorem fifoInv_add_other (s : NemoJobQueue) (p f u c i : Nat) (k : OpKind)
    (hk : should_start_immediately k = false) (hfresh : ∀ j ∈ tracked s, j.ptr ≠ p)
    (h : FifoInv s) : FifoInv (nemo_job_queue_add_new_job s p f u c i k) := by
  unfold nemo_job_queue_add_new_job
  split
  · refine fifoInv_congr s _ ?_ ?_ ?_ ?_ ?_ ?_ h
    · rfl
    · rfl
    · simp [started, startedOf, List.filterMap_append]
    · simp [freed, freedOf, List.filterMap_append]
    · simp [allocated, allocatedOf, List.filterMap_append]
    · simp [announced, announcedOf, List.filterMap_append]
  · simp only [hk, Bool.false_eq_true, if_false]
    have h1 : FifoInv
        { queued_jobs := g_list_append s.queued_jobs (Job.mk p f u i c)
          running_jobs := s.running_jobs
          trace := s.trace ++ [Call.g_slice_new0 p, Call.nemo_progress_info_queue i,
            Call.g_signal_connect_finished i] } := by
      obtain ⟨a1, a1', a2, a3, a4⟩ := h
      refine ⟨?_, ?_, ?_, a3, ?_⟩
      · simp only [allocated, started, allocatedOf, startedOf, List.filterMap_append,
          g_list_append] at a1 ⊢
        simp [a1]
      · simp only [announced, started, announcedOf, startedOf, List.filterMap_append,
          g_list_append] at a1' ⊢
        simp [a1']
      · simp only [freed, started, freedOf, startedOf, List.filterMap_append] at a2 ⊢
        simpa using a2
      · simp only [tracked, g_list_append, List.map_append, List.map_cons, List.map_nil,
          List.append_assoc, List.singleton_append] at a4 ⊢
        have hperm : (List.map Job.ptr s.queued_jobs ++ p :: List.map Job.ptr s.running_jobs).Perm
            (p :: (List.map Job.ptr s.queued_jobs ++ List.map Job.ptr s.running_jobs)) :=
          List.perm_middle
        rw [hperm.nodup_iff, List.nodup_cons]
        refine ⟨?_, a4⟩
        intro hm
        rw [← List.map_append, List.mem_map] at hm
        obtain ⟨j, hj, e⟩ := hm
        exact hfresh j hj e
    have h2 := fifoInv_start_next_job _ h1
    refine fifoInv_congr _ _ ?_ ?_ ?_ ?_ ?_ ?_ h2
    · rfl
    · rfl
    · simp [started, startedOf, List.filterMap_append]
    · simp [freed, freedOf, List.filterMap_append]
    · simp [allocated, allocatedOf, List.filterMap_append]
    · simp [announced, announcedOf, List.filterMap_append]

theorem fifoInv_finished_running (s s' : NemoJobQueue) (i : Nat)
    (hi : s.running_jobs.any (fun j => j.info == i) = true)
    (hf : job_finished_cb s i = some s') (h : FifoInv s) : FifoInv s' := by
  obtain ⟨a1, a1', a2, a3, a4⟩ := h
  obtain ⟨r, hr⟩ : ∃ r, s.running_jobs = [r] := by
    cases hl : s.running_jobs with
    | nil => simp [hl] at hi
    | cons r t =>
      cases t with
      | nil => exact ⟨r, rfl⟩
      | cons r' t' => simp [hl] at a3
  have hri : r.info = i := by simpa [hr] using hi
  obtain ⟨_, _, hdis⟩ := (nodup_tracked_iff s).mp a4
  have hq : g_list_remove s.queued_jobs r = s.queued_jobs := by
    apply g_list_remove_of_not_mem
    simp only [List.mem_map, not_exists, not_and]
    intro a ha e
    exact hdis a ha r (by simp [hr]) e
  have hcb : job_finished_cb s i = some (nemo_job_queue_start_next_job
      { queued_jobs := s.queued_jobs, running_jobs := [],
        trace := s.trace ++ [Call.g_slice_free r] }) := by
    simp [job_finished_cb, g_list_find_custom, compare_info_func, hr, hri, hq, g_list_remove]
  rw [hcb] at hf
  simp only [Option.some.injEq] at hf
  subst hf
  apply fifoInv_start_next_job
  refine ⟨?_, ?_, ?_, by simp, ?_⟩
  · simp only [allocated, started, allocatedOf, startedOf, List.filterMap_append] at a1 ⊢
    simpa using a1
  · simp only [announced, started, announcedOf, startedOf, List.filterMap_append] at a1' ⊢
    simpa using a1'
  · simp only [freed, started, freedOf, startedOf, List.filterMap_append, hr] at a2 ⊢
    simpa using a2
  · simp only [tracked, List.append_nil]
    simp only [tracked, List.map_append, List.nodup_append] at a4
    exact a4.1

theorem fifoInv_init : FifoInv nemo_job_queue_init := by
  simp [FifoInv, nemo_job_queue_init, allocated, announced, started, freed, allocatedOf,
    announcedOf, startedOf, freedOf, tracked]

/-- C4. In every state reached from the empty queue by submissions with a kind
other than `OP_KIND_CREATE` (each in a fresh block) interleaved with `finished`
signals of the handle of a running job: the accepted jobs, in submission order
(by block address and by progress handle), are the jobs started so far, in
start order, followed by the queued jobs; the started jobs are the finished
ones followed by the running ones; at most one job runs; so every started job
but the latest has signalled `finished`. -/
theorem fifo_admission (evs : List Event) (s : NemoJobQueue)
    (hrun : runGuarded fifoEnabled nemo_job_queue_init evs = some s) :
    allocated s = (started s ++ s.queued_jobs).map Job.ptr ∧
      announced s = (started s ++ s.queued_jobs).map Job.info ∧
      started s = freed s ++ s.running_jobs ∧
      s.running_jobs.length ≤ 1 ∧
      ∀ j ∈ (started s).dropLast, j ∈ freed s := by
  have hinv : FifoInv s := by
    refine runGuarded_invariant FifoInv fifoEnabled ?_ evs nemo_job_queue_init s
      fifoInv_init hrun
    intro s e s' hs hg hf
    cases e with
    | add_new_job p f u c i k =>
      simp only [fifoEnabled, Bool.and_eq_true, Bool.not_eq_true', List.all_eq_true,
        bne_iff_ne, ne_eq] at hg
      simp only [fire, Option.some.injEq] at hf
      subst hf
      exact fifoInv_add_other s p f u c i k hg.1 hg.2 hs
    | finished i =>
      simp only [fifoEnabled] at hg
      simp only [fire] at hf
      exact fifoInv_finished_running s s' i hg hf hs
    | start_next_job => simp [fifoEnabled] at hg
    | start_job_by_info i => simp [fifoEnabled] at hg
  obtain ⟨a1, a1', a2, a3, _⟩ := hinv
  refine ⟨a1, a1', a2, a3, ?_⟩
  intro j hj
  rw [a2] at hj
  cases hl : s.running_jobs with
  | nil =>
    rw [hl, List.append_nil] at hj
    exact List.mem_of_mem_dropLast hj
  | cons r t =>
    cases t with
    | nil =>
      rw [hl, List.dropLast_concat] at hj
      exact hj
    | cons r' t' => simp [hl] at a3

/-- C4, on the sample run: jobs 100 and 101 are accepted in this order and
started in this order, job 101 once job 100 has finished. -/
theorem fifo_admission_witness :
    runGuarded fifoEnabled nemo_job_queue_init demoSerialEvents = some demoSerialState ∧
      allocated demoSerialState = [100, 101] ∧
      (started demoSerialState).map Job.ptr = [100, 101] ∧
      (freed demoSerialState).map Job.ptr = [100] ∧
      (allocated demoSerialState =
          (started demoSerialState ++ demoSerialState.queued_jobs).map Job.ptr ∧
        announced demoSerialState =
          (started demoSerialState ++ demoSerialState.queued_jobs).map Job.info ∧
        started demoSerialState = freed demoSerialState ++ demoSerialState.running_jobs ∧
        demoSerialState.running_jobs.length ≤ 1 ∧
        ∀ j ∈ (started demoSerialState).dropLast, j ∈ freed demoSerialState) :=
  ⟨by decide, by decide, by decide, by decide,
    fifo_admission demoSerialEvents demoSerialState (by decide)⟩

/-! ## The tracked jobs are distinct blocks in every reachable state -/

theorem nodup_start_job (m : NemoJobQueue) (job : Job) (hmem : job ∈ m.queued_jobs)
    (h : ((tracked m).map Job.ptr).Nodup) : ((tracked (start_job m job)).map Job.ptr).Nodup := by
  obtain ⟨l1, l2, e⟩ := List.append_of_mem hmem
  have hq := ((nodup_tracked_iff m).mp h).1
  have hrem : g_list_remove m.queued_jobs job = l1 ++ l2 := by
    rw [e]
    exact g_list_remove_split l1 l2 job (not_mem_ptr_of_nodup_split (e ▸ hq))
  have hperm : ((l1 ++ l2 ++ (m.running_jobs ++ [job])).map Job.ptr).Perm
      ((l1 ++ job :: l2 ++ m.running_jobs).map Job.ptr) := by
    apply List.Perm.map
    have h1 : (l1 ++ l2 ++ (m.running_jobs ++ [job])).Perm
        (job :: (l1 ++ l2 ++ m.running_jobs)) := by
      rw [← List.append_assoc]
      exact List.perm_append_singleton _ _
    have h2 : (l1 ++ job :: l2 ++ m.running_jobs).Perm
        (job :: (l1 ++ l2 ++ m.running_jobs)) := by
      rw [List.append_assoc, List.append_assoc]
      exact List.perm_middle
    exact h1.trans h2.symm
  simp only [tracked, start_job, g_list_append, hrem]
  rw [hperm.nodup_iff]
  simpa only [tracked, e] using h

theorem nodup_start_next_job (m : NemoJobQueue) (h : ((tracked m).map Job.ptr).Nodup) :
    ((tracked (nemo_job_queue_start_next_job m)).map Job.ptr).Nodup := by
  unfold nemo_job_queue_start_next_job
  split
  · split
    · rename_i job rest hq
      exact nodup_start_job m job (by simp [hq]) h
    · exact h
  · exact h

theorem nodup_job_finished_cb (s s' : NemoJobQueue) (i : Nat)
    (hf : job_finished_cb s i = some s') (h : ((tracked s).map Job.ptr).Nodup) :
    ((tracked s').map Job.ptr).Nodup := by
  unfold job_finished_cb at hf
  simp only at hf
  split at hf
  · simp at hf
  · rename_i job _
    simp only [Option.some.injEq] at hf
    subst hf
    apply nodup_start_next_job
    refine List.Nodup.sublist ?_ h
    apply List.Sublist.map
    exact List.Sublist.append (g_list_remove_sublist _ _) (g_list_remove_sublist _ _)

theorem nodup_add_new_job (s : NemoJobQueue) (p f u c i : Nat) (k : OpKind)
    (hfresh : ∀ j ∈ tracked s, j.ptr ≠ p) (h : ((tracked s).map Job.ptr).Nodup) :
    ((tracked (nemo_job_queue_add_new_job s p f u c i k)).map Job.ptr).Nodup := by
  unfold nemo_job_queue_add_new_job
  split
  · exact h
  · have h1 : ((tracked
        { queued_jobs := g_list_append s.queued_jobs (Job.mk p f u i c)
          running_jobs := s.running_jobs
          trace := s.trace ++ [Call.g_slice_new0 p, Call.nemo_progress_info_queue i,
            Call.g_signal_connect_finished i] }).map Job.ptr).Nodup := by
      simp only [tracked, g_list_append, List.map_append, List.map_cons, List.map_nil,
        List.append_assoc, List.singleton_append] at h ⊢
      have hperm : (List.map Job.ptr s.queued_jobs ++ p :: List.map Job.ptr s.running_jobs).Perm
          (p :: (List.map Job.ptr s.queued_jobs ++ List.map Job.ptr s.running_jobs)) :=
        List.perm_middle
      rw [hperm.nodup_iff, List.nodup_cons]
      refine ⟨?_, h⟩
      intro hm
      rw [← List.map_append, List.mem_map] at hm
      obtain ⟨j, hj, e⟩ := hm
      exact hfresh j hj e
    simp only
    split
    · exact nodup_start_job _ _ (by simp [g_list_append]) h1
    · exact nodup_start_next_job _ h1

/-- In every state reached from the empty queue by any events, each submission
getting a block that is not the block of a tracked job, the tracked jobs are
distinct blocks. -/
theorem nodup_tracked_of_run (evs : List Event) (s : NemoJobQueue)
    (hrun : runGuarded freshEnabled nemo_job_queue_init evs = some s) :
    ((tracked s).map Job.ptr).Nodup := by
  refine runGuarded_invariant (fun s => ((tracked s).map Job.ptr).Nodup) freshEnabled ?_ evs
    nemo_job_queue_init s (by simp [tracked, nemo_job_queue_init]) hrun
  intro s e s' hs hg hf
  cases e with
  | add_new_job p f u c i k =>
    simp only [freshEnabled, List.all_eq_true, bne_iff_ne, ne_eq] at hg
    simp only [fire, Option.some.injEq] at hf
    subst hf
    exact nodup_add_new_job s p f u c i k hg hs
  | finished i =>
    simp only [fire] at hf
    exact nodup_job_finished_cb s s' i hf hs
  | start_next_job =>
    simp only [fire, Option.some.injEq] at hf
    subst hf
    exact nodup_start_next_job s hs
  | start_job_by_info i =>
    simp only [fire, Option.some.injEq] at hf
    subst hf
    unfold nemo_job_queue_start_job_by_info
    split
    · rename_i target ht
      obtain ⟨l1, l2, e, _, _⟩ := g_list_find_custom_info_some ht
      exact nodup_start_job s target (by simp [e]) hs
    · exact hs

end JobQueue

namespace BookmarkList

/-! ## The pipeline view of each function -/

theorem view_process_next_op (s : NautilusBookmarkList) :
    view (process_next_op s) = (view s).dispatch := by
  unfold process_next_op
  by_cases h : g_queue_peek_tail s.pending_ops = LOAD_JOB
  · have h' : s.pending_ops.getLast?.getD 0 = LOAD_JOB := h
    simp [h, h', view, PipeView.dispatch, load_file_async, clear, requested, popped,
      dispatched, List.filterMap_append, AsyncOp.tag]
  · have h' : ¬ s.pending_ops.getLast?.getD 0 = LOAD_JOB := h
    simp [h, h', view, PipeView.dispatch, save_file_async, requested, popped,
      dispatched, List.filterMap_append, AsyncOp.tag]

theorem view_op_processed_cb (s : NautilusBookmarkList) :
    view (op_processed_cb s) = (view s).processed := by
  unfold op_processed_cb PipeView.processed
  have hq : (view s).queue.tail = [] ↔ s.pending_ops.dropLast = [] := by
    simp [view]
  by_cases h : s.pending_ops.dropLast = []
  · rw [if_pos (hq.mpr h)]
    simp [g_queue_is_empty, g_queue_pop_tail, h, view, requested, popped, dispatched,
      List.filterMap_append, g_queue_peek_tail]
  · rw [if_neg (fun e => h (hq.mp e))]
    have he : s.pending_ops.dropLast.isEmpty = false := by
      simpa using h
    simp only [g_queue_is_empty, g_queue_pop_tail, he, Bool.not_false, if_true]
    rw [view_process_next_op]
    simp [view, requested, popped, dispatched, List.filterMap_append, g_queue_peek_tail]

theorem view_save_file (s : NautilusBookmarkList) :
    view (nautilus_bookmark_list_save_file s) = (view s).request SAVE_JOB := by
  unfold nautilus_bookmark_list_save_file PipeView.request
  have hq : (view s).queue = [] ↔ s.pending_ops = [] := by simp [view]
  by_cases h : s.pending_ops = []
  · rw [if_pos (hq.mpr h)]
    simp only [g_queue_get_length, g_queue_push_head, h, List.length_singleton, if_true]
    rw [view_process_next_op]
    simp [view, requested, popped, dispatched, List.filterMap_append, h]
  · rw [if_neg (fun e => h (hq.mp e))]
    have hl : ¬ (SAVE_JOB :: s.pending_ops).length = 1 := by
      simpa using h
    simp only [g_queue_get_length, g_queue_push_head, hl, if_false]
    simp [view, requested, popped, dispatched, List.filterMap_append]

theorem view_load_file (s : NautilusBookmarkList) :
    view (nautilus_bookmark_list_load_file s) = (view s).request LOAD_JOB := by
  unfold nautilus_bookmark_list_load_file PipeView.request
  have hq : (view s).queue = [] ↔ s.pending_ops = [] := by simp [view]
  by_cases h : s.pending_ops = []
  · rw [if_pos (hq.mpr h)]
    simp only [g_queue_get_length, g_queue_push_head, h, List.length_singleton, if_true]
    rw [view_process_next_op]
    simp [view, requested, popped, dispatched, List.filterMap_append, h]
  · rw [if_neg (fun e => h (hq.mp e))]
    have hl : ¬ (LOAD_JOB :: s.pending_ops).length = 1 := by
      simpa using h
    simp only [g_queue_get_length, g_queue_push_head, hl, if_false]
    simp [view, requested, popped, dispatched, List.filterMap_append]

theorem load_line_frame (s : NautilusBookmarkList) (line : List Char) :
    ∃ l, load_line s line = { s with list := l } := by
  unfold load_line
  split
  · exact ⟨s.list, rfl⟩
  · split
    · split
      · exact ⟨_, rfl⟩
      · exact ⟨_, rfl⟩
    · exact ⟨s.list, rfl⟩

theorem foldl_load_line_frame (lines : List (List Char)) :
    ∀ s : NautilusBookmarkList, ∃ l, lines.foldl load_line s = { s with list := l } := by
  induction lines with
  | nil => intro s; exact ⟨s.list, rfl⟩
  | cons line rest ih =>
    intro s
    obtain ⟨l1, h1⟩ := load_line_frame s line
    obtain ⟨l2, h2⟩ := ih (load_line s line)
    refine ⟨l2, ?_⟩
    rw [List.foldl_cons, h2, h1]

theorem view_load_callback_some (s : NautilusBookmarkList) (c : List Char) :
    view (load_callback s (some c)) = (view s).processed := by
  unfold load_callback
  obtain ⟨l, hl⟩ := foldl_load_line_frame (g_strsplit c) s
  simp only [hl]
  rw [view_op_processed_cb]
  congr 1
  simp [view, requested, popped, dispatched, List.filterMap_append]

theorem view_save_callback (s : NautilusBookmarkList) :
    view (save_callback s) = (view s).processed := by
  unfold save_callback
  rw [view_op_processed_cb]
  rfl

theorem view_complete (s s' : NautilusBookmarkList) (fs : FileSystem)
    (h : complete s fs = some s') :
    s.in_flight ≠ [] ∧
      (view s' = (view s).landed ∨ view s' = (view s).landed.processed) := by
  unfold complete at h
  split at h
  · simp at h
  · rename_i rest hf
    simp only [Option.some.injEq] at h
    subst h
    refine ⟨by simp [hf], ?_⟩
    have hw : ∀ x ∈ (load_io_thread fs).2, x = Call.g_warning := by
      obtain ⟨pr, lg⟩ := fs
      intro x hx
      cases pr <;> cases lg <;> simp_all [load_io_thread]
    have hv : view { s with in_flight := rest, trace := s.trace ++ (load_io_thread fs).2 }
        = (view s).landed := by
      have e1 : List.filterMap (fun c => match c with
          | Call.g_queue_push_head op => some op | _ => none) (load_io_thread fs).2 = [] := by
        rw [List.filterMap_eq_nil_iff]
        intro x hx; rw [hw x hx]
      have e2 : List.filterMap (fun c => match c with
          | Call.g_queue_pop_tail op => some op | _ => none) (load_io_thread fs).2 = [] := by
        rw [List.filterMap_eq_nil_iff]
        intro x hx; rw [hw x hx]
      have e3 : List.filterMap (fun c => match c with
          | Call.g_simple_async_result_run_in_thread op => some op | _ => none)
          (load_io_thread fs).2 = [] := by
        rw [List.filterMap_eq_nil_iff]
        intro x hx; rw [hw x hx]
      simp [view, PipeView.landed, requested, popped, dispatched, List.filterMap_append, hf,
        e1, e2, e3]
    cases hr : (load_io_thread fs).1 with
    | none =>
      left
      simp only [load_callback]
      exact hv
    | some c =>
      right
      rw [view_load_callback_some, hv]
  · rename_i contents rest hf
    simp only [Option.some.injEq] at h
    subst h
    refine ⟨by simp [hf], Or.inr ?_⟩
    rw [view_save_callback]
    congr 1
    unfold save_io_thread
    split <;>
      simp [view, PipeView.landed, requested, popped, dispatched, List.filterMap_append, hf]

theorem view_set_list (s : NautilusBookmarkList) (l : List NautilusBookmark) :
    view { s with list := l } = view s := rfl

theorem view_return_if_fail (s : NautilusBookmarkList) :
    view { s with trace := s.trace ++ [Call.g_return_if_fail_warning] } = view s := by
  simp [view, requested, popped, dispatched, List.filterMap_append]

theorem view_emit_changed (s : NautilusBookmarkList) :
    view { s with trace := s.trace ++ [Call.g_signal_emit_changed] } = view s := by
  simp [view, requested, popped, dispatched, List.filterMap_append]

/-- What one event does to the pipeline view: a call or signal other than a
completion leaves it alone or files one request; a completion needs an operation
in flight, which lands, and its tag is processed unless the callback returns
early. -/
theorem fire_view (s s' : NautilusBookmarkList) (e : Event) (h : fire s e = some s') :
    (e.isComplete = false ∧
        (view s' = view s ∨ view s' = (view s).request LOAD_JOB ∨
          view s' = (view s).request SAVE_JOB)) ∨
      (e.isComplete = true ∧ s.in_flight ≠ [] ∧
        (view s' = (view s).landed ∨ view s' = (view s).landed.processed)) := by
  cases e with
  | append b =>
    simp only [fire, Option.some.injEq] at h
    subst h
    refine Or.inl ⟨rfl, Or.inr (Or.inr ?_)⟩
    unfold nautilus_bookmark_list_append
    rw [view_save_file]; rfl
  | insert_item b i =>
    simp only [fire, Option.some.injEq] at h
    subst h
    unfold nautilus_bookmark_list_insert_item
    split
    · refine Or.inl ⟨rfl, Or.inr (Or.inr ?_)⟩
      rw [view_save_file]; rfl
    · exact Or.inl ⟨rfl, Or.inl (view_return_if_fail s)⟩
  | delete_item_at i =>
    simp only [fire, Option.some.injEq] at h
    subst h
    unfold nautilus_bookmark_list_delete_item_at
    split
    · refine Or.inl ⟨rfl, Or.inr (Or.inr ?_)⟩
      simp only []
      rw [view_save_file]; rfl
    · exact Or.inl ⟨rfl, Or.inl (view_return_if_fail s)⟩
  | move_item i d =>
    simp only [fire] at h
    unfold nautilus_bookmark_list_move_item at h
    split at h
    · simp only [Option.some.injEq] at h
      subst h
      exact Or.inl ⟨rfl, Or.inl rfl⟩
    · simp only at h
      split at h
      · simp at h
      · split at h
        · simp only [Option.some.injEq] at h
          subst h
          refine Or.inl ⟨rfl, Or.inr (Or.inr ?_)⟩
          rw [view_save_file]; rfl
        · simp only [Option.some.injEq] at h
          subst h
          refine Or.inl ⟨rfl, Or.inr (Or.inr ?_)⟩
          rw [view_save_file]; rfl
  | delete_items_with_uri u =>
    simp only [fire, Option.some.injEq] at h
    subst h
    unfold nautilus_bookmark_list_delete_items_with_uri
    split
    split
    · refine Or.inl ⟨rfl, Or.inr (Or.inr ?_)⟩
      rw [view_save_file]; rfl
    · exact Or.inl ⟨rfl, Or.inl rfl⟩
  | contents_changed i b =>
    simp only [fire] at h
    split at h
    · simp only [Option.some.injEq] at h
      subst h
      refine Or.inl ⟨rfl, Or.inr (Or.inr ?_)⟩
      unfold bookmark_in_list_changed_callback
      rw [view_save_file]; rfl
    · simp at h
  | notify i b =>
    simp only [fire] at h
    split at h
    · simp only [Option.some.injEq] at h
      subst h
      refine Or.inl ⟨rfl, Or.inl ?_⟩
      unfold bookmark_in_list_notify
      exact view_emit_changed _
    · simp at h
  | monitor_changed eflags =>
    simp only [fire, Option.some.injEq] at h
    subst h
    unfold bookmark_monitor_changed_cb
    split
    · exact Or.inl ⟨rfl, Or.inr (Or.inl (view_load_file s))⟩
    · exact Or.inl ⟨rfl, Or.inl rfl⟩
  | complete fs =>
    simp only [fire] at h
    exact Or.inr ⟨rfl, view_complete s s' fs h⟩

/-! ## The bookkeeping of the pipeline is kept by every step -/

theorem tag_of_head (t : Nat) (ht : t = LOAD_JOB ∨ t = SAVE_JOB) :
    (if t = LOAD_JOB then LOAD_JOB else SAVE_JOB) = t := by
  rcases ht with rfl | rfl
  · simp
  · simp [LOAD_JOB, SAVE_JOB]

theorem flying_nil_of_queue_nil (v : PipeView) (h : PipeInv v) (hq : v.queue = []) :
    v.flying = [] := by
  obtain ⟨_, _, h3, _, _⟩ := h
  cases hf : v.flying with
  | nil => rfl
  | cons a t =>
    have := h3 a (by simp [hf])
    simp [hq] at this

theorem pipeInv_request (v : PipeView) (t : Nat) (ht : t = LOAD_JOB ∨ t = SAVE_JOB)
    (h : PipeInv v) : PipeInv (v.request t) := by
  have hfl := flying_nil_of_queue_nil v h
  obtain ⟨h1, h2, h3, h4, h5⟩ := h
  unfold PipeView.request
  by_cases hq : v.queue = []
  · rw [if_pos hq]
    simp only [PipeView.dispatch, PipeInv, hq, List.nil_append, List.head?_cons,
      Option.getD_some, tag_of_head t ht, hfl hq, List.length_singleton, le_refl,
      List.mem_singleton, forall_eq, Option.toList_some, true_and]
    simp only [hq, List.append_nil, List.head?_nil, Option.toList_none] at h1 h2
    refine ⟨by rw [h1], by rw [h2], ht⟩
  · rw [if_neg hq]
    obtain ⟨a, rest, hv⟩ := List.exists_cons_of_ne_nil hq
    simp only [PipeInv, hv, List.cons_append, List.head?_cons] at h1 h2 h3 h5 ⊢
    refine ⟨by rw [h1]; simp, h2, h3, h4, ?_⟩
    intro x hx
    rcases List.mem_cons.mp hx with rfl | hx
    · exact h5 x (List.mem_cons_self _ _)
    · rcases List.mem_append.mp hx with hx | hx
      · exact h5 x (List.mem_cons_of_mem _ hx)
      · simp only [List.mem_singleton] at hx
        exact hx ▸ ht

theorem pipeInv_landed (v : PipeView) (h : PipeInv v) : PipeInv v.landed := by
  obtain ⟨h1, h2, h3, h4, h5⟩ := h
  refine ⟨h1, h2, ?_, ?_, h5⟩
  · intro t ht
    exact h3 t (List.mem_of_mem_tail ht)
  · simp only [PipeView.landed, List.length_tail]
    omega

theorem pipeInv_landed_processed (v : PipeView) (h : PipeInv v) (hf : v.flying ≠ []) :
    PipeInv v.landed.processed := by
  obtain ⟨h1, h2, h3, h4, h5⟩ := h
  obtain ⟨a, fl, hfl⟩ := List.exists_cons_of_ne_nil hf
  have hfl' : fl = [] := by
    rw [hfl] at h4
    simpa using h4
  subst hfl'
  have ha := h3 a (by simp [hfl])
  cases hq : v.queue with
  | nil => simp [hq] at ha
  | cons b rest =>
    simp only [hq, List.head?_cons, Option.some.injEq] at ha
    subst ha
    simp only [hq, List.head?_cons, Option.toList_some] at h1 h2
    unfold PipeView.processed
    cases hr : rest with
    | nil =>
      simp only [PipeView.landed, hq, hr, List.tail_cons, if_true, PipeInv, hfl,
        List.head?_nil, Option.toList_none, List.append_nil, List.not_mem_nil,
        Option.getD_some, List.head?_cons, List.length_nil, zero_le, false_imp_iff,
        implies_true, and_true, true_and]
      refine ⟨by rw [h1, hr], by rw [h2]⟩
    | cons c rest' =>
      have hc : c = LOAD_JOB ∨ c = SAVE_JOB := h5 c (by simp [hq, hr])
      simp only [PipeView.landed, hq, hr, List.tail_cons, PipeView.dispatch, PipeInv, hfl,
        List.head?_cons, Option.getD_some, tag_of_head c hc, List.nil_append,
        List.mem_singleton, forall_eq, List.length_singleton, le_refl, Option.toList_some,
        true_and, reduceCtorEq, if_false]
      refine ⟨by rw [h1, hr]; simp, by rw [h2], ?_⟩
      intro x hx
      exact h5 x (by simp only [hq, hr]; exact List.mem_cons_of_mem _ hx)

theorem pipeInv_init : PipeInv (view nautilus_bookmark_list_init) := by
  simp [PipeInv, view, nautilus_bookmark_list_init, nautilus_bookmark_list_load_file,
    g_queue_push_head, g_queue_get_length, process_next_op, g_queue_peek_tail, load_file_async,
    clear, requested, popped, dispatched, AsyncOp.tag]

theorem pipeInv_fire (s s' : NautilusBookmarkList) (e : Event) (h : PipeInv (view s))
    (hf : fire s e = some s') : PipeInv (view s') := by
  rcases fire_view s s' e hf with ⟨_, hv | hv | hv⟩ | ⟨_, hne, hv | hv⟩
  · rw [hv]; exact h
  · rw [hv]; exact pipeInv_request _ _ (Or.inl rfl) h
  · rw [hv]; exact pipeInv_request _ _ (Or.inr rfl) h
  · rw [hv]; exact pipeInv_landed _ h
  · rw [hv]
    refine pipeInv_landed_processed _ h ?_
    intro hnil
    apply hne
    simpa [view] using hnil

theorem bookmark_run_invariant (P : NautilusBookmarkList → Prop)
    (hstep : ∀ s e s', P s → fire s e = some s' → P s')
    (evs : List Event) : ∀ s0 s, P s0 → run s0 evs = some s → P s := by
  induction evs with
  | nil =>
    intro s0 s h0 hr
    simp only [run, Option.some.injEq] at hr
    exact hr ▸ h0
  | cons e rest ih =>
    intro s0 s h0 hr
    simp only [run] at hr
    cases hf : fire s0 e with
    | none => simp [hf] at hr
    | some s1 =>
      simp only [hf] at hr
      exact ih s1 s (hstep s0 e s1 h0 hf) hr

theorem pipeInv_run (evs : List Event) (s : NautilusBookmarkList)
    (hrun : run nautilus_bookmark_list_init evs = some s) : PipeInv (view s) :=
  bookmark_run_invariant (fun s => PipeInv (view s)) (fun s e s' h hf => pipeInv_fire s s' e h hf) evs nautilus_bookmark_list_init s
    pipeInv_init hrun

theorem dispatched_length_eq_view (s : NautilusBookmarkList) :
    (dispatched s).length = (view s).dispatched.length := by
  simp [view]

theorem pending_nil_iff_view (s : NautilusBookmarkList) :
    (view s).queue = [] ↔ s.pending_ops = [] := by
  simp [view]

theorem request_dispatched_length (v : PipeView) (t : Nat) :
    (v.queue ≠ [] ∧ (v.request t).dispatched.length = v.dispatched.length) ∨
      (v.queue = [] ∧ (v.request t).dispatched.length = v.dispatched.length + 1) := by
  unfold PipeView.request
  by_cases hq : v.queue = []
  · right
    rw [if_pos hq]
    exact ⟨hq, by simp [PipeView.dispatch]⟩
  · left
    rw [if_neg hq]
    exact ⟨hq, rfl⟩

theorem processed_dispatched_length (v : PipeView) :
    v.processed.dispatched.length = v.dispatched.length ∨
      v.processed.dispatched.length = v.dispatched.length + 1 := by
  unfold PipeView.processed
  split
  · left; rfl
  · right; simp [PipeView.dispatch]

/-! ## C7: single-flight bookmark I/O -/

/-- C7. In every state reached from a new bookmark list by calls of the
mutators, signals of listed bookmarks, events of the file monitor and
completions of the operation in flight, at most one load or save is in flight;
and a further event dispatches at most one operation, and dispatches one only if
it is a request that found `pending_ops` empty or the completion of the
operation in flight. -/
theorem single_flight (evs : List Event) (s : NautilusBookmarkList)
    (hrun : run nautilus_bookmark_list_init evs = some s) :
    s.in_flight.length ≤ 1 ∧
      ∀ e s', fire s e = some s' →
        s'.in_flight.length ≤ 1 ∧
        ((dispatched s').length = (dispatched s).length ∨
          ((dispatched s').length = (dispatched s).length + 1 ∧
            ((e.isComplete = false ∧ s.pending_ops = []) ∨
              (e.isComplete = true ∧ s.in_flight.length = 1)))) := by
  have hinv := pipeInv_run evs s hrun
  have hlen : s.in_flight.length ≤ 1 := by
    have := hinv.2.2.2.1
    simpa [view] using this
  refine ⟨hlen, ?_⟩
  intro e s' hf
  have hinv' := pipeInv_fire s s' e hinv hf
  refine ⟨by have := hinv'.2.2.2.1; simpa [view] using this, ?_⟩
  rw [dispatched_length_eq_view s', dispatched_length_eq_view s]
  rcases fire_view s s' e hf with ⟨hc, hv | hv | hv⟩ | ⟨hc, hne, hv | hv⟩
  · left; rw [hv]
  · rw [hv]
    rcases request_dispatched_length (view s) LOAD_JOB with ⟨_, h⟩ | ⟨hq, h⟩
    · exact Or.inl h
    · exact Or.inr ⟨h, Or.inl ⟨hc, (pending_nil_iff_view s).mp hq⟩⟩
  · rw [hv]
    rcases request_dispatched_length (view s) SAVE_JOB with ⟨_, h⟩ | ⟨hq, h⟩
    · exact Or.inl h
    · exact Or.inr ⟨h, Or.inl ⟨hc, (pending_nil_iff_view s).mp hq⟩⟩
  · left; rw [hv]; rfl
  · have h1 : s.in_flight.length = 1 := by
      have : s.in_flight.length ≠ 0 := by
        simpa using hne
      omega
    rw [hv]
    rcases processed_dispatched_length (view s).landed with h | h
    · exact Or.inl h
    · exact Or.inr ⟨h, Or.inr ⟨hc, h1⟩⟩

/-- C7, on the burst: after three requests made behind a save in flight, still
exactly one operation is in flight, and the next completion dispatches one. -/
theorem single_flight_witness :
    run nautilus_bookmark_list_init demoQueuedEvents = some demoQueuedState ∧
      demoQueuedState.in_flight.length = 1 ∧
      demoQueuedState.pending_ops = [LOAD_JOB, SAVE_JOB, SAVE_JOB, SAVE_JOB] ∧
      demoQueuedState.in_flight.length ≤ 1 :=
  ⟨by decide, by decide, by decide,
    (single_flight demoQueuedEvents demoQueuedState (by decide)).1⟩

/-! ## C8: the pipeline is first-in-first-out -/

/-- C8. In every state reached from a new bookmark list: the tags requested so
far, in request order, are the tags popped so far followed by `pending_ops`
from its oldest tag to its newest; the tags of the operations dispatched so far,
in dispatch order, are the popped tags followed by the oldest pending tag (if
any); an operation in flight carries the oldest pending tag, the one the next
completion pops; so the operations are dispatched in the order of the requests. -/
theorem pipeline_fifo (evs : List Event) (s : NautilusBookmarkList)
    (hrun : run nautilus_bookmark_list_init evs = some s) :
    requested s = popped s ++ s.pending_ops.reverse ∧
      (dispatched s).map AsyncOp.tag = popped s ++ s.pending_ops.getLast?.toList ∧
      (∀ op ∈ s.in_flight, g_queue_peek_tail s.pending_ops = op.tag ∧
        s.pending_ops ≠ []) ∧
      (dispatched s).map AsyncOp.tag <+: requested s := by
  obtain ⟨h1, h2, h3, _, _⟩ := pipeInv_run evs s hrun
  simp only [view] at h1 h2 h3
  rw [← List.getLast?_eq_head?_reverse] at h2 h3
  refine ⟨h1, h2, ?_, ?_⟩
  · intro op hop
    have := h3 op.tag (List.mem_map_of_mem _ hop)
    refine ⟨by simp [g_queue_peek_tail, ← this], ?_⟩
    intro hnil
    simp [hnil] at this
  · rw [h1, h2]
    cases hq : s.pending_ops.reverse with
    | nil =>
      have : s.pending_ops = [] := by simpa using hq
      simp [this]
    | cons a rest =>
      have : s.pending_ops.getLast? = some a := by
        rw [List.getLast?_eq_head?_reverse, hq]; rfl
      rw [this]
      exact ⟨rest, by simp⟩

/-- C8, on the burst: Save, Save, Load are requested while a save is in flight;
by the end the operations dispatched are Load (the initial one), Save, Save,
Save, Load, the order of the requests. -/
theorem pipeline_fifo_witness :
    run nautilus_bookmark_list_init demoBurstEvents = some demoBurstState ∧
      requested demoQueuedState = [LOAD_JOB, SAVE_JOB, SAVE_JOB, SAVE_JOB, LOAD_JOB] ∧
      (dispatched demoQueuedState).map AsyncOp.tag = [LOAD_JOB, SAVE_JOB] ∧
      (dispatched demoBurstState).map AsyncOp.tag
        = [LOAD_JOB, SAVE_JOB, SAVE_JOB, SAVE_JOB, LOAD_JOB] ∧
      popped demoBurstState = [LOAD_JOB, SAVE_JOB, SAVE_JOB, SAVE_JOB] ∧
      (dispatched demoBurstState).map AsyncOp.tag <+: requested demoBurstState :=
  ⟨by decide, by decide, by decide, by decide, by decide,
    (pipeline_fifo demoBurstEvents demoBurstState (by decide)).2.2.2⟩

/-! ## C9: a load that ends without contents -/

/-- Once no operation is in flight while `pending_ops` is not empty, no event
ever dispatches an operation again. -/
theorem stalled_forever (evs : List Event) :
    ∀ s0 s : NautilusBookmarkList, s0.in_flight = [] → s0.pending_ops ≠ [] →
      run s0 evs = some s →
      s.in_flight = [] ∧ s.pending_ops ≠ [] ∧
        (dispatched s).length = (dispatched s0).length := by
  induction evs with
  | nil =>
    intro s0 s h1 h2 hr
    simp only [run, Option.some.injEq] at hr
    subst hr
    exact ⟨h1, h2, rfl⟩
  | cons e rest ih =>
    intro s0 s h1 h2 hr
    simp only [run] at hr
    cases hf : fire s0 e with
    | none => simp [hf] at hr
    | some s1 =>
      simp only [hf] at hr
      have hq : (view s0).queue ≠ [] := fun h => h2 ((pending_nil_iff_view s0).mp h)
      have key : (view s1).flying = [] ∧ (view s1).queue ≠ [] ∧
          (view s1).dispatched.length = (view s0).dispatched.length := by
        have hfl : (view s0).flying = [] := by simp [view, h1]
        rcases fire_view s0 s1 e hf with ⟨_, hv | hv | hv⟩ | ⟨_, hne, _⟩
        · rw [hv]; exact ⟨hfl, hq, rfl⟩
        · rw [hv]
          simp only [PipeView.request, hq, if_false]
          exact ⟨hfl, by simp, trivial⟩
        · rw [hv]
          simp only [PipeView.request, hq, if_false]
          exact ⟨hfl, by simp, trivial⟩
        · exact absurd h1 hne
      obtain ⟨k1, k2, k3⟩ := key
      have g1 : s1.in_flight = [] := by simpa [view] using k1
      have g2 : s1.pending_ops ≠ [] := fun h => k2 ((pending_nil_iff_view s1).mpr h)
      obtain ⟨r1, r2, r3⟩ := ih s1 s g1 g2 hr
      refine ⟨r1, r2, ?_⟩
      rw [r3, dispatched_length_eq_view, dispatched_length_eq_view, k3]

/-- C9 (the code at the failing input). The initial load of a new list finds
neither backing file: `load_callback` returns without popping the tag, so
`LOAD_JOB` stays in `pending_ops` with nothing in flight. A bookmark appended
afterwards pushes `SAVE_JOB` behind it, no save is dispatched, and there is no
completion left to dispatch it. The same happens when the load fails on an
unreadable file. -/
theorem failed_load_stalls_pipeline :
    complete nautilus_bookmark_list_init demoFsMissing = some demoMissingLoadState ∧
      demoMissingLoadState.pending_ops = [LOAD_JOB] ∧
      demoMissingLoadState.in_flight = [] ∧
      (nautilus_bookmark_list_append demoMissingLoadState demoBookmarkA).pending_ops
        = [SAVE_JOB, LOAD_JOB] ∧
      (nautilus_bookmark_list_append demoMissingLoadState demoBookmarkA).in_flight = [] ∧
      dispatched (nautilus_bookmark_list_append demoMissingLoadState demoBookmarkA)
        = [AsyncOp.load] ∧
      complete (nautilus_bookmark_list_append demoMissingLoadState demoBookmarkA) demoFs
        = none ∧
      complete nautilus_bookmark_list_init demoFsDenied = some demoDeniedLoadState ∧
      demoDeniedLoadState.pending_ops = [LOAD_JOB] ∧
      demoDeniedLoadState.in_flight = [] ∧
      dispatched (nautilus_bookmark_list_append demoDeniedLoadState demoBookmarkA)
        = [AsyncOp.load] := by
  decide

/-! ## C10: when a load emits `changed` -/

theorem changed_count_op_processed_cb (s : NautilusBookmarkList) :
    changed_count (op_processed_cb s) = changed_count s := by
  unfold op_processed_cb
  simp only
  split
  · unfold process_next_op
    simp only
    split
    · simp [changed_count, load_file_async, clear, List.count_append]
    · simp [changed_count, save_file_async, List.count_append]
  · simp [changed_count, List.count_append]

/-- C10 (counterexample). The initial load of a new list completes without
contents (neither backing file exists) and no `changed` is emitted. -/
theorem load_without_contents_emits_no_changed :
    complete nautilus_bookmark_list_init demoFsMissing = some demoMissingLoadState ∧
      ¬ (changed_count nautilus_bookmark_list_init < changed_count demoMissingLoadState) ∧
      Call.g_signal_emit_changed ∉ demoMissingLoadState.trace := by
  decide

/-- C10 (amended). `load_callback` emits `changed` exactly when the load read file
contents: once in that case, and not at all when the load completed without
contents (missing file or I/O error), where it returns leaving the list as it
is. -/
theorem load_callback_changed_count (self : NautilusBookmarkList)
    (contents : Option (List Char)) :
    changed_count (load_callback self contents)
        = changed_count self + (if contents.isSome then 1 else 0) ∧
      load_callback self none = self := by
  refine ⟨?_, rfl⟩
  cases contents with
  | none => simp [load_callback]
  | some c =>
    unfold load_callback
    obtain ⟨l, hl⟩ := foldl_load_line_frame (g_strsplit c) self
    simp only [hl]
    rw [changed_count_op_processed_cb]
    simp [changed_count, List.count_append]

end BookmarkList

namespace BookmarkList

/-! ## The loop of `load_callback` against the reading of the spec -/

theorem g_strsplit_tokens_eq_splitOn (c : List Char) :
    g_strsplit_tokens c = c.splitOn '\n' := by
  induction c with
  | nil => rfl
  | cons x rest ih =>
    have hne : List.splitOnP (fun y => y == '\n') rest ≠ [] := List.splitOnP_ne_nil _ _
    simp only [List.splitOn] at ih
    simp only [g_strsplit_tokens, List.splitOn, List.splitOnP_cons, beq_iff_eq, ih]
    by_cases hx : x = '\n'
    · simp [hx]
    · simp only [hx, if_false]
      cases hs : List.splitOnP (fun y => y == '\n') rest with
      | nil => exact absurd hs hne
      | cons tok toks => rfl

theorem filterMap_g_strsplit (c : List Char) :
    (g_strsplit c).filterMap parse_line_spec = parse_spec (c_string c) := by
  unfold g_strsplit parse_spec
  by_cases hc : c_string c = []
  · simp [hc, parse_line_spec]
  · simp only [hc, if_false, g_strsplit_tokens_eq_splitOn]

theorem c_string_eq_self_iff (c : List Char) : c_string c = c ↔ '\x00' ∉ c := by
  unfold c_string
  rw [List.takeWhile_eq_self_iff]
  constructor
  · intro h hmem
    have := h _ hmem
    simp at this
  · intro h x hx
    simp only [bne_iff_ne, ne_eq]
    intro hx0
    exact h (hx0 ▸ hx)

theorem c_string_idem (c : List Char) : c_string (c_string c) = c_string c := by
  rw [c_string_eq_self_iff]
  intro hmem
  have := List.mem_takeWhile_imp hmem
  simp at this

theorem c_string_serialise_spec (l : List NautilusBookmark)
    (hc : ∀ b ∈ l, holds_c_strings b = true) : c_string (serialise_spec l) = serialise_spec l := by
  rw [c_string_eq_self_iff]
  intro hmem
  simp only [serialise_spec, List.mem_flatten, List.mem_map] at hmem
  obtain ⟨line, ⟨b, hb, rfl⟩, hin⟩ := hmem
  have hcb := hc b hb
  unfold holds_c_strings at hcb
  unfold serialise_line_spec at hin
  cases hlab : b.label with
  | none =>
    simp [hlab] at hcb hin
    exact hcb hin
  | some label =>
    simp [hlab] at hcb hin
    rcases hin with h | h
    · exact hcb.1 h
    · exact hcb.2 h

theorem span_ne_space (line : List Char) :
    line.span (fun x => x != ' ')
      = (line.takeWhile (fun c => c != ' '), line.dropWhile (fun c => c != ' ')) :=
  List.span_eq_take_drop _ _

theorem dropWhile_ne_space_eq_nil_iff (line : List Char) :
    line.dropWhile (fun c => c != ' ') = [] ↔ ' ' ∉ line := by
  induction line with
  | nil => simp
  | cons x rest ih =>
    by_cases hx : x = ' '
    · simp [hx, List.dropWhile]
    · have hx' : ¬ ' ' = x := fun e => hx e.symm
      have hb : (x != ' ') = true := by simpa using hx
      rw [List.dropWhile_cons]
      simp only [hb, if_true]
      rw [ih]
      simp [hx']

theorem load_line_eq (s : NautilusBookmarkList) (line : List Char) :
    load_line s line =
      match parse_line_spec line with
      | none => s
      | some b => { s with list := s.list ++ [b] } := by
  cases line with
  | nil => simp [load_line, parse_line_spec]
  | cons c rest =>
    by_cases hc : c = ' '
    · simp [load_line, parse_line_spec, hc]
    · have hp : parse_line_spec (c :: rest) = some
          { uri := (c :: rest).takeWhile (fun c => c != ' ')
            label := if ' ' ∈ c :: rest then
              some ((c :: rest).dropWhile (fun c => c != ' ')).tail else none } := by
        simp [parse_line_spec, hc]
      rw [hp]
      simp only [load_line, ne_eq, hc, not_false_eq_true, if_true]
      rw [span_ne_space]
      cases hd : (c :: rest).dropWhile (fun c => c != ' ') with
      | nil =>
        have hno : ' ' ∉ c :: rest := (dropWhile_ne_space_eq_nil_iff _).mp hd
        simp only [hno, if_false]
        simp [insert_bookmark_internal, g_list_insert, new_bookmark_from_uri,
          nautilus_bookmark_new]
      | cons sp label =>
        have hyes : ' ' ∈ c :: rest := by
          by_contra hno
          rw [(dropWhile_ne_space_eq_nil_iff _).mpr hno] at hd
          exact absurd hd (by simp)
        simp only [hyes, if_true, List.tail_cons]
        simp [insert_bookmark_internal, g_list_insert, new_bookmark_from_uri,
          nautilus_bookmark_new]

theorem foldl_load_line_eq (lines : List (List Char)) :
    ∀ s : NautilusBookmarkList,
      lines.foldl load_line s = { s with list := s.list ++ lines.filterMap parse_line_spec } := by
  induction lines with
  | nil => intro s; simp
  | cons line rest ih =>
    intro s
    rw [List.foldl_cons, ih, load_line_eq]
    cases hp : parse_line_spec line with
    | none => simp [List.filterMap_cons, hp]
    | some b => simp [List.filterMap_cons, hp]

theorem load_callback_eq (s : NautilusBookmarkList) (c : List Char) :
    load_callback s (some c) =
      op_processed_cb
        { s with
          list := s.list ++ parse_spec (c_string c)
          trace := s.trace ++ [Call.g_signal_emit_changed] } := by
  unfold load_callback
  simp only [foldl_load_line_eq, filterMap_g_strsplit]

/-! ## The text of a list against the writing of the spec -/

theorem bookmark_string_eq_spec (l : List NautilusBookmark) :
    bookmark_string l = serialise_spec l := by
  induction l with
  | nil => rfl
  | cons b rest ih =>
    obtain ⟨uri, label⟩ := b
    cases label with
    | none =>
      simp [bookmark_string, serialise_spec, serialise_line_spec,
        nautilus_bookmark_get_has_custom_name, nautilus_bookmark_get_uri, ih]
    | some lab =>
      simp [bookmark_string, serialise_spec, serialise_line_spec,
        nautilus_bookmark_get_has_custom_name, nautilus_bookmark_get_uri,
        nautilus_bookmark_get_name, ih]

theorem roundTrips_iff (b : NautilusBookmark) :
    roundTrips b = true ↔
      b.uri ≠ [] ∧ ' ' ∉ b.uri ∧ '\n' ∉ b.uri ∧ ∀ label, b.label = some label → '\n' ∉ label := by
  obtain ⟨uri, label⟩ := b
  cases label with
  | none => simp [roundTrips, and_assoc]
  | some lab => simp [roundTrips, and_assoc]

theorem takeWhile_ne_space_append (uri rest : List Char) (h : ' ' ∉ uri) :
    (uri ++ ' ' :: rest).takeWhile (fun c => c != ' ') = uri ∧
      (uri ++ ' ' :: rest).dropWhile (fun c => c != ' ') = ' ' :: rest := by
  induction uri with
  | nil => simp [List.takeWhile, List.dropWhile]
  | cons x xs ih =>
    simp only [List.mem_cons, not_or] at h
    have hb : (x != ' ') = true := by simpa using fun e => h.1 e.symm
    simp only [List.cons_append, List.takeWhile_cons, List.dropWhile_cons, hb, if_true]
    exact ⟨by rw [(ih h.2).1], (ih h.2).2⟩

theorem takeWhile_ne_space_self (uri : List Char) (h : ' ' ∉ uri) :
    uri.takeWhile (fun c => c != ' ') = uri := by
  induction uri with
  | nil => rfl
  | cons x xs ih =>
    simp only [List.mem_cons, not_or] at h
    have hb : (x != ' ') = true := by simpa using fun e => h.1 e.symm
    simp only [List.takeWhile_cons, hb, if_true]
    rw [ih h.2]

theorem serialise_line_spec_parse (b : NautilusBookmark) (h : roundTrips b = true) :
    ∃ t, serialise_line_spec b = t ++ ['\n'] ∧ '\n' ∉ t ∧ parse_line_spec t = some b := by
  obtain ⟨h1, h2, h3, h4⟩ := (roundTrips_iff b).mp h
  obtain ⟨uri, label⟩ := b
  simp only at h1 h2 h3 h4
  obtain ⟨x, xs, hx⟩ := List.exists_cons_of_ne_nil h1
  have hxs : ¬ x = ' ' := by
    intro e
    apply h2
    rw [hx, e]
    exact List.mem_cons_self _ _
  cases label with
  | none =>
    refine ⟨uri, rfl, h3, ?_⟩
    have hne : ¬ (uri = [] ∨ uri.head? = some ' ') := by
      rw [hx]
      simp [hxs]
    simp only [parse_line_spec, hne, if_false, h2, takeWhile_ne_space_self uri h2]
  | some lab =>
    refine ⟨uri ++ ' ' :: lab, by simp [serialise_line_spec], ?_, ?_⟩
    · have := h4 lab rfl
      simp [h3, this]
    · have hne : ¬ (uri ++ ' ' :: lab = [] ∨ (uri ++ ' ' :: lab).head? = some ' ') := by
        rw [hx]
        simp [hxs]
      have hmem : ' ' ∈ uri ++ ' ' :: lab := by simp
      simp only [parse_line_spec, hne, if_false, hmem, if_true,
        (takeWhile_ne_space_append uri lab h2).1, (takeWhile_ne_space_append uri lab h2).2,
        List.tail_cons]

theorem parse_spec_serialise_spec (l : List NautilusBookmark)
    (hl : ∀ b ∈ l, roundTrips b = true) : parse_spec (serialise_spec l) = l := by
  induction l with
  | nil => simp [parse_spec, serialise_spec, parse_line_spec]
  | cons b rest ih =>
    obtain ⟨t, ht, hnl, hp⟩ := serialise_line_spec_parse b (hl b (List.mem_cons_self _ _))
    have hsplit : (t ++ '\n' :: serialise_spec rest).splitOn '\n'
        = t :: (serialise_spec rest).splitOn '\n' := by
      unfold List.splitOn
      refine List.splitOnP_first _ t ?_ '\n' (by simp) _
      intro y hy
      simp only [beq_iff_eq]
      intro e
      exact hnl (e ▸ hy)
    have hs : serialise_spec (b :: rest) = t ++ '\n' :: serialise_spec rest := by
      simp [serialise_spec, ht]
    have ih' := ih (fun b' hb' => hl b' (List.mem_cons_of_mem _ hb'))
    unfold parse_spec at ih' ⊢
    rw [hs, hsplit, List.filterMap_cons, hp, ih']

theorem op_processed_cb_list_of_last (s : NautilusBookmarkList)
    (h : g_queue_pop_tail s.pending_ops = []) : (op_processed_cb s).list = s.list := by
  simp [op_processed_cb, h, g_queue_is_empty]

/-! ## C11: save/load round trip -/

/-- C11. For a list whose bookmarks have a non-empty URI free of spaces and
newlines and a label (if any) free of newlines, their strings being C strings
(no NUL): `save_file_async` hands the writer the text `bookmark_string` of the
list; the loop of `load_callback` run on that text appends exactly the same
bookmarks, in order, to the list it finds; `load_callback` is that, the
`changed` signal and `op_processed_cb`; so when the list was empty and no
further operation is pending, the loaded list is the saved one. -/
theorem save_load_round_trip (l : List NautilusBookmark)
    (hl : ∀ b ∈ l, roundTrips b = true) (hc : ∀ b ∈ l, holds_c_strings b = true)
    (self : NautilusBookmarkList) :
    (save_file_async { self with list := l }).in_flight
        = self.in_flight ++ [AsyncOp.save (bookmark_string l)] ∧
      (g_strsplit (bookmark_string l)).foldl load_line self
        = { self with list := self.list ++ l } ∧
      load_callback self (some (bookmark_string l)) =
        op_processed_cb
          { self with
            list := self.list ++ l
            trace := self.trace ++ [Call.g_signal_emit_changed] } ∧
      (self.list = [] → g_queue_pop_tail self.pending_ops = [] →
        (load_callback self (some (bookmark_string l))).list = l) := by
  have hparse : parse_spec (c_string (bookmark_string l)) = l := by
    rw [bookmark_string_eq_spec, c_string_serialise_spec l hc]
    exact parse_spec_serialise_spec l hl
  refine ⟨rfl, ?_, ?_, ?_⟩
  · rw [foldl_load_line_eq, filterMap_g_strsplit, hparse]
  · rw [load_callback_eq, hparse]
  · intro hnil hlast
    rw [load_callback_eq, hparse]
    rw [op_processed_cb_list_of_last
      { self with list := self.list ++ l, trace := self.trace ++ [Call.g_signal_emit_changed] }
      hlast]
    simp [hnil]

/-- C11, on the example of the spec: the list `file:///a`, `file:///b` labelled
`My B` is written as the two lines `file:///a` and `file:///b My B`, and the
initial load of a new list run on that text gives the list back. -/
theorem save_load_round_trip_witness :
    (∀ b ∈ demoBookmarks, roundTrips b = true) ∧
      (∀ b ∈ demoBookmarks, holds_c_strings b = true) ∧
      bookmark_string demoBookmarks = demoText ∧
      nautilus_bookmark_list_init.list = [] ∧
      g_queue_pop_tail nautilus_bookmark_list_init.pending_ops = [] ∧
      (load_callback nautilus_bookmark_list_init (some (bookmark_string demoBookmarks))).list
        = demoBookmarks :=
  ⟨by decide, by decide, by decide, by decide, by decide,
    (save_load_round_trip demoBookmarks (by decide) (by decide)
      nautilus_bookmark_list_init).2.2.2 (by decide) (by decide)⟩

/-! ## C12: what a load parses -/

/-- C12 does not hold for every file content. The content `file:///a`, NUL, `x`,
newline, `file:///b`, newline has two lines that are not empty and do not start
with a space, so the reading of the claim gives two bookmarks; `g_strsplit`
reads the content as a C string, up to the NUL, and the load appends the single
bookmark `file:///a`. -/
theorem load_callback_stops_at_nul :
    demoNulText = "file:///a".toList ++ '\x00' :: "x\nfile:///b\n".toList ∧
      parse_spec demoNulText
        = [{ uri := "file:///a".toList ++ '\x00' :: "x".toList, label := none },
           { uri := "file:///b".toList, label := none }] ∧
      (g_strsplit demoNulText).foldl load_line nautilus_bookmark_list_init
        = { nautilus_bookmark_list_init with list := [demoBookmarkA] } ∧
      (load_callback nautilus_bookmark_list_init (some demoNulText)).list = [demoBookmarkA] ∧
      Option.map NautilusBookmarkList.list (complete nautilus_bookmark_list_init demoFsNul)
        = some [demoBookmarkA] ∧
      (load_callback nautilus_bookmark_list_init (some demoNulText)).list
        ≠ nautilus_bookmark_list_init.list ++ parse_spec demoNulText := by
  refine ⟨?_, ?_, ?_, ?_, ?_, ?_⟩ <;> decide

/-- C12, amended. For every file content, the loop of `load_callback` appends to
the list the bookmarks `parse_spec` reads from the text before the first NUL of
the content (that text cut at every newline; one bookmark, in line order, for
each line that is not empty and does not start with a space; URI before the
first space, label after it, no label without a space); `load_callback` is that
loop, the `changed` signal and `op_processed_cb`; for a content without NUL the
text read is the whole content. -/
theorem load_callback_parses (self : NautilusBookmarkList) (contents : List Char) :
    (g_strsplit contents).foldl load_line self
        = { self with list := self.list ++ parse_spec (c_string contents) } ∧
      load_callback self (some contents) =
        op_processed_cb
          { self with
            list := self.list ++ parse_spec (c_string contents)
            trace := self.trace ++ [Call.g_signal_emit_changed] } ∧
      ('\x00' ∉ contents →
        load_callback self (some contents) =
          op_processed_cb
            { self with
              list := self.list ++ parse_spec contents
              trace := self.trace ++ [Call.g_signal_emit_changed] }) := by
  refine ⟨?_, load_callback_eq self contents, ?_⟩
  · rw [foldl_load_line_eq, filterMap_g_strsplit]
  · intro h
    rw [load_callback_eq, (c_string_eq_self_iff contents).2 h]

/-- C12, on the two lines `file:///a` and `file:///b My B`, a content without NUL:
the load appends the bookmarks read from the whole content. -/
theorem load_callback_parses_witness :
    '\x00' ∉ demoText ∧ parse_spec demoText = demoBookmarks ∧
      load_callback nautilus_bookmark_list_init (some demoText) =
        op_processed_cb
          { nautilus_bookmark_list_init with
            list := nautilus_bookmark_list_init.list ++ parse_spec demoText
            trace := nautilus_bookmark_list_init.trace ++ [Call.g_signal_emit_changed] } :=
  ⟨by decide, by decide,
    (load_callback_parses nautilus_bookmark_list_init demoText).2.2 (by decide)⟩

/-! ## C13: what a save writes -/

/-- C13. For every bookmark list, `save_file_async` hands the worker thread the
text `serialise_spec` of the list (one record per bookmark, in list order: URI
and newline, or URI, space, label and newline), that text is what
`save_io_thread` passes to `g_file_replace_contents`, and the empty list gives
the empty text. -/
theorem save_file_async_text (self : NautilusBookmarkList) (fs : FileSystem) :
    bookmark_string self.list = serialise_spec self.list ∧
      save_file_async self =
        { self with
          monitor := false
          in_flight := self.in_flight ++ [AsyncOp.save (serialise_spec self.list)]
          trace := self.trace ++
            [Call.g_simple_async_result_run_in_thread
              (AsyncOp.save (serialise_spec self.list))] } ∧
      (save_io_thread fs (serialise_spec self.list)).head?
        = some (Call.g_file_replace_contents (serialise_spec self.list)) ∧
      serialise_spec [] = [] := by
  refine ⟨bookmark_string_eq_spec _, ?_, rfl, rfl⟩
  simp only [save_file_async, bookmark_string_eq_spec]

/-! ## Lemmas on the mutators -/

theorem save_file_fields (s : NautilusBookmarkList) :
    (nautilus_bookmark_list_save_file s).list = s.list ∧
      (nautilus_bookmark_list_save_file s).pending_ops = SAVE_JOB :: s.pending_ops ∧
      changed_count (nautilus_bookmark_list_save_file s) = changed_count s + 1 ∧
      popped (nautilus_bookmark_list_save_file s) = popped s := by
  unfold nautilus_bookmark_list_save_file
  by_cases h : s.pending_ops = []
  · simp [h, g_queue_get_length, g_queue_push_head, process_next_op, g_queue_peek_tail,
      SAVE_JOB, LOAD_JOB, save_file_async, changed_count, popped, List.filterMap_append,
      List.count_append]
  · simp [h, g_queue_get_length, g_queue_push_head, changed_count, popped,
      List.filterMap_append, List.count_append]

theorem toGint_of_lt (n : Nat) (h : n < 2 ^ 31) : toGint n = (n : Int) := by
  have h1 : n % 2 ^ 32 = n := Nat.mod_eq_of_lt (by omega)
  unfold toGint
  rw [h1, if_pos h]

theorem toGint_neg_of_ge (n : Nat) (h1 : 2 ^ 31 ≤ n) (h2 : n < 2 ^ 32) : toGint n < 0 := by
  have hm : n % 2 ^ 32 = n := Nat.mod_eq_of_lt h2
  have hn : ¬ n < 2 ^ 31 := by omega
  unfold toGint
  rw [hm, if_neg hn]
  omega

theorem g_list_nth_of_lt (l : List NautilusBookmark) (i : Nat) (h : i < l.length) :
    g_list_nth l i = some (i, l.get ⟨i, h⟩) := by
  unfold g_list_nth
  rw [List.get?_eq_get h]

theorem g_list_nth_of_ge (l : List NautilusBookmark) (i : Nat) (h : l.length ≤ i) :
    g_list_nth l i = none := by
  unfold g_list_nth
  rw [List.get?_eq_none.mpr h]

theorem g_list_insert_nat (l : List NautilusBookmark) (x : NautilusBookmark) (p : Nat)
    (hp : p ≤ l.length) : g_list_insert l x (p : Int) = l.take p ++ x :: l.drop p := by
  unfold g_list_insert
  have h0 : ¬ ((p : Int) < 0) := by omega
  rw [if_neg h0]
  by_cases hz : p = 0
  · subst hz
    simp
  · have hz' : ¬ ((p : Int) = 0) := by omega
    rw [if_neg hz']
    simp only [Int.toNat_ofNat]
    by_cases hlt : p < l.length
    · rw [if_pos hlt]
    · rw [if_neg hlt]
      have : p = l.length := by omega
      subst this
      simp

theorem g_list_insert_off_end (l : List NautilusBookmark) (x : NautilusBookmark) (z : Int)
    (h : z < 0 ∨ (l.length : Int) < z) : g_list_insert l x z = l ++ [x] := by
  unfold g_list_insert
  rcases h with h | h
  · rw [if_pos h]
  · have h0 : ¬ z < 0 := by omega
    have h1 : ¬ z = 0 := by omega
    have h2 : ¬ z.toNat < l.length := by omega
    rw [if_neg h0, if_neg h1, if_neg h2]

theorem move_item_eq_none_iff (s : NautilusBookmarkList) (i d : Nat) :
    nautilus_bookmark_list_move_item s i d = none ↔ i ≠ d ∧ s.list.length ≤ i := by
  unfold nautilus_bookmark_list_move_item
  by_cases hid : i = d
  · simp [hid]
  · rw [if_neg hid]
    by_cases hi : i < s.list.length
    · simp only [g_list_nth_of_lt s.list i hi]
      split <;> simp [hid] <;> omega
    · have hge : s.list.length ≤ i := by omega
      simp [g_list_nth_of_ge s.list i hge, hid, hge]

theorem move_item_eq (s : NautilusBookmarkList) (i d : Nat) (hi : i < s.list.length)
    (hne : i ≠ d) :
    nautilus_bookmark_list_move_item s i d = some (nautilus_bookmark_list_save_file
      { s with
        list := (g_list_insert (s.list.eraseIdx i) (s.list.get ⟨i, hi⟩)
          (toGint (if i < d then d - 1 else d))) }) := by
  unfold nautilus_bookmark_list_move_item
  rw [if_neg hne]
  simp only [g_list_nth_of_lt s.list i hi, g_list_remove_link]
  split <;> rfl

theorem move_item_insert (l : List NautilusBookmark) (x : NautilusBookmark) (i d : Nat)
    (hi : i < l.length) (hlen : l.length < 2 ^ 31) (hd : d < 2 ^ 32) :
    g_list_insert (l.eraseIdx i) x (toGint (if i < d then d - 1 else d))
        = (l.eraseIdx i).take (move_position l.length i d) ++
          x :: (l.eraseIdx i).drop (move_position l.length i d) ∧
      move_position l.length i d ≤ (l.eraseIdx i).length := by
  have hlen' : (l.eraseIdx i).length = l.length - 1 := List.length_eraseIdx_of_lt hi
  unfold move_position
  by_cases hid : i < d
  · rw [if_pos hid, if_pos hid]
    by_cases hdl : d ≤ l.length
    · rw [if_pos hdl, toGint_of_lt (d - 1) (by omega)]
      exact ⟨g_list_insert_nat _ x (d - 1) (by omega), by omega⟩
    · rw [if_neg hdl]
      have hoff : g_list_insert (l.eraseIdx i) x (toGint (d - 1)) = l.eraseIdx i ++ [x] := by
        apply g_list_insert_off_end
        by_cases h31 : d - 1 < 2 ^ 31
        · right
          rw [toGint_of_lt (d - 1) h31, hlen']
          omega
        · left
          exact toGint_neg_of_ge (d - 1) (by omega) (by omega)
      rw [hoff, ← hlen']
      exact ⟨by simp, le_refl _⟩
  · rw [if_neg hid, if_neg hid, toGint_of_lt d (by omega)]
    exact ⟨g_list_insert_nat _ x d (by omega), by omega⟩

/-! ## C14: where a move puts the entry -/

/-- C14 (counterexample). On the list X, Y, Z, `move_item (0, 5)` takes X out and
puts it last: the list becomes Y, Z, X, and there is no entry at position
5 - 1. -/
theorem move_past_end_lands_last :
    nautilus_bookmark_list_move_item demoXYZ 0 5 = some demoMovedPastEnd ∧
      demoXYZ.list = [demoX, demoY, demoZ] ∧
      demoMovedPastEnd.list = [demoY, demoZ, demoX] ∧
      ¬ (demoMovedPastEnd.list.get? (5 - 1) = some demoX) := by
  decide

/-- C14 (amended). For a list of fewer than 2^31 entries and indices (32-bit
unsigned) with `index` below the length and different from `destination`,
`nautilus_bookmark_list_move_item` takes the entry at `index` out and puts it
back at position `move_position`: `destination - 1` when moving forward to a
destination not past the length, the last position when moving forward past the
length, `destination` when moving backward; the other entries keep their order
(they are the list without the entry, cut at that position); then the save is
requested. -/
theorem move_item_splices (self : NautilusBookmarkList) (index destination : Nat)
    (hi : index < self.list.length) (hne : index ≠ destination)
    (hlen : self.list.length < 2 ^ 31) (hd : destination < 2 ^ 32) :
    nautilus_bookmark_list_move_item self index destination =
        some (nautilus_bookmark_list_save_file
          { self with
            list := ((self.list.eraseIdx index).take
                (move_position self.list.length index destination) ++
              self.list.get ⟨index, hi⟩ ::
                (self.list.eraseIdx index).drop
                  (move_position self.list.length index destination)) }) ∧
      Option.map NautilusBookmarkList.list
          (nautilus_bookmark_list_move_item self index destination) =
        some ((self.list.eraseIdx index).take
            (move_position self.list.length index destination) ++
          self.list.get ⟨index, hi⟩ ::
            (self.list.eraseIdx index).drop
              (move_position self.list.length index destination)) ∧
      move_position self.list.length index destination ≤ (self.list.eraseIdx index).length := by
  obtain ⟨h1, h2⟩ := move_item_insert self.list (self.list.get ⟨index, hi⟩) index destination
    hi hlen hd
  have hm := move_item_eq self index destination hi hne
  rw [h1] at hm
  refine ⟨hm, ?_, h2⟩
  rw [hm, Option.map_some', (save_file_fields _).1]

/-- C14 (amended), on the list X, Y, Z: `move_item (0, 2)` gives Y, X, Z,
`move_item (2, 0)` gives Z, X, Y, and `move_item (0, 5)` gives Y, Z, X. -/
theorem move_item_splices_witness :
    demoXYZ.list = [demoX, demoY, demoZ] ∧
      Option.map NautilusBookmarkList.list (nautilus_bookmark_list_move_item demoXYZ 0 2)
        = some [demoY, demoX, demoZ] ∧
      Option.map NautilusBookmarkList.list (nautilus_bookmark_list_move_item demoXYZ 2 0)
        = some [demoZ, demoX, demoY] ∧
      Option.map NautilusBookmarkList.list (nautilus_bookmark_list_move_item demoXYZ 0 5)
        = some [demoY, demoZ, demoX] ∧
      move_position demoXYZ.list.length 0 2 ≤ (demoXYZ.list.eraseIdx 0).length :=
  ⟨by decide, by decide, by decide, by decide,
    (move_item_splices demoXYZ 0 2 (by decide) (by decide) (by decide) (by decide)).2.2⟩

/-! ## C15: moving an entry onto itself -/

/-- C15. For every list and every index, in range or not,
`nautilus_bookmark_list_move_item (i, i)` returns the bookmark list as it was:
the same entries, the same `pending_ops` (no `SAVE_JOB` pushed) and the same
trace (no `changed` emitted). -/
theorem move_item_same_index (self : NautilusBookmarkList) (i : Nat) :
    nautilus_bookmark_list_move_item self i i = some self ∧
      Option.map NautilusBookmarkList.pending_ops (nautilus_bookmark_list_move_item self i i)
        = some self.pending_ops ∧
      Option.map changed_count (nautilus_bookmark_list_move_item self i i)
        = some (changed_count self) := by
  simp [nautilus_bookmark_list_move_item]

/-! ## C16: a load and a mutation made while it is in flight -/

/-- C16 (the code at the failing input). On a new list the bookmark `file:///b`
is appended while the initial load is in flight, then the load completes with
the content `file:///a` and a newline: the list holds the appended bookmark
followed by the parsed one, not the parsed bookmarks alone, and the save
dispatched next writes both. -/
theorem load_merges_with_racing_append :
    run nautilus_bookmark_list_init demoRaceEvents = some demoRaceState ∧
      load_io_thread demoFs = (some "file:///a\n".toList, []) ∧
      parse_spec "file:///a\n".toList = [demoBookmarkA] ∧
      demoRaceState.list = [demoBookmarkB, demoBookmarkA] ∧
      demoRaceState.list ≠ parse_spec "file:///a\n".toList ∧
      demoRaceState.in_flight = [AsyncOp.save "file:///b My B\nfile:///a\n".toList] := by
  decide

/-! ## C17: every effective mutation requests a save and notifies -/

theorem changed_count_return_if_fail (s : NautilusBookmarkList) :
    changed_count { s with trace := s.trace ++ [Call.g_return_if_fail_warning] }
      = changed_count s := by
  simp [changed_count, List.count_append]

theorem popped_return_if_fail (s : NautilusBookmarkList) :
    popped { s with trace := s.trace ++ [Call.g_return_if_fail_warning] } = popped s := by
  simp [popped, List.filterMap_append]

/-- C17. `append` always, `insert_item` exactly when `index` is at most the
length, `delete_item_at` exactly when `index` is below the length, and
`move_item` exactly when `index` is below the length and differs from
`destination`: emit one `changed` notification and push one `SAVE_JOB` onto
`pending_ops`, within the call and without any tag being popped (no completion
is waited for). -/
theorem mutation_saves_and_notifies (self : NautilusBookmarkList) (b : NautilusBookmark)
    (index destination : Nat) :
    (changed_count (nautilus_bookmark_list_append self b) = changed_count self + 1 ∧
      (nautilus_bookmark_list_append self b).pending_ops = SAVE_JOB :: self.pending_ops ∧
      popped (nautilus_bookmark_list_append self b) = popped self) ∧
    (changed_count (nautilus_bookmark_list_insert_item self b index)
        = changed_count self + (if index ≤ self.list.length then 1 else 0) ∧
      (nautilus_bookmark_list_insert_item self b index).pending_ops
        = (if index ≤ self.list.length then SAVE_JOB :: self.pending_ops
            else self.pending_ops) ∧
      popped (nautilus_bookmark_list_insert_item self b index) = popped self) ∧
    (changed_count (nautilus_bookmark_list_delete_item_at self index)
        = changed_count self + (if index < self.list.length then 1 else 0) ∧
      (nautilus_bookmark_list_delete_item_at self index).pending_ops
        = (if index < self.list.length then SAVE_JOB :: self.pending_ops
            else self.pending_ops) ∧
      popped (nautilus_bookmark_list_delete_item_at self index) = popped self) ∧
    (Option.map changed_count (nautilus_bookmark_list_move_item self index destination)
        = (if index = destination then some (changed_count self)
            else if index < self.list.length then some (changed_count self + 1) else none) ∧
      Option.map NautilusBookmarkList.pending_ops
          (nautilus_bookmark_list_move_item self index destination)
        = (if index = destination then some self.pending_ops
            else if index < self.list.length then some (SAVE_JOB :: self.pending_ops)
            else none) ∧
      Option.map popped (nautilus_bookmark_list_move_item self index destination)
        = (if index = destination then some (popped self)
            else if index < self.list.length then some (popped self) else none)) := by
  refine ⟨?_, ?_, ?_, ?_⟩
  · unfold nautilus_bookmark_list_append
    obtain ⟨_, h2, h3, h4⟩ := save_file_fields
      (insert_bookmark_internal self (nautilus_bookmark_copy b) (-1))
    exact ⟨h3, h2, h4⟩
  · unfold nautilus_bookmark_list_insert_item
    by_cases h : index ≤ self.list.length
    · simp only [g_list_length, h, if_true]
      obtain ⟨_, h2, h3, h4⟩ := save_file_fields
        (insert_bookmark_internal self (nautilus_bookmark_copy b) (toGint index))
      exact ⟨h3, h2, h4⟩
    · simp only [g_list_length, h, if_false]
      exact ⟨changed_count_return_if_fail self, trivial, popped_return_if_fail self⟩
  · unfold nautilus_bookmark_list_delete_item_at
    by_cases h : index < self.list.length
    · simp only [g_list_length, h, if_true]
      obtain ⟨_, h2, h3, h4⟩ := save_file_fields
        { self with list := g_list_remove_link self.list (g_list_nth self.list index) }
      exact ⟨h3, h2, h4⟩
    · simp only [g_list_length, h, if_false]
      exact ⟨changed_count_return_if_fail self, trivial, popped_return_if_fail self⟩
  · by_cases hid : index = destination
    · subst hid
      simp [nautilus_bookmark_list_move_item]
    · by_cases hi : index < self.list.length
      · rw [move_item_eq self index destination hi hid]
        simp only [hid, hi, if_false, if_true, Option.map_some']
        obtain ⟨_, h2, h3, h4⟩ := save_file_fields
          { self with
            list := (g_list_insert (self.list.eraseIdx index) (self.list.get ⟨index, hi⟩)
              (toGint (if index < destination then destination - 1 else destination))) }
        exact ⟨by rw [h3]; rfl, by rw [h2], by rw [h4]; rfl⟩
      · have hn := (move_item_eq_none_iff self index destination).mpr ⟨hid, by omega⟩
        simp [hn, hid, hi]

/-! ## C18: deleting the entries with a URI -/

theorem g_strcmp0_eq_zero_iff (a b : List Char) : g_strcmp0 a b = 0 ↔ a = b := by
  unfold g_strcmp0
  by_cases h : a = b
  · simp [h]
  · rw [if_neg h]
    split <;> simp [h]

theorem delete_items_loop_eq (uri : List Char) (rest : List NautilusBookmark) :
    ∀ (kept : List NautilusBookmark) (list_changed : Bool),
      delete_items_loop uri kept rest list_changed =
        (kept ++ rest.filter (fun b => b.uri != uri),
          list_changed || rest.any (fun b => b.uri == uri)) := by
  induction rest with
  | nil => intro kept ch; simp [delete_items_loop]
  | cons node next ih =>
    intro kept ch
    by_cases h : node.uri = uri
    · simp [delete_items_loop, g_strcmp0_eq_zero_iff, nautilus_bookmark_get_uri, h, ih]
    · have hb : (node.uri == uri) = false := by simpa using h
      simp [delete_items_loop, g_strcmp0_eq_zero_iff, nautilus_bookmark_get_uri, h, hb, ih]

/-- C18. `nautilus_bookmark_list_delete_items_with_uri` leaves exactly the
entries whose URI differs from the given one, in their original order; when at
least one entry has that URI it goes on to request a save (one `changed`, one
`SAVE_JOB` pushed); when none has, it returns the bookmark list as it was. -/
theorem delete_items_with_uri_filters (self : NautilusBookmarkList) (uri : List Char) :
    nautilus_bookmark_list_delete_items_with_uri self uri =
        (if self.list.any (fun b => b.uri == uri) then
          nautilus_bookmark_list_save_file
            { self with list := self.list.filter (fun b => b.uri != uri) }
        else self) ∧
      (nautilus_bookmark_list_delete_items_with_uri self uri).list
        = self.list.filter (fun b => b.uri != uri) ∧
      (nautilus_bookmark_list_delete_items_with_uri self uri).pending_ops
        = (if self.list.any (fun b => b.uri == uri) then SAVE_JOB :: self.pending_ops
            else self.pending_ops) ∧
      changed_count (nautilus_bookmark_list_delete_items_with_uri self uri)
        = changed_count self + (if self.list.any (fun b => b.uri == uri) then 1 else 0) := by
  have hmain : nautilus_bookmark_list_delete_items_with_uri self uri =
      (if self.list.any (fun b => b.uri == uri) then
        nautilus_bookmark_list_save_file
          { self with list := self.list.filter (fun b => b.uri != uri) }
      else self) := by
    unfold nautilus_bookmark_list_delete_items_with_uri
    rw [delete_items_loop_eq]
    simp only [List.nil_append, Bool.false_or]
    by_cases h : self.list.any (fun b => b.uri == uri) = true
    · simp only [h, if_true]
    · simp only [h, Bool.false_eq_true, if_false]
      have hf : self.list.filter (fun b => b.uri != uri) = self.list := by
        rw [List.filter_eq_self]
        intro b hb
        simp only [List.any_eq_true, not_exists, not_and, beq_iff_eq] at h
        simpa using h b hb
      rw [hf]
  refine ⟨hmain, ?_, ?_, ?_⟩
  · rw [hmain]
    by_cases h : self.list.any (fun b => b.uri == uri) = true
    · rw [if_pos h, (save_file_fields _).1]
    · rw [if_neg h]
      symm
      rw [List.filter_eq_self]
      intro b hb
      simp only [List.any_eq_true, not_exists, not_and, beq_iff_eq] at h
      simpa using h b hb
  · rw [hmain]
    by_cases h : self.list.any (fun b => b.uri == uri) = true
    · rw [if_pos h, if_pos h, (save_file_fields _).2.1]
    · rw [if_neg h, if_neg h]
  · rw [hmain]
    by_cases h : self.list.any (fun b => b.uri == uri) = true
    · rw [if_pos h, if_pos h, (save_file_fields _).2.2.1]
      rfl
    · rw [if_neg h, if_neg h]
      rfl

/-! ## C19: the bounds checks -/

/-- C19. `delete_item_at` removes exactly the entry at `index` and requests a
save when `index` is below the length, and otherwise leaves the list and
`pending_ops` as they are and emits no `changed`; `insert_item` with `index`
above the length leaves the list and `pending_ops` as they are and emits no
`changed`; `item_at` returns the entry at `index`, none when `index` is not
below the length. -/
theorem bounds_checks (self : NautilusBookmarkList) (b : NautilusBookmark) (index : Nat) :
    ((nautilus_bookmark_list_delete_item_at self index).list
        = (if index < self.list.length then self.list.eraseIdx index else self.list) ∧
      (nautilus_bookmark_list_delete_item_at self index).pending_ops
        = (if index < self.list.length then SAVE_JOB :: self.pending_ops
            else self.pending_ops) ∧
      changed_count (nautilus_bookmark_list_delete_item_at self index)
        = changed_count self + (if index < self.list.length then 1 else 0)) ∧
    ((nautilus_bookmark_list_insert_item self b index).list
        = (if index ≤ self.list.length then g_list_insert self.list b (toGint index)
            else self.list) ∧
      (nautilus_bookmark_list_insert_item self b index).pending_ops
        = (if index ≤ self.list.length then SAVE_JOB :: self.pending_ops
            else self.pending_ops) ∧
      changed_count (nautilus_bookmark_list_insert_item self b index)
        = changed_count self + (if index ≤ self.list.length then 1 else 0)) ∧
    nautilus_bookmark_list_item_at self index = self.list.get? index := by
  refine ⟨?_, ?_, ?_⟩
  · unfold nautilus_bookmark_list_delete_item_at
    by_cases h : index < self.list.length
    · simp only [g_list_length, h, if_true]
      obtain ⟨h1, h2, h3, _⟩ := save_file_fields
        { self with list := g_list_remove_link self.list (g_list_nth self.list index) }
      refine ⟨?_, h2, h3⟩
      rw [h1, g_list_nth_of_lt self.list index h]
      rfl
    · simp only [g_list_length, h, if_false]
      exact ⟨trivial, trivial, changed_count_return_if_fail self⟩
  · unfold nautilus_bookmark_list_insert_item
    by_cases h : index ≤ self.list.length
    · simp only [g_list_length, h, if_true]
      obtain ⟨h1, h2, h3, _⟩ := save_file_fields
        (insert_bookmark_internal self (nautilus_bookmark_copy b) (toGint index))
      exact ⟨h1, h2, h3⟩
    · simp only [g_list_length, h, if_false]
      exact ⟨trivial, trivial, changed_count_return_if_fail self⟩
  · unfold nautilus_bookmark_list_item_at g_list_nth_data g_list_length
    by_cases h : index < self.list.length
    · rw [if_pos h]
    · rw [if_neg h, List.get?_eq_none.mpr (by omega)]

/-! ## C20: a move from an index off the end -/

/-- C20 (the code at the failing input). On the list X, Y, Z (length 3),
`move_item` from index 5 or from index 3 finds no node and then reads its data:
the call does not return; `delete_item_at` with the same index is refused by
its bounds check and returns with the list as it was. -/
theorem move_item_off_the_end_reads_null :
    demoXYZ.list.length = 3 ∧
      nautilus_bookmark_list_move_item demoXYZ 5 0 = none ∧
      nautilus_bookmark_list_move_item demoXYZ 3 0 = none ∧
      g_list_nth demoXYZ.list 5 = none ∧
      (nautilus_bookmark_list_delete_item_at demoXYZ 5).list = demoXYZ.list := by
  decide

end BookmarkList

namespace JobQueue

/-! ## C22: the gate of `nemo_job_queue_start_next_job` -/

/-- C22. `nemo_job_queue_start_next_job` starts the head of `queued_jobs` exactly
when `running_jobs` is empty and `queued_jobs` is not: the head leaves
`queued_jobs`, whose other jobs keep their order, becomes the one running job and
is handed to the I/O scheduler; with a job running, or with nothing queued, the
queue is returned as it was. -/
theorem start_next_job_gate (q r : Job) (qs rs : List Job) (t : List Call) :
    nemo_job_queue_start_next_job { queued_jobs := q :: qs, running_jobs := [], trace := t }
        = { queued_jobs := qs, running_jobs := [q],
            trace := t ++ [Call.g_io_scheduler_push_job q] } ∧
      nemo_job_queue_start_next_job { queued_jobs := qs, running_jobs := r :: rs, trace := t }
        = { queued_jobs := qs, running_jobs := r :: rs, trace := t } ∧
      nemo_job_queue_start_next_job { queued_jobs := [], running_jobs := rs, trace := t }
        = { queued_jobs := [], running_jobs := rs, trace := t } := by
  refine ⟨start_next_job_of_idle _ q qs rfl rfl, ?_, ?_⟩
  · exact start_next_job_of_busy _ (Or.inl (by simp))
  · exact start_next_job_of_busy _ (Or.inr rfl)

/-! ## C23: forcing a queued job to start -/

/-- C23. In a queue whose queued jobs are distinct blocks,
`nemo_job_queue_start_job_by_info` for the handle `h` moves the first queued job
with that handle to the end of `running_jobs` (whatever is running), hands it to
the I/O scheduler, and leaves the other queued jobs in order and the running
jobs in place; when no queued job has the handle, running or not, the queue is
returned as it was. -/
theorem start_job_by_info_moves_first_match (s : NemoJobQueue) (h : Nat)
    (hnodup : (s.queued_jobs.map Job.ptr).Nodup) :
    (∀ l1 l2 job, s.queued_jobs = l1 ++ job :: l2 → job.info = h →
        (∀ x ∈ l1, x.info ≠ h) →
        nemo_job_queue_start_job_by_info s h =
          { queued_jobs := l1 ++ l2, running_jobs := s.running_jobs ++ [job],
            trace := s.trace ++ [Call.g_io_scheduler_push_job job] }) ∧
      ((∀ x ∈ s.queued_jobs, x.info ≠ h) → nemo_job_queue_start_job_by_info s h = s) := by
  constructor
  · intro l1 l2 job hq hj hl
    have hfind : g_list_find_custom s.queued_jobs h compare_info_func = some job := by
      rw [hq]
      simp only [g_list_find_custom, List.find?_append, compare_info_func]
      have h1 : List.find? (fun a => (if a.info = h then (0 : Int) else 1) == 0) l1 = none := by
        rw [List.find?_eq_none]
        intro x hx
        simp [hl x hx]
      simp [h1, hj]
    have hrem : g_list_remove s.queued_jobs job = l1 ++ l2 := by
      rw [hq]
      exact g_list_remove_split l1 l2 job (not_mem_ptr_of_nodup_split (hq ▸ hnodup))
    simp only [nemo_job_queue_start_job_by_info, hfind, start_job, hrem, g_list_append]
  · intro hnone
    have hfind : g_list_find_custom s.queued_jobs h compare_info_func = none :=
      g_list_find_custom_info_none.mpr hnone
    simp only [nemo_job_queue_start_job_by_info, hfind]

/-- C23, on the busy queue (job 100 running, job 101 with handle 11 queued):
forcing handle 11 puts job 101 behind job 100 in `running_jobs`; forcing handle
10, the handle of the running job, changes nothing. -/
theorem start_job_by_info_moves_first_match_witness :
    (demoBusyState.queued_jobs.map Job.ptr).Nodup ∧
      demoBusyState.queued_jobs = [] ++ Job.mk 101 1 3 11 0 :: [] ∧
      (nemo_job_queue_start_job_by_info demoBusyState 11).running_jobs
        = [Job.mk 100 1 2 10 0, Job.mk 101 1 3 11 0] ∧
      nemo_job_queue_start_job_by_info demoBusyState 11 =
        { queued_jobs := [] ++ [],
          running_jobs := demoBusyState.running_jobs ++ [Job.mk 101 1 3 11 0],
          trace := demoBusyState.trace ++
            [Call.g_io_scheduler_push_job (Job.mk 101 1 3 11 0)] } ∧
      nemo_job_queue_start_job_by_info demoBusyState 10 = demoBusyState :=
  ⟨by decide, by decide, by decide,
    (start_job_by_info_moves_first_match demoBusyState 11 (by decide)).1 [] []
      (Job.mk 101 1 3 11 0) (by decide) (by decide) (by decide),
    (start_job_by_info_moves_first_match demoBusyState 10 (by decide)).2 (by decide)⟩

/-! ## C27: the queue is work-conserving -/

theorem workConserving_start_next_job (m : NemoJobQueue) :
    WorkConserving (nemo_job_queue_start_next_job m) := by
  intro hq
  rcases start_next_job_cases m with ⟨_, q, qs, _, hr, _⟩ | ⟨hc, hr, hq'⟩
  · rw [hr]; simp
  · rw [hr]
    rw [hq'] at hq
    rcases hc with hc | hc
    · exact hc
    · exact absurd hc hq

theorem workConserving_start_job (m : NemoJobQueue) (job : Job) :
    WorkConserving (start_job m job) := by
  intro _
  simp [start_job, g_list_append]

theorem workConserving_add_new_job (s : NemoJobQueue) (p f u c i : Nat) (k : OpKind)
    (h : WorkConserving s) : WorkConserving (nemo_job_queue_add_new_job s p f u c i k) := by
  unfold nemo_job_queue_add_new_job
  split
  · exact h
  · simp only
    split
    · exact workConserving_start_job _ _
    · exact workConserving_start_next_job _

theorem workConserving_fire (s s' : NemoJobQueue) (e : Event) (h : WorkConserving s)
    (hf : fire s e = some s') : WorkConserving s' := by
  cases e with
  | add_new_job p f u c i k =>
    simp only [fire, Option.some.injEq] at hf
    subst hf
    exact workConserving_add_new_job s p f u c i k h
  | finished i =>
    simp only [fire, job_finished_cb] at hf
    split at hf
    · simp at hf
    · simp only [Option.some.injEq] at hf
      subst hf
      exact workConserving_start_next_job _
  | start_next_job =>
    simp only [fire, Option.some.injEq] at hf
    subst hf
    exact workConserving_start_next_job s
  | start_job_by_info i =>
    simp only [fire, Option.some.injEq] at hf
    subst hf
    unfold nemo_job_queue_start_job_by_info
    split
    · exact workConserving_start_job _ _
    · exact h

/-- C27. In every state reached from the empty queue by submissions of any kind,
calls of `nemo_job_queue_start_next_job` and of
`nemo_job_queue_start_job_by_info`, and `finished` signals of tracked jobs: if
`queued_jobs` is not empty then `running_jobs` is not empty. -/
theorem queue_is_work_conserving (evs : List Event) (s : NemoJobQueue)
    (hrun : run nemo_job_queue_init evs = some s) (hq : s.queued_jobs ≠ []) :
    s.running_jobs ≠ [] := by
  have h : WorkConserving s :=
    run_invariant WorkConserving (fun _ => true)
      (fun s e s' hs _ hf => workConserving_fire s s' e hs hf) evs nemo_job_queue_init s
      (by intro hq0; simp [nemo_job_queue_init] at hq0) (fun _ _ => rfl) hrun
  exact h hq

/-- C27, on the mixed run: it ends with job 103 queued while job 102 runs. -/
theorem queue_is_work_conserving_witness :
    run nemo_job_queue_init demoMixedEvents = some demoMixedState ∧
      demoMixedState.queued_jobs.map Job.ptr = [103] ∧
      demoMixedState.running_jobs.map Job.ptr = [102] ∧
      demoMixedState.running_jobs ≠ [] :=
  ⟨by decide, by decide, by decide,
    queue_is_work_conserving demoMixedEvents demoMixedState (by decide) (by decide)⟩

/-! ## C28: what the duplicate check compares -/

theorem g_list_remove_length_of_mem (l : List Job) (j : Job)
    (h : ∃ x ∈ l, x.ptr = j.ptr) : (g_list_remove l j).length + 1 = l.length := by
  induction l with
  | nil => simp at h
  | cons x rest ih =>
    simp only [g_list_remove]
    by_cases hx : x.ptr = j.ptr
    · simp [hx]
    · rw [if_neg hx]
      obtain ⟨y, hy, hyp⟩ := h
      rcases List.mem_cons.mp hy with rfl | hy
      · exact absurd hyp hx
      · simp only [List.length_cons]
        rw [ih ⟨y, hy, hyp⟩]

theorem find_job_data_isSome_iff (l : List Job) (u : Nat) :
    (g_list_find_custom l u compare_job_data_func).isSome = true ↔ u ∈ l.map Job.job_func := by
  simp only [g_list_find_custom, compare_job_data_func, List.find?_isSome, List.mem_map]
  constructor
  · rintro ⟨x, hx, h⟩
    refine ⟨x, hx, ?_⟩
    by_contra hne
    simp [hne] at h
  · rintro ⟨x, hx, h⟩
    exact ⟨x, hx, by simp [h]⟩

theorem tracked_length_start_next_job (m : NemoJobQueue) :
    (tracked (nemo_job_queue_start_next_job m)).length = (tracked m).length := by
  rcases start_next_job_cases m with ⟨hr0, q, qs, hq, hr, hq'⟩ | ⟨_, hr, hq'⟩
  · simp [tracked, hr, hq', hq, hr0]
  · simp only [tracked, hr, hq']

theorem trace_start_next_job (m : NemoJobQueue) :
    ∃ extra, (nemo_job_queue_start_next_job m).trace = m.trace ++ extra ∧
      ∀ c ∈ extra, ∃ j, c = Call.g_io_scheduler_push_job j := by
  unfold nemo_job_queue_start_next_job
  split
  · split
    · rename_i job _ _
      exact ⟨[Call.g_io_scheduler_push_job job], rfl, by simp⟩
    · exact ⟨[], by simp, by simp⟩
  · exact ⟨[], by simp, by simp⟩

/-- C28. `nemo_job_queue_add_new_job` rejects a submission exactly when its
`user_data` equals the `job_func` field of some job in `queued_jobs`: it then
only logs a warning (both lists unchanged, no block taken, no observer connected,
no `new-job` emitted). Otherwise it takes a block, announces and connects the
handle, tracks one more job and emits `new-job`, the only other calls being
starts of jobs. The `user_data` of tracked jobs and the jobs in `running_jobs`
do not enter the condition. -/
theorem duplicate_check_compares_job_func (s : NemoJobQueue) (p f u c i : Nat) (k : OpKind) :
    (u ∈ s.queued_jobs.map Job.job_func →
        nemo_job_queue_add_new_job s p f u c i k =
          { s with trace := s.trace ++ [Call.g_warning] }) ∧
      (u ∉ s.queued_jobs.map Job.job_func →
        (tracked (nemo_job_queue_add_new_job s p f u c i k)).length
            = (tracked s).length + 1 ∧
          ∃ extra, (nemo_job_queue_add_new_job s p f u c i k).trace =
              s.trace ++ [Call.g_slice_new0 p, Call.nemo_progress_info_queue i,
                Call.g_signal_connect_finished i] ++ extra ++ [Call.g_signal_emit_new_job] ∧
            ∀ x ∈ extra, ∃ j, x = Call.g_io_scheduler_push_job j) := by
  constructor
  · intro hu
    have h := (find_job_data_isSome_iff s.queued_jobs u).mpr hu
    simp only [nemo_job_queue_add_new_job, h, if_true]
  · intro hu
    have h : (g_list_find_custom s.queued_jobs u compare_job_data_func).isSome = false := by
      rw [Bool.eq_false_iff]
      exact fun e => hu ((find_job_data_isSome_iff s.queued_jobs u).mp e)
    simp only [nemo_job_queue_add_new_job, h, Bool.false_eq_true, if_false]
    by_cases hk : should_start_immediately k = true
    · simp only [hk, if_true]
      constructor
      · have hl := g_list_remove_length_of_mem (s.queued_jobs ++ [Job.mk p f u i c])
          (Job.mk p f u i c) ⟨_, by simp, rfl⟩
        simp only [List.length_append, List.length_singleton] at hl
        simp only [tracked, start_job, g_list_append, List.length_append,
          List.length_singleton]
        omega
      · exact ⟨[Call.g_io_scheduler_push_job (Job.mk p f u i c)], by simp [start_job],
          by simp⟩
    · simp only [hk, Bool.false_eq_true, if_false]
      constructor
      · simp only [tracked] at *
        have := tracked_length_start_next_job
          { queued_jobs := g_list_append s.queued_jobs (Job.mk p f u i c)
            running_jobs := s.running_jobs
            trace := s.trace ++ [Call.g_slice_new0 p, Call.nemo_progress_info_queue i,
              Call.g_signal_connect_finished i] }
        simp only [tracked, g_list_append, List.length_append, List.length_singleton] at this
        simp only [g_list_append, List.length_append]
        omega
      · obtain ⟨extra, he, hx⟩ := trace_start_next_job
          { queued_jobs := g_list_append s.queued_jobs (Job.mk p f u i c)
            running_jobs := s.running_jobs
            trace := s.trace ++ [Call.g_slice_new0 p, Call.nemo_progress_info_queue i,
              Call.g_signal_connect_finished i] }
        exact ⟨extra, by rw [he], hx⟩

/-- C28, on the busy queue (job 101 queued with work function 1 and user data 3,
job 100 running with user data 2): a submission with user data 1 is rejected,
submissions with user data 3 or 2 are accepted. -/
theorem duplicate_check_compares_job_func_witness :
    demoBusyState.queued_jobs.map Job.job_func = [1] ∧
      (1 ∈ demoBusyState.queued_jobs.map Job.job_func) ∧
      nemo_job_queue_add_new_job demoBusyState 102 9 1 0 12 (OpKind.OP_KIND_OTHER 0)
        = { demoBusyState with trace := demoBusyState.trace ++ [Call.g_warning] } ∧
      (3 ∉ demoBusyState.queued_jobs.map Job.job_func) ∧
      (tracked (nemo_job_queue_add_new_job demoBusyState 102 9 3 0 12
        (OpKind.OP_KIND_OTHER 0))).length = (tracked demoBusyState).length + 1 ∧
      (tracked (nemo_job_queue_add_new_job demoBusyState 102 9 2 0 12
        (OpKind.OP_KIND_OTHER 0))).length = (tracked demoBusyState).length + 1 :=
  ⟨by decide, by decide,
    (duplicate_check_compares_job_func demoBusyState 102 9 1 0 12 (OpKind.OP_KIND_OTHER 0)).1
      (by decide),
    by decide,
    ((duplicate_check_compares_job_func demoBusyState 102 9 3 0 12
      (OpKind.OP_KIND_OTHER 0)).2 (by decide)).1,
    ((duplicate_check_compares_job_func demoBusyState 102 9 2 0 12
      (OpKind.OP_KIND_OTHER 0)).2 (by decide)).1⟩

/-! ## What each function does to the tracked jobs and to the ledgers -/

theorem ledger_start_job (m : NemoJobQueue) (job : Job) :
    allocated (start_job m job) = allocated m ∧ announced (start_job m job) = announced m ∧
      freed (start_job m job) = freed m := by
  simp [start_job, allocated, announced, freed, allocatedOf, announcedOf, freedOf,
    List.filterMap_append]

theorem ledger_start_next_job (m : NemoJobQueue) :
    allocated (nemo_job_queue_start_next_job m) = allocated m ∧
      announced (nemo_job_queue_start_next_job m) = announced m ∧
      freed (nemo_job_queue_start_next_job m) = freed m := by
  unfold nemo_job_queue_start_next_job
  split
  · split
    · exact ledger_start_job _ _
    · exact ⟨rfl, rfl, rfl⟩
  · exact ⟨rfl, rfl, rfl⟩

theorem tracked_perm_start_job (m : NemoJobQueue) (job : Job) (hmem : job ∈ m.queued_jobs)
    (hnodup : (m.queued_jobs.map Job.ptr).Nodup) :
    (tracked (start_job m job)).Perm (tracked m) := by
  obtain ⟨l1, l2, e⟩ := List.append_of_mem hmem
  have hrem : g_list_remove m.queued_jobs job = l1 ++ l2 := by
    rw [e]
    exact g_list_remove_split l1 l2 job (not_mem_ptr_of_nodup_split (e ▸ hnodup))
  show (g_list_remove m.queued_jobs job ++ (m.running_jobs ++ [job])).Perm
    (m.queued_jobs ++ m.running_jobs)
  rw [hrem, e]
  have h1 : (l1 ++ l2 ++ (m.running_jobs ++ [job])).Perm
      (job :: (l1 ++ l2 ++ m.running_jobs)) := by
    rw [← List.append_assoc]
    exact List.perm_append_singleton _ _
  have h2 : (l1 ++ job :: l2 ++ m.running_jobs).Perm
      (job :: (l1 ++ l2 ++ m.running_jobs)) := by
    rw [List.append_assoc, List.append_assoc]
    exact List.perm_middle
  exact h1.trans h2.symm

theorem tracked_perm_start_next_job (m : NemoJobQueue) :
    (tracked (nemo_job_queue_start_next_job m)).Perm (tracked m) := by
  by_cases hr : m.running_jobs = []
  · cases hq : m.queued_jobs with
    | nil =>
      rw [start_next_job_of_busy m (Or.inr hq)]
    | cons q qs =>
      rw [start_next_job_of_idle m q qs hr hq]
      simp only [tracked, hr, hq, List.append_nil]
      exact List.perm_append_singleton q qs
  · rw [start_next_job_of_busy m (Or.inl hr)]

theorem tracked_perm_start_job_by_info (s : NemoJobQueue) (i : Nat)
    (hnodup : ((tracked s).map Job.ptr).Nodup) :
    (tracked (nemo_job_queue_start_job_by_info s i)).Perm (tracked s) ∧
      allocated (nemo_job_queue_start_job_by_info s i) = allocated s ∧
      announced (nemo_job_queue_start_job_by_info s i) = announced s ∧
      freed (nemo_job_queue_start_job_by_info s i) = freed s := by
  unfold nemo_job_queue_start_job_by_info
  split
  · rename_i target ht
    obtain ⟨l1, l2, e, _, _⟩ := g_list_find_custom_info_some ht
    exact ⟨tracked_perm_start_job s target (by simp [e]) ((nodup_tracked_iff s).mp hnodup).1,
      ledger_start_job s target⟩
  · exact ⟨List.Perm.refl _, rfl, rfl, rfl⟩

theorem job_finished_cb_effect (s s' : NemoJobQueue) (i : Nat)
    (hnodup : ((tracked s).map Job.ptr).Nodup) (hf : job_finished_cb s i = some s') :
    ∃ job, job.info = i ∧ (tracked s).Perm (job :: tracked s') ∧
      freed s' = freed s ++ [job] ∧ allocated s' = allocated s ∧
      announced s' = announced s := by
  obtain ⟨hnq, hnr, hdis⟩ := (nodup_tracked_iff s).mp hnodup
  have hledger : ∀ (Q R : List Job) (job : Job),
      freed (nemo_job_queue_start_next_job
          { queued_jobs := Q, running_jobs := R, trace := s.trace ++ [Call.g_slice_free job] })
        = freed s ++ [job] ∧
      allocated (nemo_job_queue_start_next_job
          { queued_jobs := Q, running_jobs := R, trace := s.trace ++ [Call.g_slice_free job] })
        = allocated s ∧
      announced (nemo_job_queue_start_next_job
          { queued_jobs := Q, running_jobs := R, trace := s.trace ++ [Call.g_slice_free job] })
        = announced s := by
    intro Q R job
    obtain ⟨h1, h2, h3⟩ := ledger_start_next_job
      { queued_jobs := Q, running_jobs := R, trace := s.trace ++ [Call.g_slice_free job] }
    rw [h1, h2, h3]
    simp [allocated, announced, freed, allocatedOf, announcedOf, freedOf,
      List.filterMap_append]
  cases hr : g_list_find_custom s.running_jobs i compare_info_func with
  | some job =>
    obtain ⟨l1, l2, e, hj, _⟩ := g_list_find_custom_info_some hr
    have h1 : g_list_remove s.running_jobs job = l1 ++ l2 := by
      rw [e]
      exact g_list_remove_split l1 l2 job (not_mem_ptr_of_nodup_split (e ▸ hnr))
    have h2 : g_list_remove s.queued_jobs job = s.queued_jobs := by
      apply g_list_remove_of_not_mem
      simp only [List.mem_map, not_exists, not_and]
      intro a ha e'
      exact hdis a ha job (by simp [e]) e'
    have hcb : job_finished_cb s i = some (nemo_job_queue_start_next_job
        { queued_jobs := s.queued_jobs, running_jobs := l1 ++ l2,
          trace := s.trace ++ [Call.g_slice_free job] }) := by
      simp only [job_finished_cb, hr, h1, h2]
    rw [hcb] at hf
    simp only [Option.some.injEq] at hf
    subst hf
    refine ⟨job, hj, ?_, hledger _ _ job⟩
    have hp := tracked_perm_start_next_job
      { queued_jobs := s.queued_jobs, running_jobs := l1 ++ l2,
        trace := s.trace ++ [Call.g_slice_free job] }
    refine List.Perm.trans ?_ (List.Perm.cons job hp.symm)
    simp only [tracked, e]
    rw [← List.append_assoc, ← List.append_assoc]
    exact List.perm_middle
  | none =>
    cases hq : g_list_find_custom s.queued_jobs i compare_info_func with
    | none => simp [job_finished_cb, hr, hq] at hf
    | some job =>
      obtain ⟨l1, l2, e, hj, _⟩ := g_list_find_custom_info_some hq
      have h1 : g_list_remove s.queued_jobs job = l1 ++ l2 := by
        rw [e]
        exact g_list_remove_split l1 l2 job (not_mem_ptr_of_nodup_split (e ▸ hnq))
      have h2 : g_list_remove s.running_jobs job = s.running_jobs := by
        apply g_list_remove_of_not_mem
        simp only [List.mem_map, not_exists, not_and]
        intro b hb e'
        exact hdis job (by simp [e]) b hb e'.symm
      have hcb : job_finished_cb s i = some (nemo_job_queue_start_next_job
          { queued_jobs := l1 ++ l2, running_jobs := s.running_jobs,
            trace := s.trace ++ [Call.g_slice_free job] }) := by
        simp only [job_finished_cb, hr, hq, h1, h2]
      rw [hcb] at hf
      simp only [Option.some.injEq] at hf
      subst hf
      refine ⟨job, hj, ?_, hledger _ _ job⟩
      have hp := tracked_perm_start_next_job
        { queued_jobs := l1 ++ l2, running_jobs := s.running_jobs,
          trace := s.trace ++ [Call.g_slice_free job] }
      refine List.Perm.trans ?_ (List.Perm.cons job hp.symm)
      simp only [tracked, e]
      rw [List.append_assoc, List.append_assoc]
      exact List.perm_middle

theorem add_new_job_rejected (s : NemoJobQueue) (p f u c i : Nat) (k : OpKind)
    (h : (g_list_find_custom s.queued_jobs u compare_job_data_func).isSome = true) :
    nemo_job_queue_add_new_job s p f u c i k = { s with trace := s.trace ++ [Call.g_warning] } := by
  simp only [nemo_job_queue_add_new_job, h, if_true]

theorem add_new_job_accepted_effect (s : NemoJobQueue) (p f u c i : Nat) (k : OpKind)
    (h : (g_list_find_custom s.queued_jobs u compare_job_data_func).isSome = false)
    (hfresh : ∀ j ∈ s.queued_jobs, j.ptr ≠ p) :
    (tracked (nemo_job_queue_add_new_job s p f u c i k)).Perm (Job.mk p f u i c :: tracked s) ∧
      freed (nemo_job_queue_add_new_job s p f u c i k) = freed s ∧
      allocated (nemo_job_queue_add_new_job s p f u c i k) = allocated s ++ [p] ∧
      announced (nemo_job_queue_add_new_job s p f u c i k) = announced s ++ [i] := by
  have hs1 : (tracked
      { queued_jobs := g_list_append s.queued_jobs (Job.mk p f u i c)
        running_jobs := s.running_jobs
        trace := s.trace ++ [Call.g_slice_new0 p, Call.nemo_progress_info_queue i,
          Call.g_signal_connect_finished i] }).Perm (Job.mk p f u i c :: tracked s) := by
    simp only [tracked, g_list_append, List.append_assoc, List.singleton_append]
    exact List.perm_middle
  simp only [nemo_job_queue_add_new_job, h, Bool.false_eq_true, if_false]
  by_cases hk : should_start_immediately k = true
  · simp only [hk, if_true]
    have hp : (Job.mk p f u i c).ptr ∉ s.queued_jobs.map Job.ptr := by
      simp only [List.mem_map, not_exists, not_and]
      intro j hj e
      exact hfresh j hj e
    refine ⟨?_, ?_, ?_, ?_⟩
    · simp only [tracked, start_job, g_list_append, g_list_remove_append_of_not_mem _ _ hp]
      rw [← List.append_assoc]
      exact List.perm_append_singleton _ _
    · simp [start_job, freed, freedOf, List.filterMap_append]
    · simp [start_job, allocated, allocatedOf, List.filterMap_append]
    · simp [start_job, announced, announcedOf, List.filterMap_append]
  · simp only [hk, Bool.false_eq_true, if_false]
    obtain ⟨h1, h2, h3⟩ := ledger_start_next_job
      { queued_jobs := g_list_append s.queued_jobs (Job.mk p f u i c)
        running_jobs := s.running_jobs
        trace := s.trace ++ [Call.g_slice_new0 p, Call.nemo_progress_info_queue i,
          Call.g_signal_connect_finished i] }
    refine ⟨?_, ?_, ?_, ?_⟩
    · exact (tracked_perm_start_next_job _).trans hs1
    · simp only [freed, freedOf, List.filterMap_append] at h3 ⊢
      simp [h3]
    · simp only [allocated, allocatedOf, List.filterMap_append] at h1 ⊢
      simp [h1]
    · simp only [announced, announcedOf, List.filterMap_append] at h2 ⊢
      simp [h2]

/-! ## C25: a job is in exactly one of the two lists -/

theorem trackInv_fire (s s' : NemoJobQueue) (e : Event) (h : TrackInv s)
    (hg : freshEnabled s e = true) (hf : fire s e = some s') : TrackInv s' := by
  obtain ⟨hn, hp⟩ := h
  cases e with
  | add_new_job p f u c i k =>
    simp only [freshEnabled, List.all_eq_true, bne_iff_ne, ne_eq] at hg
    simp only [fire, Option.some.injEq] at hf
    subst hf
    refine ⟨nodup_add_new_job s p f u c i k hg hn, ?_⟩
    cases hr : (g_list_find_custom s.queued_jobs u compare_job_data_func).isSome with
    | true =>
      rw [add_new_job_rejected s p f u c i k hr]
      have e1 : allocated { s with trace := s.trace ++ [Call.g_warning] } = allocated s := by
        simp [allocated, allocatedOf, List.filterMap_append]
      have e2 : freed { s with trace := s.trace ++ [Call.g_warning] } = freed s := by
        simp [freed, freedOf, List.filterMap_append]
      rw [e1, e2]
      exact hp
    | false =>
      obtain ⟨h1, h2, h3, _⟩ := add_new_job_accepted_effect s p f u c i k hr
        (fun j hj => hg j (by simp [tracked, hj]))
      rw [h2, h3]
      have hq : ((tracked (nemo_job_queue_add_new_job s p f u c i k) ++ freed s).map Job.ptr).Perm
          (p :: (tracked s ++ freed s).map Job.ptr) := by
        have := (h1.append_right (freed s)).map Job.ptr
        simpa using this
      exact ((List.perm_append_singleton p (allocated s)).trans (List.Perm.cons p hp)).trans
        hq.symm
  | finished i =>
    simp only [fire] at hf
    obtain ⟨job, _, h1, h2, h3, _⟩ := job_finished_cb_effect s s' i hn hf
    refine ⟨nodup_job_finished_cb s s' i hf hn, ?_⟩
    rw [h2, h3]
    have hq : ((tracked s ++ freed s).map Job.ptr).Perm
        ((tracked s' ++ (freed s ++ [job])).map Job.ptr) := by
      apply List.Perm.map
      refine (h1.append_right (freed s)).trans ?_
      rw [← List.append_assoc]
      exact (List.perm_append_singleton job (tracked s' ++ freed s)).symm
    exact hp.trans hq
  | start_next_job =>
    simp only [fire, Option.some.injEq] at hf
    subst hf
    obtain ⟨h1, _, h3⟩ := ledger_start_next_job s
    refine ⟨nodup_start_next_job s hn, ?_⟩
    rw [h1, h3]
    exact hp.trans (((tracked_perm_start_next_job s).symm.append_right (freed s)).map Job.ptr)
  | start_job_by_info i =>
    simp only [fire, Option.some.injEq] at hf
    subst hf
    obtain ⟨h0, h1, _, h3⟩ := tracked_perm_start_job_by_info s i hn
    refine ⟨(h0.map Job.ptr).nodup_iff.mpr hn, ?_⟩
    rw [h1, h3]
    exact hp.trans ((h0.symm.append_right (freed s)).map Job.ptr)

/-- C25. In every state reached from the empty queue by submissions (each in a
fresh block), calls of the two start operations and `finished` signals of
tracked jobs: no job is in both lists, no job occurs twice in a list, the
tracked jobs are distinct blocks, and the blocks handed out so far are, up to
order, those of the tracked jobs and those of the jobs released on `finished`:
an accepted job stays in exactly one list until its handle signals. -/
theorem jobs_in_exactly_one_list (evs : List Event) (s : NemoJobQueue)
    (hrun : runGuarded freshEnabled nemo_job_queue_init evs = some s) :
    (∀ j ∈ s.queued_jobs, j ∉ s.running_jobs) ∧
      s.queued_jobs.Nodup ∧ s.running_jobs.Nodup ∧
      ((tracked s).map Job.ptr).Nodup ∧
      (allocated s).Perm ((tracked s ++ freed s).map Job.ptr) := by
  have hinv : TrackInv s :=
    runGuarded_invariant TrackInv freshEnabled
      (fun s e s' hs hg hf => trackInv_fire s s' e hs hg hf) evs nemo_job_queue_init s
      ⟨by simp [tracked, nemo_job_queue_init],
        by simp [tracked, nemo_job_queue_init, allocated, freed, allocatedOf, freedOf]⟩ hrun
  obtain ⟨hn, hp⟩ := hinv
  obtain ⟨hq, hr, hdis⟩ := (nodup_tracked_iff s).mp hn
  refine ⟨?_, List.Nodup.of_map _ hq, List.Nodup.of_map _ hr, hn, hp⟩
  intro j hj hj'
  exact hdis j hj j hj' rfl

/-- C25, on the mixed run: jobs 100 to 103 were accepted, job 103 is queued,
job 102 runs, jobs 101 and 100 were released. -/
theorem jobs_in_exactly_one_list_witness :
    runGuarded freshEnabled nemo_job_queue_init demoMixedEvents = some demoMixedState ∧
      allocated demoMixedState = [100, 101, 102, 103] ∧
      (tracked demoMixedState).map Job.ptr = [103, 102] ∧
      (freed demoMixedState).map Job.ptr = [101, 100] ∧
      ((∀ j ∈ demoMixedState.queued_jobs, j ∉ demoMixedState.running_jobs) ∧
        demoMixedState.queued_jobs.Nodup ∧ demoMixedState.running_jobs.Nodup ∧
        ((tracked demoMixedState).map Job.ptr).Nodup ∧
        (allocated demoMixedState).Perm
          ((tracked demoMixedState ++ freed demoMixedState).map Job.ptr)) :=
  ⟨by decide, by decide, by decide, by decide,
    jobs_in_exactly_one_list demoMixedEvents demoMixedState (by decide)⟩

/-! ## C30: the completion lookup under the caller protocol -/

theorem handleInv_fire (s s' : NemoJobQueue) (e : Event) (h : HandleInv s)
    (hg : protocolEnabled s e = true) (hf : fire s e = some s') : HandleInv s' := by
  obtain ⟨hn, hh⟩ := h
  cases e with
  | add_new_job p f u c i k =>
    simp only [protocolEnabled, Bool.and_eq_true, List.all_eq_true, bne_iff_ne, ne_eq] at hg
    simp only [fire, Option.some.injEq] at hf
    subst hf
    refine ⟨nodup_add_new_job s p f u c i k hg.1 hn, ?_⟩
    cases hr : (g_list_find_custom s.queued_jobs u compare_job_data_func).isSome with
    | true =>
      rw [add_new_job_rejected s p f u c i k hr]
      intro i' hi' hnf
      have e1 : announced { s with trace := s.trace ++ [Call.g_warning] } = announced s := by
        simp [announced, announcedOf, List.filterMap_append]
      have e2 : freed { s with trace := s.trace ++ [Call.g_warning] } = freed s := by
        simp [freed, freedOf, List.filterMap_append]
      rw [e1] at hi'
      rw [e2] at hnf
      exact hh i' hi' hnf
    | false =>
      obtain ⟨h1, h2, _, h4⟩ := add_new_job_accepted_effect s p f u c i k hr
        (fun j hj => hg.1 j (by simp [tracked, hj]))
      intro i' hi' hnf
      rw [h4] at hi'
      rw [h2] at hnf
      rcases List.mem_append.mp hi' with hi' | hi'
      · obtain ⟨j, hj, hji⟩ := hh i' hi' hnf
        exact ⟨j, h1.symm.subset (List.mem_cons_of_mem _ hj), hji⟩
      · simp only [List.mem_singleton] at hi'
        exact ⟨Job.mk p f u i c, h1.symm.subset (List.mem_cons_self _ _), hi'.symm⟩
  | finished i =>
    simp only [fire] at hf
    obtain ⟨job, hji, h1, h2, _, h4⟩ := job_finished_cb_effect s s' i hn hf
    refine ⟨nodup_job_finished_cb s s' i hf hn, ?_⟩
    intro i' hi' hnf
    rw [h4] at hi'
    rw [h2, List.map_append, List.mem_append, not_or] at hnf
    obtain ⟨j, hj, hji'⟩ := hh i' hi' hnf.1
    have hne : j ≠ job := by
      intro e
      apply hnf.2
      simp [← e, hji']
    rcases List.mem_cons.mp (h1.subset hj) with e | hmem
    · exact absurd e hne
    · exact ⟨j, hmem, hji'⟩
  | start_next_job =>
    simp only [fire, Option.some.injEq] at hf
    subst hf
    obtain ⟨_, h2, h3⟩ := ledger_start_next_job s
    refine ⟨nodup_start_next_job s hn, ?_⟩
    intro i' hi' hnf
    rw [h2] at hi'
    rw [h3] at hnf
    obtain ⟨j, hj, hji⟩ := hh i' hi' hnf
    exact ⟨j, (tracked_perm_start_next_job s).symm.subset hj, hji⟩
  | start_job_by_info i =>
    simp only [fire, Option.some.injEq] at hf
    subst hf
    obtain ⟨h0, _, h2, h3⟩ := tracked_perm_start_job_by_info s i hn
    refine ⟨(h0.map Job.ptr).nodup_iff.mpr hn, ?_⟩
    intro i' hi' hnf
    rw [h2] at hi'
    rw [h3] at hnf
    obtain ⟨j, hj, hji⟩ := hh i' hi' hnf
    exact ⟨j, h0.symm.subset hj, hji⟩

/-- C30. In every state reached from the empty queue by a run that keeps the
caller protocol (fresh blocks; an accepted submission uses a handle of no
tracked job; a handle signals `finished` at most once and only after a
submission with it was accepted), whenever a handle may signal `finished` the
lookup of `job_finished_cb` finds a job: the callback returns a state, it never
reads through NULL. -/
theorem finished_lookup_never_misses (evs : List Event) (s : NemoJobQueue) (i : Nat)
    (hrun : runGuarded protocolEnabled nemo_job_queue_init evs = some s)
    (hi : protocolEnabled s (Event.finished i) = true) :
    (job_finished_cb s i).isSome = true := by
  have hinv : HandleInv s :=
    runGuarded_invariant HandleInv protocolEnabled
      (fun s e s' hs hg hf => handleInv_fire s s' e hs hg hf) evs nemo_job_queue_init s
      ⟨by simp [tracked, nemo_job_queue_init],
        by simp [nemo_job_queue_init, announced, announcedOf]⟩ hrun
  simp only [protocolEnabled, Bool.and_eq_true, Bool.not_eq_true'] at hi
  obtain ⟨j, hj, hji⟩ := hinv.2 i (by simpa using hi.1)
    (by
      intro hm
      have : ((freed s).map Job.info).contains i = true := by simpa using hm
      rw [hi.2] at this
      exact Bool.false_ne_true this)
  rw [Option.isSome_iff_ne_none]
  intro hnone
  exact (job_finished_cb_eq_none_iff s i).mp hnone j hj hji

/-- C30, on the mixed run, which keeps the protocol: at its end the handle 12 of
the running job 102 may signal, and the lookup finds the job. -/
theorem finished_lookup_never_misses_witness :
    runGuarded protocolEnabled nemo_job_queue_init demoMixedEvents = some demoMixedState ∧
      protocolEnabled demoMixedState (Event.finished 12) = true ∧
      (job_finished_cb demoMixedState 12).isSome = true :=
  ⟨by decide, by decide,
    finished_lookup_never_misses demoMixedEvents demoMixedState 12 (by decide) (by decide)⟩

end JobQueue

namespace BookmarkList

/-! ## C21: the legacy fallback -/

/-- C21. `load_io_thread` reads the primary file whenever it exists (its
contents, or a warning when it cannot be read, whatever the legacy file is) and
the legacy file exactly when the primary file is missing; with only the legacy
file present the load completes by appending the bookmarks parsed from the
legacy contents (read as a C string), and with both files missing it yields no contents, no warning,
and the callback returns at once. -/
theorem legacy_fallback (c : List Char) (legacy : FileState) (self : NautilusBookmarkList)
    (rest : List AsyncOp) :
    load_io_thread { primary := FileState.present c, legacy := legacy } = (some c, []) ∧
      load_io_thread { primary := FileState.denied, legacy := legacy }
        = (none, [Call.g_warning]) ∧
      load_io_thread { primary := FileState.missing, legacy := FileState.present c }
        = (some c, []) ∧
      load_io_thread { primary := FileState.missing, legacy := FileState.denied }
        = (none, [Call.g_warning]) ∧
      load_io_thread { primary := FileState.missing, legacy := FileState.missing }
        = (none, []) ∧
      complete { self with in_flight := AsyncOp.load :: rest }
          { primary := FileState.missing, legacy := FileState.present c } =
        some (op_processed_cb
          { self with
            in_flight := rest
            list := self.list ++ parse_spec (c_string c)
            trace := self.trace ++ [Call.g_signal_emit_changed] }) ∧
      complete { self with in_flight := AsyncOp.load :: rest }
          { primary := FileState.missing, legacy := FileState.missing } =
        some { self with in_flight := rest } := by
  refine ⟨rfl, rfl, rfl, rfl, rfl, ?_, ?_⟩
  · have hio : load_io_thread
        { primary := FileState.missing, legacy := FileState.present c } = (some c, []) := rfl
    simp only [complete, hio, List.append_nil]
    rw [load_callback_eq]
  · have hio : load_io_thread
        { primary := FileState.missing, legacy := FileState.missing } = (none, []) := rfl
    simp only [complete, hio, List.append_nil, load_callback]

/-! ## C24: a save writes the list as it is when the save is dispatched -/

theorem written_process_next_op (s : NautilusBookmarkList) :
    written (process_next_op s) = written s := by
  unfold process_next_op
  simp only
  split
  · simp [written, load_file_async, clear, List.filterMap_append]
  · simp [written, save_file_async, List.filterMap_append]

theorem written_op_processed_cb (s : NautilusBookmarkList) :
    written (op_processed_cb s) = written s := by
  unfold op_processed_cb
  simp only
  split
  · rw [written_process_next_op]
    simp [written, List.filterMap_append]
  · simp [written, List.filterMap_append]

theorem process_next_op_in_flight (s : NautilusBookmarkList) :
    ∃ op, (process_next_op s).in_flight = s.in_flight ++ [op] := by
  unfold process_next_op
  simp only
  split
  · exact ⟨AsyncOp.load, rfl⟩
  · exact ⟨AsyncOp.save (bookmark_string s.list), rfl⟩

theorem save_file_in_flight (s : NautilusBookmarkList) :
    ∃ extra, (nautilus_bookmark_list_save_file s).in_flight = s.in_flight ++ extra := by
  unfold nautilus_bookmark_list_save_file
  simp only
  split
  · obtain ⟨op, h⟩ := process_next_op_in_flight
      { s with
        pending_ops := g_queue_push_head s.pending_ops SAVE_JOB
        trace := s.trace ++ [Call.g_signal_emit_changed, Call.g_queue_push_head SAVE_JOB] }
    exact ⟨[op], h⟩
  · exact ⟨[], by simp⟩

theorem load_file_in_flight (s : NautilusBookmarkList) :
    ∃ extra, (nautilus_bookmark_list_load_file s).in_flight = s.in_flight ++ extra := by
  unfold nautilus_bookmark_list_load_file
  simp only
  split
  · obtain ⟨op, h⟩ := process_next_op_in_flight
      { s with
        pending_ops := g_queue_push_head s.pending_ops LOAD_JOB
        trace := s.trace ++ [Call.g_queue_push_head LOAD_JOB] }
    exact ⟨[op], h⟩
  · exact ⟨[], by simp⟩

/-- An event other than a completion leaves the operations in flight as they
are, texts included, and at most adds one behind them. -/
theorem in_flight_kept_by_requests (s s' : NautilusBookmarkList) (e : Event)
    (he : e.isComplete = false) (h : fire s e = some s') :
    ∃ extra, s'.in_flight = s.in_flight ++ extra := by
  cases e with
  | append b =>
    simp only [fire, Option.some.injEq] at h
    subst h
    exact save_file_in_flight _
  | insert_item b i =>
    simp only [fire, Option.some.injEq] at h
    subst h
    unfold nautilus_bookmark_list_insert_item
    split
    · exact save_file_in_flight _
    · exact ⟨[], by simp⟩
  | delete_item_at i =>
    simp only [fire, Option.some.injEq] at h
    subst h
    unfold nautilus_bookmark_list_delete_item_at
    split
    · exact save_file_in_flight _
    · exact ⟨[], by simp⟩
  | move_item i d =>
    simp only [fire] at h
    unfold nautilus_bookmark_list_move_item at h
    split at h
    · simp only [Option.some.injEq] at h
      subst h
      exact ⟨[], by simp⟩
    · simp only at h
      split at h
      · simp at h
      · split at h
        · simp only [Option.some.injEq] at h
          subst h
          exact save_file_in_flight _
        · simp only [Option.some.injEq] at h
          subst h
          exact save_file_in_flight _
  | delete_items_with_uri u =>
    simp only [fire, Option.some.injEq] at h
    subst h
    unfold nautilus_bookmark_list_delete_items_with_uri
    split
    split
    · exact save_file_in_flight _
    · exact ⟨[], by simp⟩
  | contents_changed i b =>
    simp only [fire] at h
    split at h
    · simp only [Option.some.injEq] at h
      subst h
      exact save_file_in_flight _
    · simp at h
  | notify i b =>
    simp only [fire] at h
    split at h
    · simp only [Option.some.injEq] at h
      subst h
      exact ⟨[], by simp [bookmark_in_list_notify]⟩
    · simp at h
  | monitor_changed eflags =>
    simp only [fire, Option.some.injEq] at h
    subst h
    unfold bookmark_monitor_changed_cb
    split
    · exact load_file_in_flight _
    · exact ⟨[], by simp⟩
  | complete fs => simp [Event.isComplete] at he

/-- C24. When `process_next_op` dispatches a tag other than `LOAD_JOB`, the save
put in flight carries the text of the list as it is at that moment; events other
than completions leave the operations in flight and their texts as they are;
and when the save completes, the text it carries is the one passed to
`g_file_replace_contents`. -/
theorem save_snapshots_at_dispatch (self : NautilusBookmarkList)
    (hsave : g_queue_peek_tail self.pending_ops ≠ LOAD_JOB) :
    process_next_op self =
        { self with
          monitor := false
          in_flight := self.in_flight ++ [AsyncOp.save (serialise_spec self.list)]
          trace := self.trace ++
            [Call.g_simple_async_result_run_in_thread
              (AsyncOp.save (serialise_spec self.list))] } ∧
      (∀ (s s' : NautilusBookmarkList) (e : Event), e.isComplete = false →
        fire s e = some s' → ∃ extra, s'.in_flight = s.in_flight ++ extra) ∧
      (∀ (s : NautilusBookmarkList) (contents : List Char) (rest : List AsyncOp)
          (fs : FileSystem),
        ∃ s', complete { s with in_flight := AsyncOp.save contents :: rest } fs = some s' ∧
          written s' = written s ++ [contents]) := by
  refine ⟨?_, in_flight_kept_by_requests, ?_⟩
  · simp only [process_next_op, hsave, if_false, save_file_async, bookmark_string_eq_spec]
  · intro s contents rest fs
    refine ⟨_, rfl, ?_⟩
    simp only [save_callback]
    rw [written_op_processed_cb]
    unfold save_io_thread
    split <;> simp [written, List.filterMap_append]

/-- C24, on the example: on the idle empty list `file:///a` is appended, then
`file:///b`; the first save, dispatched by the first append, writes the list of
one bookmark, and the second, dispatched when the first completes, writes the
list of both. -/
theorem save_snapshots_at_dispatch_witness :
    demoIdleEmpty.list = [] ∧ demoIdleEmpty.pending_ops = [] ∧
      g_queue_peek_tail demoFirstAppendState.pending_ops ≠ LOAD_JOB ∧
      demoFirstAppendState.in_flight = [AsyncOp.save (serialise_spec [demoBookmarkA])] ∧
      run demoIdleEmpty demoTwoAppendsEvents = some demoTwoAppendsState ∧
      written demoTwoAppendsState
        = [serialise_spec [demoBookmarkA], serialise_spec [demoBookmarkA, demoBookmarkB]] ∧
      process_next_op demoFirstAppendState =
        { demoFirstAppendState with
          monitor := false
          in_flight := demoFirstAppendState.in_flight ++
            [AsyncOp.save (serialise_spec demoFirstAppendState.list)]
          trace := demoFirstAppendState.trace ++
            [Call.g_simple_async_result_run_in_thread
              (AsyncOp.save (serialise_spec demoFirstAppendState.list))] } :=
  ⟨by decide, by decide, by decide, by decide, by decide, by decide,
    (save_snapshots_at_dispatch demoFirstAppendState (by decide)).1⟩

/-! ## C26: where insert and append put the copy -/

theorem get?_take_cons_drop (l : List NautilusBookmark) (x : NautilusBookmark) (i : Nat)
    (hi : i ≤ l.length) :
    (l.take i ++ x :: l.drop i).get? i = some x ∧
      (∀ k, k < i → (l.take i ++ x :: l.drop i).get? k = l.get? k) ∧
      (∀ k, i ≤ k → (l.take i ++ x :: l.drop i).get? (k + 1) = l.get? k) := by
  induction l generalizing i with
  | nil =>
    have : i = 0 := by simpa using hi
    subst this
    refine ⟨rfl, ?_, ?_⟩
    · intro k hk; omega
    · intro k _; rfl
  | cons a rest ih =>
    cases i with
    | zero =>
      refine ⟨rfl, ?_, ?_⟩
      · intro k hk; omega
      · intro k _; rfl
    | succ n =>
      have hn : n ≤ rest.length := by simpa using hi
      obtain ⟨h1, h2, h3⟩ := ih n hn
      refine ⟨?_, ?_, ?_⟩
      · simpa using h1
      · intro k hk
        cases k with
        | zero => rfl
        | succ m => simpa using h2 m (by omega)
      · intro k hk
        cases k with
        | zero => omega
        | succ m => simpa using h3 m (by omega)

/-- C26. For a list of fewer than 2^31 entries and an index at most its length,
`insert_item` yields the former entries before `index`, then the copy of the
bookmark, then the former entries from `index` on: one entry more, the copy at
position `index`, the entries before it in place and the others shifted by one;
`append` puts the copy last, the same list as `insert_item` at the length. -/
theorem insert_and_append_positions (self : NautilusBookmarkList) (b : NautilusBookmark)
    (index : Nat) (hi : index ≤ self.list.length) (hlen : self.list.length < 2 ^ 31) :
    (nautilus_bookmark_list_insert_item self b index).list
        = self.list.take index ++ nautilus_bookmark_copy b :: self.list.drop index ∧
      (nautilus_bookmark_list_insert_item self b index).list.length = self.list.length + 1 ∧
      (nautilus_bookmark_list_insert_item self b index).list.get? index = some b ∧
      (∀ k, k < index →
        (nautilus_bookmark_list_insert_item self b index).list.get? k = self.list.get? k) ∧
      (∀ k, index ≤ k →
        (nautilus_bookmark_list_insert_item self b index).list.get? (k + 1)
          = self.list.get? k) ∧
      (nautilus_bookmark_list_append self b).list = self.list ++ [b] ∧
      (nautilus_bookmark_list_append self b).list
        = (nautilus_bookmark_list_insert_item self b self.list.length).list := by
  have hins : ∀ i, i ≤ self.list.length →
      (nautilus_bookmark_list_insert_item self b i).list
        = self.list.take i ++ nautilus_bookmark_copy b :: self.list.drop i := by
    intro i hi'
    simp only [nautilus_bookmark_list_insert_item, g_list_length, hi', if_true]
    rw [(save_file_fields _).1]
    simp only [insert_bookmark_internal]
    rw [toGint_of_lt i (by omega)]
    exact g_list_insert_nat self.list _ i hi'
  have happ : (nautilus_bookmark_list_append self b).list = self.list ++ [b] := by
    unfold nautilus_bookmark_list_append
    rw [(save_file_fields _).1]
    simp [insert_bookmark_internal, g_list_insert, nautilus_bookmark_copy]
  obtain ⟨g1, g2, g3⟩ := get?_take_cons_drop self.list (nautilus_bookmark_copy b) index hi
  refine ⟨hins index hi, ?_, ?_, ?_, ?_, happ, ?_⟩
  · rw [hins index hi]
    simp only [List.length_append, List.length_take, List.length_cons, List.length_drop]
    omega
  · rw [hins index hi]
    exact g1
  · intro k hk
    rw [hins index hi]
    exact g2 k hk
  · intro k hk
    rw [hins index hi]
    exact g3 k hk
  · rw [happ, hins self.list.length (le_refl _)]
    simp [nautilus_bookmark_copy]

/-- C26, on the list X, Y, Z: inserting `file:///a` at index 1 gives X, a, Y, Z,
and appending it gives X, Y, Z, a, as inserting at index 3 does. -/
theorem insert_and_append_positions_witness :
    demoXYZ.list = [demoX, demoY, demoZ] ∧
      (nautilus_bookmark_list_insert_item demoXYZ demoBookmarkA 1).list
        = [demoX, demoBookmarkA, demoY, demoZ] ∧
      (nautilus_bookmark_list_append demoXYZ demoBookmarkA).list
        = [demoX, demoY, demoZ, demoBookmarkA] ∧
      (nautilus_bookmark_list_insert_item demoXYZ demoBookmarkA 1).list.get? 1
        = some demoBookmarkA ∧
      (nautilus_bookmark_list_append demoXYZ demoBookmarkA).list
        = (nautilus_bookmark_list_insert_item demoXYZ demoBookmarkA demoXYZ.list.length).list :=
  ⟨by decide, by decide, by decide,
    (insert_and_append_positions demoXYZ demoBookmarkA 1 (by decide) (by decide)).2.2.1,
    (insert_and_append_positions demoXYZ demoBookmarkA 1 (by decide) (by decide)).2.2.2.2.2.2⟩

/-! ## C29: a move forward by one -/

theorem take_eraseIdx_cons_drop (l : List NautilusBookmark) (i : Nat) (hi : i < l.length) :
    (l.eraseIdx i).take i ++ l.get ⟨i, hi⟩ :: (l.eraseIdx i).drop i = l := by
  induction l generalizing i with
  | nil => simp at hi
  | cons a rest ih =>
    cases i with
    | zero => rfl
    | succ n =>
      have hn : n < rest.length := by simpa using hi
      simpa using ih n hn

/-- C29. For a list of fewer than 2^31 entries and every `index` below its length,
`nautilus_bookmark_list_move_item (index, index + 1)` returns with the list in
the order it had, one more `changed` emitted and `SAVE_JOB` pushed onto
`pending_ops`. -/
theorem move_forward_by_one_keeps_order (self : NautilusBookmarkList) (index : Nat)
    (hi : index < self.list.length) (hlen : self.list.length < 2 ^ 31) :
    Option.map NautilusBookmarkList.list
        (nautilus_bookmark_list_move_item self index (index + 1)) = some self.list ∧
      Option.map changed_count (nautilus_bookmark_list_move_item self index (index + 1))
        = some (changed_count self + 1) ∧
      Option.map NautilusBookmarkList.pending_ops
          (nautilus_bookmark_list_move_item self index (index + 1))
        = some (SAVE_JOB :: self.pending_ops) := by
  have hm := move_item_eq self index (index + 1) hi (by omega)
  obtain ⟨h1, _⟩ := move_item_insert self.list (self.list.get ⟨index, hi⟩) index (index + 1)
    hi hlen (by omega)
  have hpos : move_position self.list.length index (index + 1) = index := by
    unfold move_position
    rw [if_pos (by omega), if_pos (by omega)]
    omega
  rw [hpos, take_eraseIdx_cons_drop self.list index hi] at h1
  rw [h1] at hm
  rw [hm]
  obtain ⟨f1, f2, f3, _⟩ := save_file_fields { self with list := self.list }
  simp only [Option.map_some']
  exact ⟨by rw [f1], by rw [f3], by rw [f2]⟩

/-- C29, on the list X, Y, Z: `move_item (1, 2)` leaves X, Y, Z, emits `changed`
and pushes `SAVE_JOB`. -/
theorem move_forward_by_one_keeps_order_witness :
    demoXYZ.list = [demoX, demoY, demoZ] ∧ demoXYZ.pending_ops = [] ∧
      Option.map NautilusBookmarkList.list (nautilus_bookmark_list_move_item demoXYZ 1 2)
        = some [demoX, demoY, demoZ] ∧
      Option.map NautilusBookmarkList.pending_ops (nautilus_bookmark_list_move_item demoXYZ 1 2)
        = some (SAVE_JOB :: demoXYZ.pending_ops) ∧
      Option.map changed_count (nautilus_bookmark_list_move_item demoXYZ 1 2)
        = some (changed_count demoXYZ + 1) :=
  ⟨by decide, by decide, by decide,
    (move_forward_by_one_keeps_order demoXYZ 1 (by decide) (by decide)).2.2,
    (move_forward_by_one_keeps_order demoXYZ 1 (by decide) (by decide)).2.1⟩

end BookmarkList
